import Mathlib

/-
Verification of the jsondiff Differ (differ.go) against its specification.

The JSON value model follows Go's encoding/json generic representation:
nil (JSON null), bool, float64/number, string, []interface{} and
map[string]interface{}.  Objects are embedded as association lists so that
key insertion order is observable (Go maps are unordered; list order models
the insertion/iteration order of a particular run).  Numbers are embedded
as integers (the spec leaves numeric representation to the decoder).

General recursion over JSON trees (which in the Go source recurses through
map lookups) is embedded with an explicit fuel parameter; every function is
structurally recursive on the fuel and therefore computable by the kernel.
Theorems that need the fuel to be sufficient take a hypothesis comparing
the fuel with sizeOf of the trees.
-/

inductive JSON where
  | null
  | bool (b : Bool)
  | num (n : Int)
  | str (s : String)
  | arr (elems : List JSON)
  | obj (fields : List (String × JSON))

theorem json_sizeOf_pos (a : JSON) : 0 < sizeOf a := by
  cases a <;> simp

theorem sizeOf_mem_elems {x : JSON} {xs : List JSON} (h : x ∈ xs) :
    sizeOf x < sizeOf (JSON.arr xs) := by
  have := List.sizeOf_lt_of_mem h
  simp only [JSON.arr.sizeOf_spec]
  omega

theorem sizeOf_mem_fields {k : String} {v : JSON} {fs : List (String × JSON)}
    (h : (k, v) ∈ fs) : sizeOf v < sizeOf (JSON.obj fs) := by
  have h1 := List.sizeOf_lt_of_mem h
  have h2 : sizeOf (k, v) = 1 + sizeOf k + sizeOf v := rfl
  simp only [JSON.obj.sizeOf_spec]
  omega

/-- Structural (representation-level) equality on JSON embedded as a fueled
boolean test; used to obtain decidable equality facts on concrete values. -/
def beqListWith (eq : JSON → JSON → Bool) : List JSON → List JSON → Bool
  | [], [] => true
  | x :: xs, y :: ys => eq x y && beqListWith eq xs ys
  | _, _ => false

def beqFieldsWith (eq : JSON → JSON → Bool) : List (String × JSON) → List (String × JSON) → Bool
  | [], [] => true
  | (k, v) :: xs, (k2, v2) :: ys => k == k2 && eq v v2 && beqFieldsWith eq xs ys
  | _, _ => false

def beqJSON : Nat → JSON → JSON → Bool
  | 0, _, _ => false
  | f + 1, a, b =>
    match a, b with
    | .null, .null => true
    | .bool x, .bool y => x == y
    | .num x, .num y => x == y
    | .str x, .str y => x == y
    | .arr xs, .arr ys => beqListWith (beqJSON f) xs ys
    | .obj xs, .obj ys => beqFieldsWith (beqJSON f) xs ys
    | _, _ => false

theorem beqListWith_iff (eq : JSON → JSON → Bool) (xs : List JSON)
    (h : ∀ x ∈ xs, ∀ y, eq x y = true ↔ x = y) :
    ∀ ys, beqListWith eq xs ys = true ↔ xs = ys := by
  induction xs with
  | nil => intro ys; cases ys <;> simp [beqListWith]
  | cons x xs ih =>
    intro ys
    cases ys with
    | nil => simp [beqListWith]
    | cons y ys =>
      simp only [beqListWith, Bool.and_eq_true]
      rw [h x (by simp) y, ih (fun x hx => h x (by simp [hx]))]
      simp

theorem beqFieldsWith_iff (eq : JSON → JSON → Bool) (xs : List (String × JSON))
    (h : ∀ kv ∈ xs, ∀ y, eq kv.2 y = true ↔ kv.2 = y) :
    ∀ ys, beqFieldsWith eq xs ys = true ↔ xs = ys := by
  induction xs with
  | nil => intro ys; cases ys <;> simp [beqFieldsWith]
  | cons kv xs ih =>
    intro ys
    cases ys with
    | nil => simp [beqFieldsWith]
    | cons kv2 ys =>
      obtain ⟨k, v⟩ := kv
      obtain ⟨k2, v2⟩ := kv2
      simp only [beqFieldsWith, Bool.and_eq_true, beq_iff_eq]
      rw [h (k, v) (by simp) v2, ih (fun kv hkv => h kv (by simp [hkv]))]
      simp only [Prod.mk.injEq, List.cons.injEq]
      try tauto

theorem beqJSON_iff : ∀ (f : Nat) (a b : JSON), sizeOf a ≤ f →
    (beqJSON f a b = true ↔ a = b) := by
  intro f
  induction f with
  | zero => intro a b h; have := json_sizeOf_pos a; omega
  | succ f ih =>
    intro a b h
    cases a <;> cases b <;> try (simp [beqJSON]; done)
    case arr.arr xs ys =>
      simp only [beqJSON, JSON.arr.injEq]
      exact beqListWith_iff _ xs
        (fun x hx y => ih x y (by have := sizeOf_mem_elems hx; omega)) ys
    case obj.obj xs ys =>
      simp only [beqJSON, JSON.obj.injEq]
      exact beqFieldsWith_iff _ xs
        (fun kv hkv y => ih kv.2 y
          (by have := sizeOf_mem_fields (k := kv.1) (v := kv.2) (by simpa using hkv); omega)) ys

theorem json_ne_of_beq_false {f : Nat} {a b : JSON} (hf : sizeOf a ≤ f)
    (h : beqJSON f a b = false) : a ≠ b := by
  intro he
  rw [← beqJSON_iff f a b hf] at he
  rw [h] at he
  cases he

/-
String ordering and sorting.  differ.go sorts object keys with sortStrings
(an insertion sort for fewer than 20 elements, sort.Strings otherwise; both
produce the unique ascending reordering of the distinct keys, which the
functions below compute).  Go string comparison is lexicographic on bytes;
since UTF-8 byte order coincides with code-point order, comparison on the
code points of the characters is faithful.
-/

def charListLt : List Char → List Char → Bool
  | [], [] => false
  | [], _ :: _ => true
  | _ :: _, [] => false
  | c :: cs, d :: ds => c.toNat < d.toNat || (c.toNat == d.toNat && charListLt cs ds)

def strLt (a b : String) : Bool := charListLt a.data b.data

/-- Insertion step of insertionSort from differ.go: elements strictly greater
than the key are shifted after it, so the key lands after all elements that
are less than or equal to it. -/
def insertStr (x : String) : List String → List String
  | [] => [x]
  | y :: ys => if strLt x y then x :: y :: ys else y :: insertStr x ys

/-- Functional rendering of sortStrings/insertionSort from differ.go. -/
def sortStrings : List String → List String
  | [] => []
  | x :: xs => insertStr x (sortStrings xs)

/-- Deduplication of a key list; compareObjects in differ.go achieves this
with the cmpSet map whose domain is the union of the two key sets. -/
def dedupKeys : List String → List String
  | [] => []
  | x :: xs => if xs.contains x then dedupKeys xs else x :: dedupKeys xs

/-
JSON Pointer construction.  Modelled from the spec, section 4.1 (Path
Tracker): the pointer type used by differ.go lives outside src/; paths are
token strings joined by a slash where a key has its tilde and slash
characters escaped as tilde-0 and tilde-1.
-/

def emptyPtr : String := ""

def escapeKey (s : String) : String :=
  String.mk (s.data.foldr (fun c acc =>
    if c = '~' then '~' :: '0' :: acc
    else if c = '/' then '~' :: '1' :: acc
    else c :: acc) [])

def appendKey (ptr k : String) : String := ptr ++ "/" ++ escapeKey k

def appendIndex (ptr : String) (i : Nat) : String := ptr ++ "/" ++ Nat.repr i

def isRoot (ptr : String) : Bool := ptr == ""

/-- Go strings.HasPrefix s pre, on the character lists of the strings. -/
def goHasPfx (s pre : String) : Bool := pre.data.isPrefixOf s.data

/-
Deep equality.  Modelled from the spec, section 4.2 (Content Hasher /
deep equality): the functions deepEqual, deepValueEqual, areComparable and
typeSwitchKind used by differ.go live outside src/.  Two values are deeply
equal when: null equals null; booleans, numbers and strings are equal by
value; arrays have the same length and pairwise deeply equal elements in
order; objects have the same key set and pairwise deeply equal values (key
order irrelevant).  The test is embedded with a fuel parameter bounding the
recursion depth into the first argument.
-/

def lookupField : List (String × JSON) → String → Option JSON
  | [], _ => none
  | (k, v) :: rest, key => if k == key then some v else lookupField rest key

def deepEqualListWith (eq : JSON → JSON → Bool) : List JSON → List JSON → Bool
  | [], [] => true
  | x :: xs, y :: ys => eq x y && deepEqualListWith eq xs ys
  | _, _ => false

def deepEqualSubWith (eq : JSON → JSON → Bool) (b : List (String × JSON)) :
    List (String × JSON) → Bool
  | [] => true
  | (k, v) :: rest =>
    (match lookupField b k with
     | some w => eq v w
     | none => false) && deepEqualSubWith eq b rest

def keySetEq (a b : List (String × JSON)) : Bool :=
  sortStrings (dedupKeys (a.map Prod.fst)) == sortStrings (dedupKeys (b.map Prod.fst))

def deepEqualF : Nat → JSON → JSON → Bool
  | 0, _, _ => false
  | f + 1, a, b =>
    match a, b with
    | .null, .null => true
    | .bool x, .bool y => x == y
    | .num x, .num y => x == y
    | .str x, .str y => x == y
    | .arr xs, .arr ys => deepEqualListWith (deepEqualF f) xs ys
    | .obj xs, .obj ys => keySetEq xs ys && deepEqualSubWith (deepEqualF f) ys xs
    | _, _ => false

inductive JSONKind where
  | nullK
  | boolK
  | numK
  | strK
  | arrK
  | objK
deriving DecidableEq

/-- Modelled from the spec: the dynamic kind of a value, as used by
typeSwitchKind in the Go sources outside src/. -/
def typeSwitchKind : JSON → JSONKind
  | .null => .nullK
  | .bool _ => .boolK
  | .num _ => .numK
  | .str _ => .strK
  | .arr _ => .arrK
  | .obj _ => .objK

/-- Modelled from the spec, section 4.4 step 3: two values are comparable
when they have the same dynamic kind (the Go helper areComparable lives
outside src/). -/
def areComparable (a b : JSON) : Bool := typeSwitchKind a == typeSwitchKind b

/-
Well-formedness: every object in the tree has pairwise distinct keys.  Go
map-based documents always satisfy this; the association-list embedding is
wider, so theorems sensitive to duplicate keys assume it.
-/

def hasDupKeys : List String → Bool
  | [] => false
  | k :: ks => ks.contains k || hasDupKeys ks

def wfListWith (w : JSON → Bool) : List JSON → Bool
  | [] => true
  | x :: xs => w x && wfListWith w xs

def wfFieldsWith (w : JSON → Bool) : List (String × JSON) → Bool
  | [] => true
  | (_, v) :: rest => w v && wfFieldsWith w rest

def wfF : Nat → JSON → Bool
  | 0, _ => false
  | f + 1, a =>
    match a with
    | .arr xs => wfListWith (wfF f) xs
    | .obj fs => !hasDupKeys (fs.map Prod.fst) && wfFieldsWith (wfF f) fs
    | _ => true

/-
Patch model.  Modelled from the spec, section 3 and 4.3 (the Go types
Operation and Patch live outside src/): an operation carries a type, an
optional source path (from), a path, an optional old value and an optional
value.  Go represents absent values as nil interfaces, which coincide with
JSON null; the embedding therefore uses null for absent value fields,
exactly as the call sites in differ.go pass nil.
-/

inductive OpType where
  | add
  | remove
  | replace
  | move
  | copy
  | test
deriving DecidableEq

def opName : OpType → String
  | .add => "add"
  | .remove => "remove"
  | .replace => "replace"
  | .move => "move"
  | .copy => "copy"
  | .test => "test"

structure Operation where
  type : OpType
  fromPtr : String
  path : String
  oldValue : JSON
  value : JSON

abbrev Patch := List Operation

/-- Patch.append from the patch model: appends one operation built from the
given type, source path, path, old value and value. -/
def patchAppend (p : Patch) (t : OpType) (f path : String) (old val : JSON) : Patch :=
  p ++ [⟨t, f, path, old, val⟩]

/-- Patch.remove from the patch model: deletes the operation at an index. -/
def patchRemoveAt (p : Patch) (i : Nat) : Patch := p.eraseIdx i

/-
Serialized cost.  Modelled from the spec, sections 4.3 and 6: the cost of
an operation is the length of its RFC 6902 wire rendering, produced by the
injected deterministic encode function (Go json.Marshal, which renders
objects with sorted keys); value is absent for remove, from is present only
for move and copy.  String content escaping inside JSON strings is not
modelled; it only translates lengths by a constant on the concrete values
considered here.
-/

def quoteStr (s : String) : String := "\"" ++ s ++ "\""

def joinComma : List String → String
  | [] => ""
  | [x] => x
  | x :: xs => x ++ "," ++ joinComma xs

def insertEncField (x : String × String) : List (String × String) → List (String × String)
  | [] => [x]
  | y :: ys => if strLt x.1 y.1 then x :: y :: ys else y :: insertEncField x ys

def sortEncFields : List (String × String) → List (String × String)
  | [] => []
  | x :: xs => insertEncField x (sortEncFields xs)

def encListWith (e : JSON → String) : List JSON → List String
  | [] => []
  | x :: xs => e x :: encListWith e xs

def encFieldsWith (e : JSON → String) : List (String × JSON) → List (String × String)
  | [] => []
  | (k, v) :: xs => (k, e v) :: encFieldsWith e xs

def encodeF : Nat → JSON → String
  | 0, _ => ""
  | f + 1, v =>
    match v with
    | .null => "null"
    | .bool true => "true"
    | .bool false => "false"
    | .num n => toString n
    | .str s => quoteStr s
    | .arr xs => "[" ++ joinComma (encListWith (encodeF f) xs) ++ "]"
    | .obj fs =>
      "\x7b" ++ joinComma ((sortEncFields (encFieldsWith (encodeF f) fs)).map
        (fun p => quoteStr p.1 ++ ":" ++ p.2)) ++ "\x7d"

def opJsonLength (f : Nat) (op : Operation) : Nat :=
  ("\x7b" ++ quoteStr "op" ++ ":" ++ quoteStr (opName op.type) ++ "," ++
      quoteStr "path" ++ ":" ++ quoteStr op.path ++
      (match op.type with
       | .move | .copy => "," ++ quoteStr "from" ++ ":" ++ quoteStr op.fromPtr
       | _ => "") ++
      (match op.type with
       | .add | .replace | .test => "," ++ quoteStr "value" ++ ":" ++ encodeF f op.value
       | _ => "") ++
      "\x7d").length

def patchJsonLength (f : Nat) : Patch → Nat
  | [] => 0
  | op :: rest => opJsonLength f op + patchJsonLength f rest

/-
The Differ data type from differ.go.  The hasher and its uint64 digests are
modelled from the spec, section 4.2: a digest with no collisions beyond
deep equality, so the hash index keyed by digest becomes a list of nodes
keyed by the deep-equality class of the stored value.  The pointer field is
threaded through the recursion functionally (Compare resets it before the
main pass).  The marshal/unmarshal options and targetBytes only feed the
cost estimate and are replaced by the modelled encode above.
-/

structure jsonNode where
  ptr : String
  val : JSON

structure Options where
  factorize : Bool
  rationalize : Bool
  invertible : Bool
  equivalent : Bool
  ignores : List String

structure Differ where
  patch : Patch
  hashmap : List jsonNode
  opts : Options

/-- Map insertion keyed by the deep-equality class of the stored value
(a Go map write hashmap digest := node; last writer wins). -/
def hashmapInsert (f : Nat) : List jsonNode → jsonNode → List jsonNode
  | [], n => [n]
  | e :: rest, n =>
    if deepEqualF f e.val n.val then n :: rest else e :: hashmapInsert f rest n

def findUnchangedIn (f : Nat) (v : JSON) : List jsonNode → String
  | [] => emptyPtr
  | e :: rest => if deepEqualF f e.val v then e.ptr else findUnchangedIn f v rest

/-- Differ.findUnchanged from differ.go: the hash-index lookup, returning
the stored target path or the empty pointer. -/
def Differ.findUnchanged (f : Nat) (d : Differ) (v : JSON) : String :=
  findUnchangedIn f v d.hashmap

def findRemovedAux (f : Nat) (v : JSON) : Patch → Nat → Option Nat
  | [], _ => none
  | op :: rest, i =>
    if op.type == OpType.remove && deepEqualF f op.oldValue v then some i
    else findRemovedAux f v rest (i + 1)

/-- Differ.findRemoved from differ.go: the linear scan for the first
already-emitted remove operation whose old value deeply equals v; none in
place of the Go sentinel -1. -/
def Differ.findRemoved (f : Nat) (d : Differ) (v : JSON) : Option Nat :=
  findRemovedAux f v d.patch 0

/-- Differ.add from differ.go. -/
def Differ.add (f : Nat) (d : Differ) (ptr : String) (v : JSON) : Differ :=
  if !d.opts.factorize then
    { d with patch := patchAppend d.patch .add emptyPtr ptr .null v }
  else
    match Differ.findRemoved f d v with
    | some idx =>
      let op := d.patch.getD idx ⟨.add, emptyPtr, emptyPtr, .null, .null⟩
      if !goHasPfx ptr op.path then
        { d with patch := patchAppend (patchRemoveAt d.patch idx) .move op.path ptr v v }
      else
        d
    | none =>
      let uptr := Differ.findUnchanged f d v
      if uptr.length != 0 && !d.opts.invertible then
        { d with patch := patchAppend d.patch .copy uptr ptr .null v }
      else
        { d with patch := patchAppend d.patch .add emptyPtr ptr .null v }

/-- Differ.replace from differ.go. -/
def Differ.replace (d : Differ) (ptr : String) (src tgt : JSON) : Differ :=
  let d1 :=
    if d.opts.invertible then
      { d with patch := patchAppend d.patch .test emptyPtr ptr .null src }
    else d
  { d1 with patch := patchAppend d1.patch .replace emptyPtr ptr src tgt }

/-- Differ.remove from differ.go. -/
def Differ.remove (d : Differ) (ptr : String) (v : JSON) : Differ :=
  let d1 :=
    if d.opts.invertible then
      { d with patch := patchAppend d.patch .test emptyPtr ptr .null v }
    else d
  { d1 with patch := patchAppend d1.patch .remove emptyPtr ptr v .null }

/-- Differ.rationalizeLastOps from differ.go. -/
def Differ.rationalizeLastOps (f : Nat) (d : Differ) (ptr : String) (src tgt : JSON)
    (lastOpIdx : Nat) : Differ :=
  let replaceOp : Operation := ⟨.replace, emptyPtr, ptr, .null, tgt⟩
  let newOps : Patch :=
    (if d.opts.invertible then [⟨.test, emptyPtr, ptr, .null, src⟩] else []) ++ [replaceOp]
  let curOps := d.patch.drop lastOpIdx
  let newLen := opJsonLength f replaceOp
  let curLen := patchJsonLength f curOps
  if newLen < curLen then
    { d with patch := d.patch.take lastOpIdx ++ newOps }
  else d

/-- Differ.compareObjects from differ.go, parameterized by the recursive
diff continuation.  The cmpSet map with its two presence bits is rendered
as the deduplicated union of the key lists together with membership tests;
keys are processed in sorted order exactly as in the source. -/
def Differ.compareObjects (diffK : Differ → String → JSON → JSON → Differ) (f : Nat)
    (d : Differ) (ptr : String) (src tgt : List (String × JSON)) : Differ :=
  let keys := sortStrings (dedupKeys (src.map Prod.fst ++ tgt.map Prod.fst))
  keys.foldl (fun d k =>
    let inOld := (src.map Prod.fst).contains k
    let inNew := (tgt.map Prod.fst).contains k
    let kptr := appendKey ptr k
    if inOld && inNew then
      diffK d kptr ((lookupField src k).getD .null) ((lookupField tgt k).getD .null)
    else if inOld && !inNew then
      (if d.opts.ignores.contains kptr then d
       else Differ.remove d kptr ((lookupField src k).getD .null))
    else if !inOld && inNew then
      (if d.opts.ignores.contains kptr then d
       else Differ.add f d kptr ((lookupField tgt k).getD .null))
    else d) d

def bumpClass (f : Nat) (v : JSON) : List (JSON × Nat) → List (JSON × Nat)
  | [] => [(v, 1)]
  | (w, n) :: rest =>
    if deepEqualF f w v then (w, n + 1) :: rest else (w, n) :: bumpClass f v rest

def dropClass (f : Nat) (v : JSON) : List (JSON × Nat) → Option (List (JSON × Nat))
  | [] => none
  | (w, n) :: rest =>
    if deepEqualF f w v then
      (if n = 1 then some rest else some ((w, n - 1) :: rest))
    else
      match dropClass f v rest with
      | some r => some ((w, n) :: r)
      | none => none

def consumeClasses (f : Nat) : List JSON → List (JSON × Nat) → Bool
  | [], acc => acc.isEmpty
  | v :: vs, acc =>
    match dropClass f v acc with
    | some acc2 => consumeClasses f vs acc2
    | none => false

/-- Differ.unorderedDeepEqualSlice from differ.go.  The Go function counts
digest multiplicities in a map; with the collision-free digest model this
is multiset equality of deep-equality classes, rendered with an explicit
class-count list. -/
def unorderedDeepEqualSlice (f : Nat) (src tgt : List JSON) : Bool :=
  if src.length != tgt.length then false
  else consumeClasses f tgt (src.foldl (fun acc v => bumpClass f v acc) [])

/-- Removal loop of Differ.compareArrays from differ.go: when the source
array is longer, a remove at the fixed pointer index size is emitted for
each trailing source index, each checked individually against ignores. -/
def arrayRemovals (d : Differ) (ptr : String) (size : Nat) (src : List JSON) : Differ :=
  if size < src.length then
    (List.range (src.length - size)).foldl (fun d j =>
      if d.opts.ignores.contains (appendIndex ptr (size + j)) then d
      else Differ.remove d (appendIndex ptr size) (src.getD (size + j) .null)) d
  else d

/-- Pairwise loop of Differ.compareArrays from differ.go: recurse on the
indices present in both arrays. -/
def arrayPairwise (diffK : Differ → String → JSON → JSON → Differ)
    (d : Differ) (ptr : String) (size : Nat) (src tgt : List JSON) : Differ :=
  (List.range size).foldl (fun d i =>
    diffK d (appendIndex ptr i) (src.getD i .null) (tgt.getD i .null)) d

/-- Append loop of Differ.compareArrays from differ.go: when the target
array is longer, an add at the append pointer is emitted for each trailing
target index, each checked against ignores at its index path. -/
def arrayAppends (f : Nat) (d : Differ) (ptr : String) (size : Nat) (tgt : List JSON) : Differ :=
  (List.range (tgt.length - size)).foldl (fun d j =>
    if d.opts.ignores.contains (appendIndex ptr (size + j)) then d
    else Differ.add f d (appendKey ptr "-") (tgt.getD (size + j) .null)) d

/-- Differ.compareArrays from differ.go, parameterized by the recursive
diff continuation and decomposed into its three loops. -/
def Differ.compareArrays (diffK : Differ → String → JSON → JSON → Differ) (f : Nat)
    (d : Differ) (ptr : String) (src tgt : List JSON) : Differ :=
  let size := min src.length tgt.length
  let d1 := arrayRemovals d ptr size src
  let d2 :=
    if d1.opts.equivalent && unorderedDeepEqualSlice f src tgt then d1
    else arrayPairwise diffK d1 ptr size src tgt
  arrayAppends f d2 ptr size tgt

/-- Differ.prepare from differ.go.  The iteration over the source object in
the Go source is a Go map range whose order is unspecified; the embedding
iterates the association list in its (insertion) order, one admissible
realization of that order. -/
def Differ.prepare : Nat → Differ → String → JSON → JSON → Differ
  | 0, d, _, _, _ => d
  | f + 1, d, ptr, src, tgt =>
    let pr := Differ.prepare f
    match src, tgt with
    | .null, .null => d
    | _, _ =>
      if !areComparable src tgt then d
      else if deepEqualF (f + 1) src tgt then
        { d with hashmap := hashmapInsert (f + 1) d.hashmap ⟨ptr, tgt⟩ }
      else
        match src, tgt with
        | .arr oarr, .arr narr =>
          (List.range (min oarr.length narr.length)).foldl
            (fun d i => pr d (appendIndex ptr i) (oarr.getD i .null) (narr.getD i .null)) d
        | .obj oobj, .obj nobj =>
          oobj.foldl (fun d kv =>
            match lookupField nobj kv.1 with
            | some v2 => pr d (appendKey ptr kv.1) kv.2 v2
            | none => d) d
        | _, _ => d

/-- Differ.diff from differ.go. -/
def Differ.diff : Nat → Differ → String → JSON → JSON → Differ
  | 0, d, _, _, _ => d
  | f + 1, d, ptr, src, tgt =>
    let diffK := Differ.diff f
    match src, tgt with
    | .null, .null => d
    | _, _ =>
      if d.opts.ignores.contains ptr then d
      else if !areComparable src tgt then
        (if isRoot ptr then
          { d with patch := patchAppend d.patch .add emptyPtr ptr src tgt }
         else Differ.replace d ptr src tgt)
      else if deepEqualF (f + 1) src tgt then d
      else
        let size := d.patch.length
        match src, tgt with
        | .arr a1, .arr a2 =>
          let d2 := Differ.compareArrays diffK (f + 1) d ptr a1 a2
          if d2.opts.rationalize && size < d2.patch.length then
            Differ.rationalizeLastOps (f + 1) d2 ptr src tgt size
          else d2
        | .obj o1, .obj o2 =>
          let d2 := Differ.compareObjects diffK (f + 1) d ptr o1 o2
          if d2.opts.rationalize && size < d2.patch.length then
            Differ.rationalizeLastOps (f + 1) d2 ptr src tgt size
          else d2
        | _, _ => Differ.replace d ptr src tgt

/-- Differ.Compare from differ.go: the optional preparatory pass followed by
the main diff pass from a freshly reset pointer. -/
def Differ.Compare (f : Nat) (d : Differ) (src tgt : JSON) : Differ :=
  let d1 := if d.opts.factorize then Differ.prepare f d emptyPtr src tgt else d
  Differ.diff f d1 emptyPtr src tgt

/-- Differ.Reset from differ.go: empties the patch and the hash index while
the reusable buffers persist (the path builder is threaded functionally and
is re-rooted by Compare itself). -/
def Differ.Reset (d : Differ) : Differ :=
  { d with patch := [], hashmap := [] }

/-- Differ.Patch from differ.go. -/
def Differ.Patch (d : Differ) : Patch := d.patch

def freshDiffer (opts : Options) : Differ := ⟨[], [], opts⟩

/-- One comparison from a fresh Differ: the patch that Compare(src, tgt)
produces for a given configuration. -/
def compareP (f : Nat) (opts : Options) (src tgt : JSON) : Patch :=
  (Differ.Compare f (freshDiffer opts) src tgt).patch

/-
Patch application.  Modelled from the spec, sections 3 and 6, and the
RFC 6902 semantics it references (application is outside this repository):
add inserts (upserting object members, inserting or appending with the
dash token into arrays), remove deletes the referenced location, replace
sets an existing location (at the root it replaces the document), move is
remove-at-from followed by add-at-path of the removed value, copy is
add-at-path of the value read at from, and test succeeds when the value at
path is deeply equal to the operand.  Pointers are parsed back into tokens
by splitting on slashes and unescaping tilde-1 and tilde-0.
-/

def unescAux : List Char → List Char
  | [] => []
  | '~' :: '0' :: rest => '~' :: unescAux rest
  | '~' :: '1' :: rest => '/' :: unescAux rest
  | c :: rest => c :: unescAux rest

def splitSlashAux (acc : List Char) : List Char → List String
  | [] => [String.mk (unescAux acc.reverse)]
  | c :: rest =>
    if c = '/' then String.mk (unescAux acc.reverse) :: splitSlashAux [] rest
    else splitSlashAux (c :: acc) rest

/-- Parse a JSON Pointer string into its unescaped token list; the empty
string denotes the document root. -/
def parsePointer (s : String) : List String :=
  match splitSlashAux [] s.data with
  | [] => []
  | _ :: toks => toks

def tokDigitsToNat : List Char → Option Nat
  | [] => none
  | cs => cs.foldl (fun acc c =>
      match acc with
      | none => none
      | some n => if c.toNat < 48 || 57 < c.toNat then none else some (n * 10 + (c.toNat - 48)))
      (some 0)

def tokToIndex (s : String) : Option Nat := tokDigitsToNat s.data

def containsKey (fs : List (String × JSON)) (k : String) : Bool :=
  (fs.map Prod.fst).contains k

def setField (k : String) (nv : JSON) : List (String × JSON) → List (String × JSON)
  | [] => []
  | (k2, v) :: rest => if k2 == k then (k2, nv) :: rest else (k2, v) :: setField k nv rest

def upsertField (k : String) (nv : JSON) (fs : List (String × JSON)) : List (String × JSON) :=
  if containsKey fs k then setField k nv fs else fs ++ [(k, nv)]

def removeField (k : String) : List (String × JSON) → List (String × JSON)
  | [] => []
  | (k2, v) :: rest => if k2 == k then rest else (k2, v) :: removeField k rest

def getAtPath : JSON → List String → Option JSON
  | v, [] => some v
  | .obj fs, tok :: rest =>
    (match lookupField fs tok with
     | some child => getAtPath child rest
     | none => none)
  | .arr xs, tok :: rest =>
    (match tokToIndex tok with
     | some i => if h : i < xs.length then getAtPath (xs.get ⟨i, h⟩) rest else none
     | none => none)
  | _, _ :: _ => none

def addAtPath : JSON → List String → JSON → Option JSON
  | _, [], nv => some nv
  | .obj fs, [tok], nv => some (.obj (upsertField tok nv fs))
  | .arr xs, [tok], nv =>
    if tok = "-" then some (.arr (xs ++ [nv]))
    else
      (match tokToIndex tok with
       | some i => if i ≤ xs.length then some (.arr (xs.take i ++ nv :: xs.drop i)) else none
       | none => none)
  | .obj fs, tok :: rest, nv =>
    (match lookupField fs tok with
     | some child => (addAtPath child rest nv).map (fun c2 => .obj (setField tok c2 fs))
     | none => none)
  | .arr xs, tok :: rest, nv =>
    (match tokToIndex tok with
     | some i =>
       if h : i < xs.length then
         (addAtPath (xs.get ⟨i, h⟩) rest nv).map (fun c2 => .arr (xs.set i c2))
       else none
     | none => none)
  | _, _ :: _, _ => none

def removeAtPath : JSON → List String → Option JSON
  | _, [] => none
  | .obj fs, [tok] => if containsKey fs tok then some (.obj (removeField tok fs)) else none
  | .arr xs, [tok] =>
    (match tokToIndex tok with
     | some i => if i < xs.length then some (.arr (xs.eraseIdx i)) else none
     | none => none)
  | .obj fs, tok :: rest =>
    (match lookupField fs tok with
     | some child => (removeAtPath child rest).map (fun c2 => .obj (setField tok c2 fs))
     | none => none)
  | .arr xs, tok :: rest =>
    (match tokToIndex tok with
     | some i =>
       if h : i < xs.length then
         (removeAtPath (xs.get ⟨i, h⟩) rest).map (fun c2 => .arr (xs.set i c2))
       else none
     | none => none)
  | _, _ :: _ => none

def setAtPath : JSON → List String → JSON → Option JSON
  | _, [], nv => some nv
  | .obj fs, [tok], nv => if containsKey fs tok then some (.obj (setField tok nv fs)) else none
  | .arr xs, [tok], nv =>
    (match tokToIndex tok with
     | some i => if i < xs.length then some (.arr (xs.set i nv)) else none
     | none => none)
  | .obj fs, tok :: rest, nv =>
    (match lookupField fs tok with
     | some child => (setAtPath child rest nv).map (fun c2 => .obj (setField tok c2 fs))
     | none => none)
  | .arr xs, tok :: rest, nv =>
    (match tokToIndex tok with
     | some i =>
       if h : i < xs.length then
         (setAtPath (xs.get ⟨i, h⟩) rest nv).map (fun c2 => .arr (xs.set i c2))
       else none
     | none => none)
  | _, _ :: _, _ => none

def replaceAtPath (doc : JSON) (toks : List String) (nv : JSON) : Option JSON :=
  match getAtPath doc toks with
  | some _ => setAtPath doc toks nv
  | none => none

def applyOp (f : Nat) (doc : JSON) (op : Operation) : Option JSON :=
  match op.type with
  | .add => addAtPath doc (parsePointer op.path) op.value
  | .remove => removeAtPath doc (parsePointer op.path)
  | .replace => replaceAtPath doc (parsePointer op.path) op.value
  | .move =>
    (match getAtPath doc (parsePointer op.fromPtr) with
     | some v =>
       (match removeAtPath doc (parsePointer op.fromPtr) with
        | some doc2 => addAtPath doc2 (parsePointer op.path) v
        | none => none)
     | none => none)
  | .copy =>
    (match getAtPath doc (parsePointer op.fromPtr) with
     | some v => addAtPath doc (parsePointer op.path) v
     | none => none)
  | .test =>
    (match getAtPath doc (parsePointer op.path) with
     | some v => if deepEqualF f op.value v then some doc else none
     | none => none)

def applyPatch (f : Nat) (doc : JSON) : Patch → Option JSON
  | [] => some doc
  | op :: rest =>
    match applyOp f doc op with
    | some doc2 => applyPatch f doc2 rest
    | none => none

/-
Claim theorems and supporting lemmas.
-/

/-- C1: the round-trip property fails on the code.  With factorize enabled
(the other flags off, empty ignore set), comparing the source tree
with key a mapped to 5 against the target tree with key ab mapped to 5
produces only the remove of /a: inside Differ.add the first matching
remove has path /a, which is a string prefix of the add path /ab, so the
add returns without emitting anything.  Applying the resulting patch to
the source yields the empty object, not the target. -/
theorem c1_round_trip_fails_under_factorize :
    compareP 30 ⟨true, false, false, false, []⟩
        (.obj [("a", .num 5)]) (.obj [("ab", .num 5)]) =
      [⟨.remove, emptyPtr, "/a", .num 5, .null⟩] ∧
    applyPatch 30 (.obj [("a", .num 5)])
        (compareP 30 ⟨true, false, false, false, []⟩
          (.obj [("a", .num 5)]) (.obj [("ab", .num 5)])) =
      some (.obj []) ∧
    (JSON.obj [] : JSON) ≠ .obj [("ab", .num 5)] := by
  refine ⟨rfl, rfl, ?_⟩
  exact json_ne_of_beq_false (f := 10) (by decide) rfl

/-- C2: the claim that the add-emission step always emits an operation is
wrong on the code.  When the first deeply-equal already-emitted remove has
a path that is a string prefix of the add path, Differ.add returns with
the patch unchanged: no move, no copy and no add is emitted and the added
value is dropped.  The first conjunct exhibits the add step itself on a
differ whose patch holds the remove of /a with old value 5: adding value 5
at /ab leaves the patch unchanged.  The second conjunct shows the state
arising from a whole comparison. -/
theorem c2_add_can_drop_the_added_value :
    (Differ.add 30
        ⟨[⟨.remove, emptyPtr, "/a", .num 5, .null⟩], [], ⟨true, false, false, false, []⟩⟩
        "/ab" (.num 5)).patch =
      [⟨.remove, emptyPtr, "/a", .num 5, .null⟩] ∧
    compareP 30 ⟨true, false, false, false, []⟩
        (.obj [("a", .num 5)]) (.obj [("ab", .num 5)]) =
      [⟨.remove, emptyPtr, "/a", .num 5, .null⟩] := ⟨rfl, rfl⟩

/-- C7: equivalence mode.  With only the equivalent flag set, comparing
the array 1,2,3 against its reversal yields the empty patch, and comparing
1,2,3 against 1,2,3,4 yields exactly one add at the append pointer with
value 4. -/
theorem c7_equivalent_mode_scenarios :
    compareP 30 ⟨false, false, false, true, []⟩
        (.arr [.num 1, .num 2, .num 3]) (.arr [.num 3, .num 2, .num 1]) = [] ∧
    compareP 30 ⟨false, false, false, true, []⟩
        (.arr [.num 1, .num 2, .num 3]) (.arr [.num 1, .num 2, .num 3, .num 4]) =
      [⟨.add, emptyPtr, "/-", .null, .num 4⟩] := ⟨rfl, rfl⟩

theorem foldl_fixed {α β : Type} (g : α → β → α) (d : α) (l : List β)
    (h : ∀ x ∈ l, g d x = d) : l.foldl g d = d := by
  induction l with
  | nil => rfl
  | cons x xs ih =>
    simp only [List.foldl_cons, h x (by simp)]
    exact ih (fun x hx => h x (by simp [hx]))

/-- C6: ignored paths generate no operations.  First conjunct: a diff call
whose current pointer is in the ignore set returns the differ unchanged,
pruning the whole subtree.  Second and third conjuncts: the remove branch
for an object key present only in the source, and the add branch for a key
present only in the target, check the fully constructed child path and
emit nothing when it is ignored, whatever the recursion argument.  Fourth
and fifth conjuncts: the removal loop for trailing source array elements
and the append loop for trailing target array elements check each
element's constructed index path and emit nothing when all are ignored.
Then the spec scenario produces the empty patch; a non-ignored sibling
change is emitted exactly as it would otherwise be; and one end-to-end
comparison per emission site — removed object key, added object key,
removed trailing array element, appended trailing array element — yields
the empty patch when the constructed child path is ignored. -/
theorem c6_ignored_paths_generate_no_operations :
    (∀ (f : Nat) (d : Differ) (ptr : String) (src tgt : JSON),
        d.opts.ignores.contains ptr = true → Differ.diff f d ptr src tgt = d) ∧
    (∀ (diffK : Differ → String → JSON → JSON → Differ) (f : Nat) (d : Differ)
        (ptr k : String) (v : JSON),
        d.opts.ignores.contains (appendKey ptr k) = true →
        Differ.compareObjects diffK f d ptr [(k, v)] [] = d) ∧
    (∀ (diffK : Differ → String → JSON → JSON → Differ) (f : Nat) (d : Differ)
        (ptr k : String) (v : JSON),
        d.opts.ignores.contains (appendKey ptr k) = true →
        Differ.compareObjects diffK f d ptr [] [(k, v)] = d) ∧
    (∀ (d : Differ) (ptr : String) (size : Nat) (src : List JSON),
        (∀ j, size + j < src.length →
          d.opts.ignores.contains (appendIndex ptr (size + j)) = true) →
        arrayRemovals d ptr size src = d) ∧
    (∀ (f : Nat) (d : Differ) (ptr : String) (size : Nat) (tgt : List JSON),
        (∀ j, size + j < tgt.length →
          d.opts.ignores.contains (appendIndex ptr (size + j)) = true) →
        arrayAppends f d ptr size tgt = d) ∧
    compareP 30 ⟨false, false, false, false, ["/a"]⟩
        (.obj [("a", .num 1), ("b", .num 2)]) (.obj [("a", .num 9), ("b", .num 2)]) = [] ∧
    compareP 30 ⟨false, false, false, false, ["/a"]⟩
        (.obj [("a", .num 1), ("b", .num 2)]) (.obj [("a", .num 9), ("b", .num 3)]) =
      [⟨.replace, emptyPtr, "/b", .num 2, .num 3⟩] ∧
    compareP 30 ⟨false, false, false, false, ["/a"]⟩
        (.obj [("a", .num 1), ("b", .num 2)]) (.obj [("b", .num 2)]) = [] ∧
    compareP 30 ⟨false, false, false, false, ["/a"]⟩
        (.obj [("b", .num 2)]) (.obj [("a", .num 1), ("b", .num 2)]) = [] ∧
    compareP 30 ⟨false, false, false, false, ["/1"]⟩
        (.arr [.num 1, .num 2]) (.arr [.num 1]) = [] ∧
    compareP 30 ⟨false, false, false, false, ["/1"]⟩
        (.arr [.num 1]) (.arr [.num 1, .num 2]) = [] := by
  refine ⟨?_, ?_, ?_, ?_, ?_, rfl, rfl, rfl, rfl, rfl, rfl⟩
  · intro f d ptr src tgt h
    cases f with
    | zero => rfl
    | succ f =>
      have hmem : ptr ∈ d.opts.ignores := by simpa using h
      cases src <;> cases tgt <;> simp [Differ.diff, h, hmem]
  · intro diffK f d ptr k v h
    unfold Differ.compareObjects
    have hkeys : sortStrings (dedupKeys
        ([(k, v)].map Prod.fst ++ ([] : List (String × JSON)).map Prod.fst)) = [k] := by
      simp [sortStrings, dedupKeys, insertStr]
    rw [hkeys]
    simp only [List.foldl_cons, List.foldl_nil]
    rw [if_neg (by simp), if_pos (by simp), if_pos h]
  · intro diffK f d ptr k v h
    unfold Differ.compareObjects
    have hkeys : sortStrings (dedupKeys
        (([] : List (String × JSON)).map Prod.fst ++ [(k, v)].map Prod.fst)) = [k] := by
      simp [sortStrings, dedupKeys, insertStr]
    rw [hkeys]
    simp only [List.foldl_cons, List.foldl_nil]
    rw [if_neg (by simp), if_neg (by simp), if_pos (by simp), if_pos h]
  · intro d ptr size src h
    unfold arrayRemovals
    split
    · refine foldl_fixed _ _ _ ?_
      intro j hj
      rw [if_pos (h j (by have := List.mem_range.1 hj; omega))]
    · rfl
  · intro f d ptr size tgt h
    unfold arrayAppends
    refine foldl_fixed _ _ _ ?_
    intro j hj
    rw [if_pos (h j (by have := List.mem_range.1 hj; omega))]

/-- Closed witness for the universally quantified parts of the C6 theorem:
the subtree-pruning conjunct instantiated at a concrete ignored pointer. -/
theorem c6_ignored_paths_generate_no_operations_witness :
    Differ.diff 5 (freshDiffer ⟨false, false, false, false, ["/a"]⟩) "/a" (.num 1) (.num 2) =
      freshDiffer ⟨false, false, false, false, ["/a"]⟩ :=
  c6_ignored_paths_generate_no_operations.1 5 _ "/a" (.num 1) (.num 2) (by decide)

/-
Support for the idempotence claim: a diff of a tree against itself emits
nothing, at every pointer and from every differ state, provided the fuel
covers the tree.
-/

theorem lookupField_mem {fs : List (String × JSON)} {k : String} {v : JSON}
    (h : lookupField fs k = some v) : (k, v) ∈ fs := by
  induction fs with
  | nil => cases h
  | cons kv rest ih =>
    obtain ⟨k2, w⟩ := kv
    by_cases hk : k2 == k
    · simp only [lookupField, hk, if_pos] at h
      cases h
      have hk2 : k2 = k := by simpa using hk
      rw [hk2]
      exact List.mem_cons_self _ _
    · simp only [lookupField, hk] at h
      simp only [Bool.false_eq_true, if_false] at h
      exact List.mem_cons_of_mem _ (ih h)

theorem sizeOf_lookup_getD {fs : List (String × JSON)} {k : String} :
    sizeOf ((lookupField fs k).getD .null) < sizeOf (JSON.obj fs) := by
  cases hl : lookupField fs k with
  | none =>
    simp only [Option.getD_none]
    have : (1 : Nat) ≤ sizeOf fs := by cases fs <;> simp <;> omega
    simp only [JSON.obj.sizeOf_spec]
    have hn : sizeOf (JSON.null) = 1 := rfl
    omega
  | some v =>
    simp only [Option.getD_some]
    exact sizeOf_mem_fields (lookupField_mem hl)

theorem sizeOf_list_getD {xs : List JSON} {i : Nat} :
    sizeOf (xs.getD i .null) < sizeOf (JSON.arr xs) := by
  by_cases h : i < xs.length
  · have hmem : xs.getD i .null ∈ xs := by
      rw [List.getD_eq_getElem _ _ h]
      exact List.getElem_mem h
    exact sizeOf_mem_elems hmem
  · rw [List.getD_eq_default _ _ (by omega)]
    have : (1 : Nat) ≤ sizeOf xs := by cases xs <;> simp <;> omega
    have hn : sizeOf (JSON.null) = 1 := rfl
    simp only [JSON.arr.sizeOf_spec]
    omega

theorem prepare_patch_eq : ∀ (f : Nat) (d : Differ) (ptr : String) (src tgt : JSON),
    (Differ.prepare f d ptr src tgt).patch = d.patch := by
  intro f
  induction f with
  | zero => intro d ptr src tgt; rfl
  | succ f ih =>
    intro d ptr src tgt
    have hfold1 : ∀ (l : List Nat) (g : Differ → Nat → Differ) (d : Differ),
        (∀ d i, (g d i).patch = d.patch) → (l.foldl g d).patch = d.patch := by
      intro l
      induction l with
      | nil => intro g d hg; rfl
      | cons x xs ihl => intro g d hg; rw [List.foldl_cons, ihl g _ hg, hg]
    have hfold2 : ∀ (l : List (String × JSON)) (g : Differ → String × JSON → Differ) (d : Differ),
        (∀ d kv, (g d kv).patch = d.patch) → (l.foldl g d).patch = d.patch := by
      intro l
      induction l with
      | nil => intro g d hg; rfl
      | cons x xs ihl => intro g d hg; rw [List.foldl_cons, ihl g _ hg, hg]
    cases src <;> cases tgt <;>
      simp only [Differ.prepare] <;>
      (try split) <;>
      (try split) <;>
      first
        | rfl
        | (apply hfold1; intro d i; exact ih _ _ _ _)
        | (apply hfold2; intro d kv; cases hkv : lookupField _ kv.1 <;> simp only [hkv] <;>
            first | rfl | exact ih _ _ _ _)

theorem compareArrays_self (diffK : Differ → String → JSON → JSON → Differ) (f2 : Nat)
    (d : Differ) (ptr : String) (xs : List JSON)
    (hK : ∀ (d2 : Differ) (p : String) (i : Nat),
      diffK d2 p (xs.getD i .null) (xs.getD i .null) = d2) :
    Differ.compareArrays diffK f2 d ptr xs xs = d := by
  unfold Differ.compareArrays
  simp only [Nat.min_self]
  rw [show arrayRemovals d ptr xs.length xs = d from by simp [arrayRemovals]]
  rw [show arrayPairwise diffK d ptr xs.length xs xs = d from by
    unfold arrayPairwise; exact foldl_fixed _ d _ (fun i _ => hK d _ i)]
  simp only [ite_self]
  simp [arrayAppends]

theorem compareObjects_self (diffK : Differ → String → JSON → JSON → Differ) (f2 : Nat)
    (d : Differ) (ptr : String) (fs : List (String × JSON))
    (hK : ∀ (d2 : Differ) (p : String) (k : String),
      diffK d2 p ((lookupField fs k).getD .null) ((lookupField fs k).getD .null) = d2) :
    Differ.compareObjects diffK f2 d ptr fs fs = d := by
  unfold Differ.compareObjects
  apply foldl_fixed
  intro k hk
  by_cases hc : (fs.map Prod.fst).contains k = true
  · simp only [hc, Bool.and_self, if_pos]
    exact hK d _ k
  · simp [hc]
    intro x hx
    exact absurd (List.mem_map_of_mem Prod.fst hx) (by simpa using hc)

theorem diff_self : ∀ (f : Nat) (d : Differ) (ptr : String) (v : JSON),
    sizeOf v ≤ f → Differ.diff f d ptr v v = d := by
  intro f
  induction f with
  | zero => intro d ptr v h; exact absurd h (by have := json_sizeOf_pos v; omega)
  | succ f ih =>
    intro d ptr v h
    cases v with
    | null => rfl
    | bool b => simp [Differ.diff, areComparable, deepEqualF]
    | num n => simp [Differ.diff, areComparable, deepEqualF]
    | str s => simp [Differ.diff, areComparable, deepEqualF]
    | arr xs =>
      have hs : ∀ (i : Nat), sizeOf (xs.getD i JSON.null) ≤ f := by
        intro i
        have h2 := @sizeOf_list_getD xs i
        omega
      have hcmp : Differ.compareArrays (Differ.diff f) (f + 1) d ptr xs xs = d :=
        compareArrays_self _ _ _ _ _ (fun d2 p i => ih d2 p _ (hs i))
      simp [Differ.diff, areComparable, hcmp]
    | obj fs =>
      have hs : ∀ (k : String), sizeOf ((lookupField fs k).getD JSON.null) ≤ f := by
        intro k
        have h2 := @sizeOf_lookup_getD fs k
        omega
      have hcmp : Differ.compareObjects (Differ.diff f) (f + 1) d ptr fs fs = d :=
        compareObjects_self _ _ _ _ _ (fun d2 p k => ih d2 p _ (hs k))
      simp [Differ.diff, areComparable, hcmp]

/-- C10: idempotence.  For every tree A and every configuration (any
setting of the four flags and any ignore set), Compare(A, A) from a fresh
differ produces the empty patch, for any fuel covering the tree. -/
theorem c10_compare_self_empty (f : Nat) (opts : Options) (A : JSON)
    (h : sizeOf A ≤ f) : compareP f opts A A = [] := by
  unfold compareP Differ.Compare
  cases hfa : (freshDiffer opts).opts.factorize <;>
    simp only [hfa, if_true, if_false, Bool.false_eq_true, diff_self f _ emptyPtr A h]
  · rfl
  · rw [prepare_patch_eq]
    rfl

/-- Closed witness for C10 at a concrete tree, with every flag set and a
nonempty ignore set. -/
theorem c10_compare_self_empty_witness :
    compareP 2000 ⟨true, true, true, true, ["/x"]⟩
      (.obj [("a", .num 1), ("b", .arr [.null, .bool true])]) (.obj [("a", .num 1), ("b", .arr [.null, .bool true])]) = [] :=
  c10_compare_self_empty 2000 _ _ (by decide)

/-- C8: rationalization.  First two conjuncts characterize
Differ.rationalizeLastOps exactly as the claim states: the operations
emitted for the subtree (the patch suffix from lastOpIdx) are discarded
and replaced by a single replace of the target value, preceded by a test
of the source value when invertible, exactly when the serialized cost of
that replacement is strictly smaller than that of the emitted operations;
on ties or when not cheaper the patch is unchanged.  The last two
conjuncts exercise both outcomes through whole comparisons with
rationalize set: three leaf changes collapse to one replace of the
subtree, while a single scalar change is retained unchanged. -/
theorem c8_rationalize_exactly_when_strictly_cheaper :
    (∀ (f : Nat) (d : Differ) (ptr : String) (src tgt : JSON) (lastOpIdx : Nat),
      opJsonLength f ⟨.replace, emptyPtr, ptr, .null, tgt⟩ <
          patchJsonLength f (d.patch.drop lastOpIdx) →
        (Differ.rationalizeLastOps f d ptr src tgt lastOpIdx).patch =
          d.patch.take lastOpIdx ++
            ((if d.opts.invertible then [⟨.test, emptyPtr, ptr, .null, src⟩] else []) ++
              [⟨.replace, emptyPtr, ptr, .null, tgt⟩])) ∧
    (∀ (f : Nat) (d : Differ) (ptr : String) (src tgt : JSON) (lastOpIdx : Nat),
      ¬ opJsonLength f ⟨.replace, emptyPtr, ptr, .null, tgt⟩ <
          patchJsonLength f (d.patch.drop lastOpIdx) →
        Differ.rationalizeLastOps f d ptr src tgt lastOpIdx = d) ∧
    compareP 3000 ⟨false, true, false, false, []⟩
        (.obj [("a", .obj [("x", .num 1), ("y", .num 2), ("z", .num 3)])])
        (.obj [("a", .obj [("x", .num 9), ("y", .num 8), ("z", .num 7)])]) =
      [⟨.replace, emptyPtr, "/a", .null, .obj [("x", .num 9), ("y", .num 8), ("z", .num 7)]⟩] ∧
    compareP 3000 ⟨false, true, false, false, []⟩
        (.obj [("a", .num 1)]) (.obj [("a", .num 2)]) =
      [⟨.replace, emptyPtr, "/a", .num 1, .num 2⟩] := by
  refine ⟨?_, ?_, rfl, rfl⟩
  · intro f d ptr src tgt lastOpIdx h
    unfold Differ.rationalizeLastOps
    simp only [if_pos h]
  · intro f d ptr src tgt lastOpIdx h
    unfold Differ.rationalizeLastOps
    simp only [if_neg h]

/-- Closed witness for the quantified parts of the C8 theorem: on a differ
with a single emitted replace operation, replacing it with itself is not
strictly cheaper and the patch is retained unchanged, while against an
empty suffix the replacement of a longer emitted suffix is performed. -/
theorem c8_rationalize_exactly_when_strictly_cheaper_witness :
    Differ.rationalizeLastOps 50
        ⟨[⟨.replace, emptyPtr, "/a", .num 1, .num 2⟩], [], ⟨false, true, false, false, []⟩⟩
        "/a" (.num 1) (.num 2) 0 =
      ⟨[⟨.replace, emptyPtr, "/a", .num 1, .num 2⟩], [], ⟨false, true, false, false, []⟩⟩ ∧
    (Differ.rationalizeLastOps 50
        ⟨[⟨.replace, emptyPtr, "/a", .num 1,
            .arr [.num 1, .num 2, .num 3, .num 4, .num 5, .num 6, .num 7, .num 8]⟩,
          ⟨.replace, emptyPtr, "/b", .num 1,
            .arr [.num 1, .num 2, .num 3, .num 4, .num 5, .num 6, .num 7, .num 8]⟩],
          [], ⟨false, true, false, false, []⟩⟩
        "" (.num 1) (.num 2) 0).patch =
      [⟨.replace, emptyPtr, "", .null, .num 2⟩] := by
  constructor
  · exact c8_rationalize_exactly_when_strictly_cheaper.2.1 50 _ "/a" (.num 1) (.num 2) 0
      (by decide)
  · rw [c8_rationalize_exactly_when_strictly_cheaper.1 50 _ "" (.num 1) (.num 2) 0
      (by decide)]
    rfl


/-
Support for the reuse claim: with factorize disabled every emission is a
pure append to the patch, and neither the options nor the hash index are
touched by the main diff pass.  AppOnly o d1 d2 states that d2 extends the
patch of d1 by appending, keeps the options o and keeps the hash index.
-/

def AppOnly (o : Options) (d1 d2 : Differ) : Prop :=
  (∃ t, d2.patch = d1.patch ++ t) ∧ d2.opts = o ∧ d2.hashmap = d1.hashmap

theorem appOnly_refl {o : Options} {d : Differ} (hd : d.opts = o) : AppOnly o d d :=
  ⟨⟨[], by simp⟩, hd, rfl⟩

theorem appOnly_trans {o : Options} {d1 d2 d3 : Differ}
    (h12 : AppOnly o d1 d2) (h23 : AppOnly o d2 d3) : AppOnly o d1 d3 := by
  obtain ⟨⟨t1, ht1⟩, ho1, hh1⟩ := h12
  obtain ⟨⟨t2, ht2⟩, ho2, hh2⟩ := h23
  exact ⟨⟨t1 ++ t2, by rw [ht2, ht1, List.append_assoc]⟩, ho2, by rw [hh2, hh1]⟩

theorem appOnly_ite {o : Options} {c : Prop} [Decidable c] {d dA dB : Differ}
    (hA : AppOnly o d dA) (hB : AppOnly o d dB) : AppOnly o d (if c then dA else dB) := by
  split
  · exact hA
  · exact hB

theorem appOnly_opts {o : Options} {d1 d2 : Differ} (h : AppOnly o d1 d2) : d2.opts = o :=
  h.2.1

theorem foldl_appOnly {β : Type} (o : Options) (g : Differ → β → Differ) (l : List β)
    (h : ∀ (d2 : Differ), ∀ x ∈ l, d2.opts = o → AppOnly o d2 (g d2 x)) :
    ∀ d, d.opts = o → AppOnly o d (l.foldl g d) := by
  induction l with
  | nil => intro d hd; exact appOnly_refl hd
  | cons x xs ih =>
    intro d hd
    have h1 := h d x (by simp) hd
    exact appOnly_trans h1 (ih (fun d2 y hy => h d2 y (by simp [hy])) (g d x) (appOnly_opts h1))

theorem remove_appOnly {o : Options} {d : Differ} (ptr : String) (v : JSON)
    (hd : d.opts = o) : AppOnly o d (Differ.remove d ptr v) := by
  unfold Differ.remove patchAppend
  split
  · exact ⟨⟨_, List.append_assoc _ _ _⟩, hd, rfl⟩
  · exact ⟨⟨_, rfl⟩, hd, rfl⟩

theorem replace_appOnly {o : Options} {d : Differ} (ptr : String) (src tgt : JSON)
    (hd : d.opts = o) : AppOnly o d (Differ.replace d ptr src tgt) := by
  unfold Differ.replace patchAppend
  split
  · exact ⟨⟨_, List.append_assoc _ _ _⟩, hd, rfl⟩
  · exact ⟨⟨_, rfl⟩, hd, rfl⟩

theorem add_appOnly_noFact {o : Options} (hf : o.factorize = false) {d : Differ}
    (f : Nat) (ptr : String) (v : JSON) (hd : d.opts = o) :
    AppOnly o d (Differ.add f d ptr v) := by
  unfold Differ.add patchAppend
  rw [hd, hf]
  simp only [Bool.not_false, if_pos]
  exact ⟨⟨_, rfl⟩, rfl, rfl⟩

theorem rationalize_appOnly {o : Options} {d0 d2 : Differ} (f : Nat) (ptr : String)
    (src tgt : JSON) (h02 : AppOnly o d0 d2) :
    AppOnly o d0 (Differ.rationalizeLastOps f d2 ptr src tgt d0.patch.length) := by
  obtain ⟨⟨t, ht⟩, ho, hh⟩ := h02
  unfold Differ.rationalizeLastOps
  by_cases hinv : d2.opts.invertible = true <;>
    simp only [hinv, Bool.false_eq_true, if_true, if_false] <;>
    split <;>
    first
      | exact ⟨⟨_, by rw [ht, List.take_left]⟩, ho, hh⟩
      | exact ⟨⟨t, ht⟩, ho, hh⟩

theorem arrayRemovals_appOnly {o : Options} {d : Differ} (ptr : String) (size : Nat)
    (src : List JSON) (hd : d.opts = o) : AppOnly o d (arrayRemovals d ptr size src) := by
  unfold arrayRemovals
  refine appOnly_ite ?_ (appOnly_refl hd)
  refine foldl_appOnly o _ _ ?_ d hd
  intro d2 x hx h2
  split
  · exact appOnly_refl h2
  · exact remove_appOnly _ _ h2

theorem arrayAppends_appOnly {o : Options} (hf : o.factorize = false) {d : Differ}
    (f : Nat) (ptr : String) (size : Nat) (tgt : List JSON) (hd : d.opts = o) :
    AppOnly o d (arrayAppends f d ptr size tgt) := by
  unfold arrayAppends
  refine foldl_appOnly o _ _ ?_ d hd
  intro d2 x hx h2
  split
  · exact appOnly_refl h2
  · exact add_appOnly_noFact hf f _ _ h2

theorem arrayPairwise_appOnly {o : Options} {diffK : Differ → String → JSON → JSON → Differ}
    (hK : ∀ (d2 : Differ) (p : String) (s t : JSON), d2.opts = o → AppOnly o d2 (diffK d2 p s t))
    {d : Differ} (ptr : String) (size : Nat) (src tgt : List JSON) (hd : d.opts = o) :
    AppOnly o d (arrayPairwise diffK d ptr size src tgt) := by
  unfold arrayPairwise
  refine foldl_appOnly o _ _ ?_ d hd
  intro d2 x hx h2
  exact hK d2 _ _ _ h2

theorem compareArrays_appOnly {o : Options} (hf : o.factorize = false)
    {diffK : Differ → String → JSON → JSON → Differ}
    (hK : ∀ (d2 : Differ) (p : String) (s t : JSON), d2.opts = o → AppOnly o d2 (diffK d2 p s t))
    (f2 : Nat) {d : Differ} (ptr : String) (xs ys : List JSON) (hd : d.opts = o) :
    AppOnly o d (Differ.compareArrays diffK f2 d ptr xs ys) := by
  unfold Differ.compareArrays
  dsimp only
  have h1 := arrayRemovals_appOnly (o := o) (d := d) ptr (min xs.length ys.length) xs hd
  have h2 : AppOnly o d
      (if ((arrayRemovals d ptr (min xs.length ys.length) xs).opts.equivalent &&
            unorderedDeepEqualSlice f2 xs ys) = true then
        arrayRemovals d ptr (min xs.length ys.length) xs
      else
        arrayPairwise diffK (arrayRemovals d ptr (min xs.length ys.length) xs) ptr
          (min xs.length ys.length) xs ys) :=
    appOnly_ite h1
      (appOnly_trans h1
        (arrayPairwise_appOnly hK ptr (min xs.length ys.length) xs ys (appOnly_opts h1)))
  exact appOnly_trans h2
    (arrayAppends_appOnly hf f2 ptr (min xs.length ys.length) ys (appOnly_opts h2))

theorem compareObjects_appOnly {o : Options} (hf : o.factorize = false)
    {diffK : Differ → String → JSON → JSON → Differ}
    (hK : ∀ (d2 : Differ) (p : String) (s t : JSON), d2.opts = o → AppOnly o d2 (diffK d2 p s t))
    (f2 : Nat) {d : Differ} (ptr : String) (src tgt : List (String × JSON)) (hd : d.opts = o) :
    AppOnly o d (Differ.compareObjects diffK f2 d ptr src tgt) := by
  unfold Differ.compareObjects
  refine foldl_appOnly o _ _ ?_ d hd
  intro d2 k hk h2
  dsimp only
  split
  · exact hK d2 _ _ _ h2
  · split
    · split
      · exact appOnly_refl h2
      · exact remove_appOnly _ _ h2
    · split
      · split
        · exact appOnly_refl h2
        · exact add_appOnly_noFact hf f2 _ _ h2
      · exact appOnly_refl h2

theorem diff_appOnly_noFact {o : Options} (hf : o.factorize = false) :
    ∀ (f : Nat) (d : Differ) (ptr : String) (src tgt : JSON), d.opts = o →
      AppOnly o d (Differ.diff f d ptr src tgt) := by
  intro f
  induction f with
  | zero => intro d ptr src tgt hd; exact appOnly_refl hd
  | succ f ih =>
    intro d ptr src tgt hd
    have hK : ∀ (d2 : Differ) (p : String) (s t : JSON), d2.opts = o →
        AppOnly o d2 (Differ.diff f d2 p s t) := fun d2 p s t h2 => ih d2 p s t h2
    show AppOnly o d (Differ.diff (f + 1) d ptr src tgt)
    unfold Differ.diff
    rcases src with _ | b1 | n1 | s1 | a1 | o1 <;> rcases tgt with _ | b2 | n2 | s2 | a2 | o2 <;>
      dsimp only <;>
      first
      | exact appOnly_refl hd
      | (split
         · exact appOnly_refl hd
         · split
           · split
             · exact ⟨⟨_, rfl⟩, hd, rfl⟩
             · exact replace_appOnly _ _ _ hd
           · split
             · exact appOnly_refl hd
             · first
               | exact replace_appOnly _ _ _ hd
               | (refine appOnly_ite
                    (rationalize_appOnly _ _ _ _ ?_) ?_ <;>
                  exact compareArrays_appOnly hf hK (f + 1) ptr _ _ hd)
               | (refine appOnly_ite
                    (rationalize_appOnly _ _ _ _ ?_) ?_ <;>
                  exact compareObjects_appOnly hf hK (f + 1) ptr _ _ hd))

/-- C9 counterexample: a second Compare on the same differ without Reset
does not leave the earlier comparison's operations unchanged at the front.
With factorize on, the first comparison leaves remove(/a, old 5); the
second comparison's add of the equal value 5 at /b deletes that remove and
emits a move, so the earlier operation is gone from the patch. -/
theorem c9_counterexample_earlier_op_destroyed :
    (Differ.Compare 30 (freshDiffer ⟨true, false, false, false, []⟩)
        (.obj [("a", .num 5)]) (.obj [])).patch =
      [⟨.remove, emptyPtr, "/a", .num 5, .null⟩] ∧
    (Differ.Compare 30
        (Differ.Compare 30 (freshDiffer ⟨true, false, false, false, []⟩)
          (.obj [("a", .num 5)]) (.obj []))
        (.obj []) (.obj [("b", .num 5)])).patch =
      [⟨.move, "/a", "/b", .num 5, .num 5⟩] ∧
    ((⟨.move, "/a", "/b", .num 5, .num 5⟩ : Operation).type == OpType.remove) = false :=
  ⟨rfl, rfl, rfl⟩

/-- C9 as amended: when factorize is disabled, a second Compare without an
intervening Reset leaves the earlier operations unchanged at the front of
the patch, appends the new comparison's operations after them, and leaves
the hash index untouched; Reset alone empties both the patch and the hash
index (the path builder is threaded functionally and re-rooted by Compare).
The hash index is retained across Compare calls even with factorize on, as
the last conjunct demonstrates: a stale entry from the first comparison
serves as the copy source of the second.  (With factorize enabled the
front-unchanged part fails: a later add may delete an earlier remove and
emit a move, as the counterexample shows.) -/
theorem c9_amended_reuse_semantics :
    (∀ (f : Nat) (d : Differ) (src tgt : JSON), d.opts.factorize = false →
      (∃ tail, (Differ.Compare f d src tgt).patch = d.patch ++ tail) ∧
        (Differ.Compare f d src tgt).hashmap = d.hashmap) ∧
    (∀ d : Differ, (Differ.Reset d).patch = [] ∧ (Differ.Reset d).hashmap = []) ∧
    (Differ.Compare 30
        (Differ.Compare 30 (freshDiffer ⟨true, false, false, false, []⟩)
          (.obj [("x", .num 5), ("z", .num 1)]) (.obj [("x", .num 5), ("z", .num 2)]))
        (.obj [("x", .obj [])]) (.obj [("x", .obj [("y", .num 5)])])).patch =
      [⟨.replace, emptyPtr, "/z", .num 1, .num 2⟩,
        ⟨.copy, "/x", "/x/y", .null, .num 5⟩] := by
  refine ⟨?_, fun d => ⟨rfl, rfl⟩, rfl⟩
  intro f d src tgt hfact
  unfold Differ.Compare
  simp only [hfact, Bool.false_eq_true, if_false]
  obtain ⟨ht, ho, hh⟩ := diff_appOnly_noFact (o := d.opts) hfact f d emptyPtr src tgt rfl
  exact ⟨ht, hh⟩

/-- Closed witness for the quantified part of the C9 amended theorem, on a
differ that already holds one operation and compares two scalars with
factorize off. -/
theorem c9_amended_reuse_semantics_witness :
    (∃ tail, (Differ.Compare 10
        ⟨[⟨.remove, emptyPtr, "/a", .num 5, .null⟩], [], ⟨false, false, false, false, []⟩⟩
        (.num 1) (.num 2)).patch =
      [⟨.remove, emptyPtr, "/a", .num 5, .null⟩] ++ tail) ∧
    (Differ.Compare 10
        ⟨[⟨.remove, emptyPtr, "/a", .num 5, .null⟩], [], ⟨false, false, false, false, []⟩⟩
        (.num 1) (.num 2)).hashmap = [] :=
  c9_amended_reuse_semantics.1 10
    ⟨[⟨.remove, emptyPtr, "/a", .num 5, .null⟩], [], ⟨false, false, false, false, []⟩⟩
    (.num 1) (.num 2) rfl

/-
Support for the invertibility claim: the pairing invariant that every
remove or replace operation is immediately preceded by a test operation
with the same path whose value is the operation's old value, and that no
copy operation occurs.  The invariant is stated as a structural recursion
carrying the previous operation.
-/

def IsDestructive (op : Operation) : Prop :=
  op.type = OpType.remove ∨ op.type = OpType.replace

instance (op : Operation) : Decidable (IsDestructive op) := by
  unfold IsDestructive
  infer_instance

def MatchingTest (pv op : Operation) : Prop :=
  pv.type = OpType.test ∧ pv.path = op.path ∧
    (op.oldValue = JSON.null ∨ pv.value = op.oldValue)

def TestPairedFrom : Option Operation → Patch → Prop
  | _, [] => True
  | prev, op :: rest =>
    (IsDestructive op → ∃ pv, prev = some pv ∧ MatchingTest pv op) ∧
      TestPairedFrom (some op) rest

/-- Every remove and replace operation of the patch is immediately preceded
by a test operation whose path equals the operation's path and whose value
is the operation's old value (the value at that path in the source, which
is the value present there when the operation is applied). -/
def TestPaired (p : Patch) : Prop := TestPairedFrom none p

def NoCopy (p : Patch) : Prop := ∀ op ∈ p, op.type ≠ OpType.copy

theorem tpf_change_prev {pv : Operation} {q : Patch}
    (h : TestPairedFrom (some pv) q) (hpv : pv.type ≠ OpType.test) :
    ∀ prev2, TestPairedFrom prev2 q := by
  intro prev2
  cases q with
  | nil => trivial
  | cons op rest =>
    obtain ⟨h1, h2⟩ := h
    refine ⟨?_, h2⟩
    intro hd
    obtain ⟨pv2, hpv2, hmt⟩ := h1 hd
    cases hpv2
    exact absurd hmt.1 hpv

def lastPrev (prev : Option Operation) (p : Patch) : Option Operation :=
  match p.getLast? with
  | some op => some op
  | none => prev

theorem lastPrev_cons (prev : Option Operation) (op : Operation) (rest : Patch) :
    lastPrev prev (op :: rest) = lastPrev (some op) rest := by
  cases rest with
  | nil => rfl
  | cons r rr =>
    cases hg : (r :: rr).getLast? with
    | some x => simp [lastPrev, List.getLast?_cons_cons, hg]
    | none => exact absurd hg (by simp)

theorem tpf_append {p : Patch} : ∀ {prev : Option Operation} {q : Patch},
    TestPairedFrom prev p → TestPairedFrom (lastPrev prev p) q →
      TestPairedFrom prev (p ++ q) := by
  induction p with
  | nil => intro prev q h1 h2; simpa [lastPrev] using h2
  | cons op rest ih =>
    intro prev q h1 h2
    rw [lastPrev_cons] at h2
    exact ⟨h1.1, ih h1.2 h2⟩

theorem tpf_take {n : Nat} : ∀ {p : Patch} {prev : Option Operation},
    TestPairedFrom prev p → TestPairedFrom prev (p.take n) := by
  induction n with
  | zero => intro p prev h; rw [List.take_zero]; trivial
  | succ n ih =>
    intro p prev h
    cases p with
    | nil => trivial
    | cons op rest => exact ⟨h.1, ih h.2⟩

theorem tpf_erase : ∀ (p : Patch) (prev : Option Operation) (idx : Nat) (op : Operation),
    TestPairedFrom prev p → p[idx]? = some op → op.type = OpType.remove →
      TestPairedFrom prev (p.eraseIdx idx) := by
  intro p
  induction p with
  | nil => intro prev idx op h hg; cases hg
  | cons a rest ih =>
    intro prev idx op h hg hr
    cases idx with
    | zero =>
      rw [List.getElem?_cons_zero] at hg
      cases hg
      rw [List.eraseIdx_cons_zero]
      exact tpf_change_prev h.2 (by rw [hr]; intro hc; cases hc) prev
    | succ j =>
      rw [List.getElem?_cons_succ] at hg
      rw [List.eraseIdx_cons_succ]
      exact ⟨h.1, ih (some a) j op h.2 hg hr⟩

theorem nocopy_append {p q : Patch} (h1 : NoCopy p) (h2 : NoCopy q) : NoCopy (p ++ q) := by
  intro op hop
  rcases List.mem_append.1 hop with h | h
  · exact h1 op h
  · exact h2 op h

theorem nocopy_take {p : Patch} (n : Nat) (h : NoCopy p) : NoCopy (p.take n) :=
  fun op hop => h op (List.take_subset n p hop)

theorem nocopy_erase {p : Patch} (idx : Nat) (h : NoCopy p) : NoCopy (p.eraseIdx idx) :=
  fun op hop => h op (List.eraseIdx_subset p idx hop)

theorem findRemovedAux_spec (f : Nat) (v : JSON) : ∀ (p : Patch) (n i : Nat),
    findRemovedAux f v p n = some i →
      n ≤ i ∧ ∃ op, p[i - n]? = some op ∧ op.type = OpType.remove := by
  intro p
  induction p with
  | nil => intro n i h; cases h
  | cons a rest ih =>
    intro n i h
    unfold findRemovedAux at h
    by_cases hc : (a.type == OpType.remove && deepEqualF f a.oldValue v) = true
    · rw [if_pos hc] at h
      cases h
      refine ⟨Nat.le_refl _, a, ?_, ?_⟩
      · simp
      · rw [Bool.and_eq_true] at hc
        exact beq_iff_eq.1 hc.1
    · rw [if_neg hc] at h
      obtain ⟨hle, op, hget, hty⟩ := ih (n + 1) i h
      refine ⟨by omega, op, ?_, hty⟩
      have hin : i - n = (i - (n + 1)) + 1 := by omega
      rw [hin, List.getElem?_cons_succ]
      exact hget

def InvOK (o : Options) (d : Differ) : Prop :=
  TestPaired d.patch ∧ NoCopy d.patch ∧ d.opts = o

theorem foldl_invOK {β : Type} (o : Options) (g : Differ → β → Differ) (l : List β)
    (h : ∀ (d2 : Differ), ∀ x ∈ l, InvOK o d2 → InvOK o (g d2 x)) :
    ∀ d, InvOK o d → InvOK o (l.foldl g d) := by
  induction l with
  | nil => intro d hd; exact hd
  | cons x xs ih =>
    intro d hd
    exact ih (fun d2 y hy => h d2 y (by simp [hy])) (g d x) (h d x (by simp) hd)

theorem tpf_append_safe {prev : Option Operation} {p : Patch} {op : Operation}
    (h : TestPairedFrom prev p) (hop : ¬ IsDestructive op) :
    TestPairedFrom prev (p ++ [op]) :=
  tpf_append h ⟨fun hd => absurd hd hop, trivial⟩

theorem tpf_append_pair {prev : Option Operation} {p : Patch} {t op : Operation}
    (h : TestPairedFrom prev p) (hmt : MatchingTest t op) (ht : ¬ IsDestructive t) :
    TestPairedFrom prev (p ++ [t, op]) :=
  tpf_append h ⟨fun hd => absurd hd ht, fun _ => ⟨t, rfl, hmt⟩, trivial⟩

theorem remove_invOK {o : Options} (hinv : o.invertible = true) {d : Differ}
    (ptr : String) (v : JSON) (hd : InvOK o d) : InvOK o (Differ.remove d ptr v) := by
  obtain ⟨htp, hnc, ho⟩ := hd
  unfold Differ.remove patchAppend
  rw [ho, hinv]
  simp only [if_pos]
  refine ⟨?_, ?_, rfl⟩
  · have : d.patch ++ [⟨.test, emptyPtr, ptr, .null, v⟩] ++ [⟨.remove, emptyPtr, ptr, v, .null⟩] =
        d.patch ++ [⟨.test, emptyPtr, ptr, .null, v⟩, ⟨.remove, emptyPtr, ptr, v, .null⟩] := by
      simp
    rw [this]
    exact tpf_append_pair htp ⟨rfl, rfl, Or.inr rfl⟩
      (by intro h; rcases h with h | h <;> cases h)
  · refine nocopy_append (nocopy_append hnc ?_) ?_ <;>
      (intro op hop; simp at hop; rw [hop]; intro hc; cases hc)

theorem replace_invOK {o : Options} (hinv : o.invertible = true) {d : Differ}
    (ptr : String) (src tgt : JSON) (hd : InvOK o d) :
    InvOK o (Differ.replace d ptr src tgt) := by
  obtain ⟨htp, hnc, ho⟩ := hd
  unfold Differ.replace patchAppend
  rw [ho, hinv]
  simp only [if_pos]
  refine ⟨?_, ?_, rfl⟩
  · have : d.patch ++ [⟨.test, emptyPtr, ptr, .null, src⟩] ++
        [⟨.replace, emptyPtr, ptr, src, tgt⟩] =
        d.patch ++ [⟨.test, emptyPtr, ptr, .null, src⟩, ⟨.replace, emptyPtr, ptr, src, tgt⟩] := by
      simp
    rw [this]
    exact tpf_append_pair htp ⟨rfl, rfl, Or.inr rfl⟩
      (by intro h; rcases h with h | h <;> cases h)
  · refine nocopy_append (nocopy_append hnc ?_) ?_ <;>
      (intro op hop; simp at hop; rw [hop]; intro hc; cases hc)

theorem add_invOK {o : Options} (hinv : o.invertible = true) {d : Differ}
    (f : Nat) (ptr : String) (v : JSON) (hd : InvOK o d) :
    InvOK o (Differ.add f d ptr v) := by
  obtain ⟨htp, hnc, ho⟩ := hd
  unfold Differ.add
  by_cases hfa : d.opts.factorize = true
  · simp only [hfa, Bool.not_true, Bool.false_eq_true, if_false]
    cases hfr : Differ.findRemoved f d v with
    | none =>
      simp only
      rw [ho, hinv]
      simp only [Bool.not_true, Bool.and_false, Bool.false_eq_true, if_false]
      refine ⟨?_, ?_, rfl⟩
      · exact tpf_append_safe htp (by intro h; rcases h with h | h <;> cases h)
      · refine nocopy_append hnc ?_
        intro op hop; simp at hop; rw [hop]; intro hc; cases hc
    | some idx =>
      simp only
      obtain ⟨hle, op, hget, hty⟩ := findRemovedAux_spec f v d.patch 0 idx hfr
      rw [Nat.sub_zero] at hget
      split
      · unfold patchAppend patchRemoveAt
        have herase := tpf_erase d.patch none idx op htp hget hty
        refine ⟨?_, ?_, ho⟩
        · exact tpf_append_safe herase (by intro h; rcases h with h | h <;> cases h)
        · refine nocopy_append (nocopy_erase idx hnc) ?_
          intro op2 hop2; simp at hop2; rw [hop2]; intro hc; cases hc
      · exact ⟨htp, hnc, ho⟩
  · simp only [Bool.not_eq_true] at hfa
    simp only [hfa, Bool.not_false, if_pos]
    refine ⟨?_, ?_, ho⟩
    · exact tpf_append_safe htp (by intro h; rcases h with h | h <;> cases h)
    · refine nocopy_append hnc ?_
      intro op hop; simp at hop; rw [hop]; intro hc; cases hc

theorem rationalize_invOK {o : Options} (hinv : o.invertible = true) {d : Differ}
    (f : Nat) (ptr : String) (src tgt : JSON) (n : Nat) (hd : InvOK o d) :
    InvOK o (Differ.rationalizeLastOps f d ptr src tgt n) := by
  obtain ⟨htp, hnc, ho⟩ := hd
  unfold Differ.rationalizeLastOps
  rw [ho, hinv]
  simp only [if_pos]
  split
  · refine ⟨?_, ?_, rfl⟩
    · exact tpf_append_pair (tpf_take htp) ⟨rfl, rfl, Or.inl rfl⟩
        (by intro h; rcases h with h | h <;> cases h)
    · refine nocopy_append (nocopy_take n hnc) ?_
      intro op hop; simp at hop
      rcases hop with h | h <;> (rw [h]; intro hc; cases hc)
  · exact ⟨htp, hnc, ho⟩

theorem compareArrays_invOK {o : Options} (hinv : o.invertible = true)
    {diffK : Differ → String → JSON → JSON → Differ}
    (hK : ∀ (d2 : Differ) (p : String) (s t : JSON), InvOK o d2 → InvOK o (diffK d2 p s t))
    (f2 : Nat) {d : Differ} (ptr : String) (xs ys : List JSON) (hd : InvOK o d) :
    InvOK o (Differ.compareArrays diffK f2 d ptr xs ys) := by
  unfold Differ.compareArrays
  dsimp only
  have h1 : InvOK o (arrayRemovals d ptr (min xs.length ys.length) xs) := by
    unfold arrayRemovals
    split
    · refine foldl_invOK o _ _ ?_ d hd
      intro d2 x hx h2
      split
      · exact h2
      · exact remove_invOK hinv _ _ h2
    · exact hd
  have h2 : InvOK o
      (if ((arrayRemovals d ptr (min xs.length ys.length) xs).opts.equivalent &&
            unorderedDeepEqualSlice f2 xs ys) = true then
        arrayRemovals d ptr (min xs.length ys.length) xs
      else
        arrayPairwise diffK (arrayRemovals d ptr (min xs.length ys.length) xs) ptr
          (min xs.length ys.length) xs ys) := by
    split
    · exact h1
    · unfold arrayPairwise
      refine foldl_invOK o _ _ ?_ _ h1
      intro d2 x hx h3
      exact hK d2 _ _ _ h3
  unfold arrayAppends
  refine foldl_invOK o _ _ ?_ _ h2
  intro d2 x hx h3
  split
  · exact h3
  · exact add_invOK hinv f2 _ _ h3

theorem compareObjects_invOK {o : Options} (hinv : o.invertible = true)
    {diffK : Differ → String → JSON → JSON → Differ}
    (hK : ∀ (d2 : Differ) (p : String) (s t : JSON), InvOK o d2 → InvOK o (diffK d2 p s t))
    (f2 : Nat) {d : Differ} (ptr : String) (src tgt : List (String × JSON)) (hd : InvOK o d) :
    InvOK o (Differ.compareObjects diffK f2 d ptr src tgt) := by
  unfold Differ.compareObjects
  refine foldl_invOK o _ _ ?_ d hd
  intro d2 k hk h2
  dsimp only
  split
  · exact hK d2 _ _ _ h2
  · split
    · split
      · exact h2
      · exact remove_invOK hinv _ _ h2
    · split
      · split
        · exact h2
        · exact add_invOK hinv f2 _ _ h2
      · exact h2

theorem diff_invOK {o : Options} (hinv : o.invertible = true) :
    ∀ (f : Nat) (d : Differ) (ptr : String) (src tgt : JSON), InvOK o d →
      InvOK o (Differ.diff f d ptr src tgt) := by
  intro f
  induction f with
  | zero => intro d ptr src tgt hd; exact hd
  | succ f ih =>
    intro d ptr src tgt hd
    have hK : ∀ (d2 : Differ) (p : String) (s t : JSON), InvOK o d2 →
        InvOK o (Differ.diff f d2 p s t) := fun d2 p s t h2 => ih d2 p s t h2
    obtain ⟨htp, hnc, ho⟩ := hd
    have hd : InvOK o d := ⟨htp, hnc, ho⟩
    unfold Differ.diff
    rcases src with _ | b1 | n1 | s1 | a1 | o1 <;> rcases tgt with _ | b2 | n2 | s2 | a2 | o2 <;>
      dsimp only <;>
      first
      | exact hd
      | (split
         · exact hd
         · split
           · split
             · exact ⟨tpf_append_safe htp
                   (by intro h; rcases h with h | h <;> cases h),
                 nocopy_append hnc
                   (by intro op hop; simp at hop; rw [hop]; intro hc; cases hc), ho⟩
             · exact replace_invOK hinv _ _ _ hd
           · split
             · exact hd
             · first
               | exact replace_invOK hinv _ _ _ hd
               | (split
                  · exact rationalize_invOK hinv _ _ _ _ _
                      (compareArrays_invOK hinv hK (f + 1) ptr _ _ hd)
                  · exact compareArrays_invOK hinv hK (f + 1) ptr _ _ hd)
               | (split
                  · exact rationalize_invOK hinv _ _ _ _ _
                      (compareObjects_invOK hinv hK (f + 1) ptr _ _ hd)
                  · exact compareObjects_invOK hinv hK (f + 1) ptr _ _ hd))

theorem prepare_opts_eq : ∀ (f : Nat) (d : Differ) (ptr : String) (src tgt : JSON),
    (Differ.prepare f d ptr src tgt).opts = d.opts := by
  intro f
  induction f with
  | zero => intro d ptr src tgt; rfl
  | succ f ih =>
    intro d ptr src tgt
    have hfold1 : ∀ (l : List Nat) (g : Differ → Nat → Differ) (d : Differ),
        (∀ d i, (g d i).opts = d.opts) → (l.foldl g d).opts = d.opts := by
      intro l
      induction l with
      | nil => intro g d hg; rfl
      | cons x xs ihl => intro g d hg; rw [List.foldl_cons, ihl g _ hg, hg]
    have hfold2 : ∀ (l : List (String × JSON)) (g : Differ → String × JSON → Differ) (d : Differ),
        (∀ d kv, (g d kv).opts = d.opts) → (l.foldl g d).opts = d.opts := by
      intro l
      induction l with
      | nil => intro g d hg; rfl
      | cons x xs ihl => intro g d hg; rw [List.foldl_cons, ihl g _ hg, hg]
    cases src <;> cases tgt <;>
      simp only [Differ.prepare] <;>
      (try split) <;>
      (try split) <;>
      first
        | rfl
        | (apply hfold1; intro d i; exact ih _ _ _ _)
        | (apply hfold2; intro d kv; cases hkv : lookupField _ kv.1 <;> simp only [hkv] <;>
            first | rfl | exact ih _ _ _ _)

/-- C4 counterexample: with invertible and factorize both set, a remove
operation can be immediately preceded by a test operation whose value is
not the value present at its path when the operation is applied.  For the
source with arr mapped to 9,5,6 and the target with arr mapped to 9
and z mapped to 5, the produced patch is test(/arr/1, 5), test(/arr/1, 6),
remove(/arr/1, old 6), move(/arr/1 to /z): the factorized move deleted the
first remove, so only (non-mutating) test operations precede the remaining
remove, the document at /arr/1 still holds 5 when it is applied, yet the
immediately preceding test carries 6 — and indeed applying the patch to
the source fails. -/
theorem c4_counterexample_test_value_stale :
    compareP 50 ⟨true, false, true, false, []⟩
        (.obj [("arr", .arr [.num 9, .num 5, .num 6])])
        (.obj [("arr", .arr [.num 9]), ("z", .num 5)]) =
      [⟨.test, emptyPtr, "/arr/1", .null, .num 5⟩,
        ⟨.test, emptyPtr, "/arr/1", .null, .num 6⟩,
        ⟨.remove, emptyPtr, "/arr/1", .num 6, .null⟩,
        ⟨.move, "/arr/1", "/z", .num 5, .num 5⟩] ∧
    getAtPath (.obj [("arr", .arr [.num 9, .num 5, .num 6])]) (parsePointer "/arr/1") =
      some (.num 5) ∧
    beqJSON 10 (.num 5) (.num 6) = false ∧
    applyPatch 50 (.obj [("arr", .arr [.num 9, .num 5, .num 6])])
        (compareP 50 ⟨true, false, true, false, []⟩
          (.obj [("arr", .arr [.num 9, .num 5, .num 6])])
          (.obj [("arr", .arr [.num 9]), ("z", .num 5)])) = none :=
  ⟨rfl, rfl, rfl, rfl⟩

/-- C4 as amended: when the invertible flag is set, in every patch produced
by Compare from a fresh differ, each remove and each replace operation is
immediately preceded by a test operation whose path equals the operation's
path and whose value equals the operation's recorded old value whenever one
is recorded (a rationalization-synthesized replace records no old value),
and no copy operation ever appears in the patch.  The recorded old value is
the source subtree the differ compared at that path; under factorize it may
differ from the value present when the operation is applied, as the
counterexample shows. -/
theorem c4_amended_invertible_pairing (f : Nat) (opts : Options) (src tgt : JSON)
    (hinv : opts.invertible = true) :
    TestPaired (compareP f opts src tgt) ∧ NoCopy (compareP f opts src tgt) := by
  unfold compareP Differ.Compare
  dsimp only
  have hbase : InvOK opts (if (freshDiffer opts).opts.factorize = true then
      Differ.prepare f (freshDiffer opts) emptyPtr src tgt else freshDiffer opts) := by
    split
    · refine ⟨?_, ?_, ?_⟩
      · rw [show (Differ.prepare f (freshDiffer opts) emptyPtr src tgt).patch = [] from
          prepare_patch_eq f _ _ _ _]
        trivial
      · rw [show (Differ.prepare f (freshDiffer opts) emptyPtr src tgt).patch = [] from
          prepare_patch_eq f _ _ _ _]
        intro op hop; cases hop
      · exact prepare_opts_eq f _ _ _ _
    · exact ⟨trivial, fun op hop => absurd hop (List.not_mem_nil op), rfl⟩
  have h := diff_invOK hinv f _ emptyPtr src tgt hbase
  exact ⟨h.1, h.2.1⟩

/-- Closed witness for the C4 amended theorem at a concrete comparison with
invertible and factorize set. -/
theorem c4_amended_invertible_pairing_witness :
    TestPaired (compareP 50 ⟨true, false, true, false, []⟩
        (.obj [("arr", .arr [.num 9, .num 5, .num 6])])
        (.obj [("arr", .arr [.num 9]), ("z", .num 5)])) ∧
    NoCopy (compareP 50 ⟨true, false, true, false, []⟩
        (.obj [("arr", .arr [.num 9, .num 5, .num 6])])
        (.obj [("arr", .arr [.num 9]), ("z", .num 5)])) :=
  c4_amended_invertible_pairing 50 ⟨true, false, true, false, []⟩
    (.obj [("arr", .arr [.num 9, .num 5, .num 6])])
    (.obj [("arr", .arr [.num 9]), ("z", .num 5)]) rfl

/-
Support for the determinism claim: properties of the string order and of
sortStrings/dedupKeys, leading to the fact that the sorted deduplicated
key list depends only on the key set.
-/

theorem char_toNat_inj {a b : Char} (h : a.toNat = b.toNat) : a = b :=
  Char.ext (UInt32.ext h)

theorem clt_irrefl : ∀ l : List Char, charListLt l l = false := by
  intro l
  induction l with
  | nil => rfl
  | cons c cs ih => simp [charListLt, ih]

theorem clt_trans : ∀ (a b c : List Char), charListLt a b = true → charListLt b c = true →
    charListLt a c = true := by
  intro a
  induction a with
  | nil =>
    intro b c hab hbc
    cases b with
    | nil => exact hbc
    | cons y ys =>
      cases c with
      | nil => cases hbc
      | cons z zs => rfl
  | cons x xs ih =>
    intro b c hab hbc
    cases b with
    | nil => cases hab
    | cons y ys =>
      cases c with
      | nil => cases hbc
      | cons z zs =>
        simp only [charListLt, Bool.or_eq_true, Bool.and_eq_true, beq_iff_eq,
          decide_eq_true_eq] at hab hbc ⊢
        rcases hab with h1 | ⟨h1e, h1r⟩ <;> rcases hbc with h2 | ⟨h2e, h2r⟩
        · exact Or.inl (by omega)
        · exact Or.inl (by omega)
        · exact Or.inl (by omega)
        · exact Or.inr ⟨by omega, ih ys zs h1r h2r⟩

theorem clt_conn : ∀ (a b : List Char), a ≠ b →
    charListLt a b = true ∨ charListLt b a = true := by
  intro a
  induction a with
  | nil =>
    intro b hne
    cases b with
    | nil => exact absurd rfl hne
    | cons y ys => exact Or.inl rfl
  | cons x xs ih =>
    intro b hne
    cases b with
    | nil => exact Or.inr rfl
    | cons y ys =>
      by_cases hxy : x.toNat = y.toNat
      · have hx : x = y := char_toNat_inj hxy
        subst hx
        have hys : xs ≠ ys := by intro h; rw [h] at hne; exact hne rfl
        rcases ih ys hys with h | h
        · exact Or.inl (by simp [charListLt, h])
        · exact Or.inr (by simp [charListLt, h])
      · rcases Nat.lt_or_ge x.toNat y.toNat with h | h
        · exact Or.inl (by simp [charListLt]; omega)
        · have : y.toNat < x.toNat := by omega
          exact Or.inr (by simp [charListLt]; omega)

theorem clt_antisymm {a b : List Char} (h1 : charListLt a b = false)
    (h2 : charListLt b a = false) : a = b := by
  by_contra hne
  rcases clt_conn a b hne with h | h
  · rw [h1] at h; cases h
  · rw [h2] at h; cases h

theorem string_data_inj {a b : String} (h : a.data = b.data) : a = b := by
  cases a; cases b; rw [show @String.data { data := _ } = _ from rfl] at h; congr

def strLe (a b : String) : Prop := strLt b a = false

theorem strLt_asymm {a b : String} (h : strLt a b = true) : strLt b a = false := by
  by_contra hc
  have hc2 : strLt b a = true := by
    cases hv : strLt b a
    · exact absurd hv hc
    · rfl
  have := clt_trans a.data b.data a.data h hc2
  rw [clt_irrefl] at this
  cases this

theorem strLe_total (a b : String) : strLe a b ∨ strLe b a := by
  by_cases hab : strLt a b = true
  · exact Or.inl (strLt_asymm hab)
  · exact Or.inr (by simpa [strLe] using hab)

theorem strLe_antisymm {a b : String} (h1 : strLe a b) (h2 : strLe b a) : a = b :=
  string_data_inj (clt_antisymm h2 h1)

theorem strLe_of_lt {a b : String} (h : strLt a b = true) : strLe a b := strLt_asymm h

theorem strLe_trans {a b c : String} (h1 : strLe a b) (h2 : strLe b c) : strLe a c := by
  unfold strLe strLt at h1 h2 ⊢
  by_contra hc
  have hc2 : charListLt c.data a.data = true := by simpa using hc
  by_cases hab : a = b
  · subst hab; rw [hc2] at h2; cases h2
  · rcases clt_conn a.data b.data (fun h => hab (string_data_inj h)) with h | h
    · have h3 := clt_trans c.data a.data b.data hc2 h
      rw [h3] at h2; cases h2
    · rw [h] at h1; cases h1

theorem insertStr_mem {x z : String} : ∀ {l : List String},
    z ∈ insertStr x l → z = x ∨ z ∈ l := by
  intro l
  induction l with
  | nil => intro h; simp [insertStr] at h; exact Or.inl h
  | cons y ys ih =>
    intro h
    unfold insertStr at h
    split at h
    · rcases List.mem_cons.1 h with h | h
      · exact Or.inl h
      · exact Or.inr h
    · rcases List.mem_cons.1 h with h | h
      · exact Or.inr (by simp [h])
      · rcases ih h with h | h
        · exact Or.inl h
        · exact Or.inr (by simp [h])

theorem insertStr_pairwise {x : String} : ∀ {l : List String},
    l.Pairwise strLe → (insertStr x l).Pairwise strLe := by
  intro l
  induction l with
  | nil => intro h; exact List.pairwise_singleton _ _
  | cons y ys ih =>
    intro h
    rw [List.pairwise_cons] at h
    obtain ⟨hy, hys⟩ := h
    unfold insertStr
    split
    · rw [List.pairwise_cons]
      refine ⟨?_, List.pairwise_cons.2 ⟨hy, hys⟩⟩
      intro z hz
      rcases List.mem_cons.1 hz with h | h
      · subst h
        next hxy => exact strLe_of_lt hxy
      · next hxy => exact strLe_trans (strLe_of_lt hxy) (hy z h)
    · rw [List.pairwise_cons]
      refine ⟨?_, ih hys⟩
      intro z hz
      rcases insertStr_mem hz with h | h
      · subst h
        next hxy => simpa [strLe] using hxy
      · exact hy z h

theorem insertStr_perm (x : String) : ∀ (l : List String),
    (insertStr x l).Perm (x :: l) := by
  intro l
  induction l with
  | nil => exact List.Perm.refl _
  | cons y ys ih =>
    unfold insertStr
    split
    · exact List.Perm.refl _
    · exact List.Perm.trans (List.Perm.cons y ih) (List.Perm.swap x y ys)

theorem sortStrings_pairwise : ∀ (l : List String), (sortStrings l).Pairwise strLe := by
  intro l
  induction l with
  | nil => exact List.Pairwise.nil
  | cons x xs ih => exact insertStr_pairwise ih

theorem sortStrings_perm : ∀ (l : List String), (sortStrings l).Perm l := by
  intro l
  induction l with
  | nil => exact List.Perm.refl _
  | cons x xs ih =>
    exact List.Perm.trans (insertStr_perm x (sortStrings xs)) (List.Perm.cons x ih)

theorem dedupKeys_mem {k : String} : ∀ {l : List String}, k ∈ dedupKeys l ↔ k ∈ l := by
  intro l
  induction l with
  | nil => simp [dedupKeys]
  | cons x xs ih =>
    unfold dedupKeys
    split
    · rw [ih]
      constructor
      · intro h; simp [h]
      · intro h
        rcases List.mem_cons.1 h with h | h
        · subst h
          next hc => simpa using hc
        · exact h
    · simp only [List.mem_cons, ih]

theorem dedupKeys_nodup : ∀ (l : List String), (dedupKeys l).Nodup := by
  intro l
  induction l with
  | nil => exact List.nodup_nil
  | cons x xs ih =>
    unfold dedupKeys
    split
    · exact ih
    · rw [List.nodup_cons]
      refine ⟨?_, ih⟩
      rw [dedupKeys_mem]
      next hc => simpa using hc

theorem sorted_mem_unique : ∀ (l1 l2 : List String), l1.Pairwise strLe → l2.Pairwise strLe →
    l1.Nodup → l2.Nodup → (∀ x, x ∈ l1 ↔ x ∈ l2) → l1 = l2 := by
  intro l1
  induction l1 with
  | nil =>
    intro l2 _ _ _ _ hm
    cases l2 with
    | nil => rfl
    | cons b l2t => exact absurd ((hm b).2 (by simp)) (List.not_mem_nil b)
  | cons a l1t ih =>
    intro l2 hp1 hp2 hn1 hn2 hm
    cases l2 with
    | nil => exact absurd ((hm a).1 (by simp)) (List.not_mem_nil a)
    | cons b l2t =>
      rw [List.pairwise_cons] at hp1 hp2
      rw [List.nodup_cons] at hn1 hn2
      have hab : a = b := by
        rcases List.mem_cons.1 ((hm a).1 (by simp)) with h | h
        · exact h
        · rcases List.mem_cons.1 ((hm b).2 (by simp)) with h2 | h2
          · exact h2.symm
          · exact strLe_antisymm (hp1.1 b h2) (hp2.1 a h)
      subst hab
      have htails : ∀ x, x ∈ l1t ↔ x ∈ l2t := by
        intro x
        constructor
        · intro hx
          rcases List.mem_cons.1 ((hm x).1 (by simp [hx])) with h | h
          · subst h; exact absurd hx hn1.1
          · exact h
        · intro hx
          rcases List.mem_cons.1 ((hm x).2 (by simp [hx])) with h | h
          · subst h; exact absurd hx hn2.1
          · exact h
      rw [ih l2t hp1.2 hp2.2 hn1.2 hn2.2 htails]

theorem sortedDedup_ext {l1 l2 : List String}
    (h : ∀ k, l1.contains k = l2.contains k) :
    sortStrings (dedupKeys l1) = sortStrings (dedupKeys l2) := by
  refine sorted_mem_unique _ _ (sortStrings_pairwise _) (sortStrings_pairwise _)
    ((sortStrings_perm _).nodup_iff.2 (dedupKeys_nodup _))
    ((sortStrings_perm _).nodup_iff.2 (dedupKeys_nodup _)) ?_
  intro x
  rw [(sortStrings_perm _).mem_iff, (sortStrings_perm _).mem_iff, dedupKeys_mem, dedupKeys_mem]
  have hx := h x
  constructor
  · intro hm
    have : l1.contains x = true := by simpa using hm
    rw [hx] at this
    simpa using this
  · intro hm
    have : l2.contains x = true := by simpa using hm
    rw [← hx] at this
    simpa using this

/-
Equivalence of JSON representations: same trees up to the insertion order
of object fields.  This is the identity criterion of Go documents, whose
objects are unordered maps; two association-list representations of the
same document are JEquiv.
-/

inductive JEquiv : JSON → JSON → Prop
  | null : JEquiv .null .null
  | bool (b : Bool) : JEquiv (.bool b) (.bool b)
  | num (n : Int) : JEquiv (.num n) (.num n)
  | str (s : String) : JEquiv (.str s) (.str s)
  | arr {xs ys : List JSON} (hlen : xs.length = ys.length)
      (h : ∀ i, i < xs.length → JEquiv (xs.getD i .null) (ys.getD i .null)) :
      JEquiv (.arr xs) (.arr ys)
  | obj {fs1 fs2 : List (String × JSON)}
      (hkeys : ∀ k, (fs1.map Prod.fst).contains k = (fs2.map Prod.fst).contains k)
      (hvals : ∀ k v1 v2, lookupField fs1 k = some v1 → lookupField fs2 k = some v2 →
        JEquiv v1 v2) :
      JEquiv (.obj fs1) (.obj fs2)

/-- Well-formed document: every object in the tree has pairwise distinct
keys, as Go map documents always do. -/
def WfB (a : JSON) : Prop := wfF (sizeOf a) a = true

theorem lookup_isSome_iff {fs : List (String × JSON)} {k : String} :
    (fs.map Prod.fst).contains k = true ↔ ∃ v, lookupField fs k = some v := by
  induction fs with
  | nil => simp [lookupField]
  | cons kv rest ih =>
    obtain ⟨k2, v⟩ := kv
    by_cases hk : k2 == k
    · simp only [lookupField, hk, if_pos]
      constructor
      · intro h; exact ⟨v, rfl⟩
      · intro h
        simp only [List.map_cons, List.contains_cons]
        have : k2 = k := by simpa using hk
        simp [this]
    · simp only [lookupField, hk, Bool.false_eq_true, if_false]
      rw [← ih]
      simp only [List.map_cons, List.contains_cons]
      have : ¬ (k == k2) = true := by
        intro h
        have hkk : k = k2 := by simpa using h
        exact absurd (by simp [hkk] : (k2 == k) = true) (by simpa using hk)
      simp only [Bool.or_eq_true]
      constructor
      · intro h
        rcases h with h | h
        · exact absurd h this
        · exact h
      · intro h; exact Or.inr h

theorem lookup_nodup_mem {fs : List (String × JSON)} {k : String} {v : JSON}
    (hnd : (fs.map Prod.fst).Nodup) (hm : (k, v) ∈ fs) : lookupField fs k = some v := by
  induction fs with
  | nil => cases hm
  | cons kv rest ih =>
    obtain ⟨k2, w⟩ := kv
    simp only [List.map_cons, List.nodup_cons] at hnd
    rcases List.mem_cons.1 hm with h | h
    · cases h
      simp [lookupField]
    · have hne : ¬ (k2 == k) = true := by
        intro hc
        have : k2 = k := by simpa using hc
        subst this
        exact hnd.1 (List.mem_map_of_mem Prod.fst h)
      simp only [lookupField, hne, Bool.false_eq_true, if_false]
      exact ih hnd.2 h

theorem json_sizeOf_getD_lt {xs : List JSON} {i : Nat} (h : i < xs.length) :
    sizeOf (xs.getD i JSON.null) < sizeOf (JSON.arr xs) := sizeOf_list_getD

theorem jequiv_refl : ∀ (a : JSON), JEquiv a a := by
  have main : ∀ (n : Nat) (a : JSON), sizeOf a ≤ n → JEquiv a a := by
    intro n
    induction n with
    | zero => intro a h; exact absurd h (by have := json_sizeOf_pos a; omega)
    | succ n ih =>
      intro a h
      cases a with
      | null => exact .null
      | bool b => exact .bool b
      | num m => exact .num m
      | str s => exact .str s
      | arr xs =>
        refine .arr rfl ?_
        intro i hi
        exact ih _ (by have := @sizeOf_list_getD xs i; omega)
      | obj fs =>
        refine .obj (fun k => rfl) ?_
        intro k v1 v2 h1 h2
        rw [h1] at h2
        cases h2
        exact ih _ (by have := sizeOf_mem_fields (lookupField_mem h1); omega)
  exact fun a => main (sizeOf a) a le_rfl

theorem jequiv_symm {a b : JSON} (h : JEquiv a b) : JEquiv b a := by
  induction h with
  | null => exact .null
  | bool b => exact .bool b
  | num n => exact .num n
  | str s => exact .str s
  | arr hlen h ih =>
    refine .arr hlen.symm ?_
    intro i hi
    exact ih i (by omega)
  | obj hkeys hvals ih =>
    refine .obj (fun k => (hkeys k).symm) ?_
    intro k v1 v2 h1 h2
    exact ih k v2 v1 h2 h1

theorem jequiv_trans {a b c : JSON} (h1 : JEquiv a b) (h2 : JEquiv b c) : JEquiv a c := by
  induction h1 generalizing c with
  | null => exact h2
  | bool b => exact h2
  | num n => exact h2
  | str s => exact h2
  | arr hlen h ih =>
    cases h2 with
    | arr hlen2 hpt2 =>
      refine .arr (hlen.trans hlen2) ?_
      intro i hi
      exact ih i hi (hpt2 i (by omega))
  | @obj fsa fsb hkeys hvals ih =>
    cases h2 with
    | @obj _ fsc hkeys2 hvals2 =>
      refine .obj (fun k => (hkeys k).trans (hkeys2 k)) ?_
      intro k v1 v3 hl1 hl3
      have hsome : ∃ v2, lookupField fsb k = some v2 := by
        rw [← lookup_isSome_iff, ← hkeys k, lookup_isSome_iff]
        exact ⟨v1, hl1⟩
      obtain ⟨v2, hl2⟩ := hsome
      exact ih k v1 v2 hl1 hl2 (hvals2 k v2 v3 hl2 hl3)

theorem jequiv_kind {a b : JSON} (h : JEquiv a b) : typeSwitchKind a = typeSwitchKind b := by
  cases h <;> rfl

/-
Well-formedness as an inductive predicate, equivalent to the boolean wfF at
sufficient fuel; hypotheses of the order-insensitivity theorems use it.
-/

inductive Wf : JSON → Prop
  | null : Wf .null
  | bool (b : Bool) : Wf (.bool b)
  | num (n : Int) : Wf (.num n)
  | str (s : String) : Wf (.str s)
  | arr {xs : List JSON} (h : ∀ x ∈ xs, Wf x) : Wf (.arr xs)
  | obj {fs : List (String × JSON)} (hnd : (fs.map Prod.fst).Nodup)
      (h : ∀ kv ∈ fs, Wf kv.2) : Wf (.obj fs)

theorem hasDupKeys_false_nodup : ∀ {l : List String}, hasDupKeys l = false → l.Nodup := by
  intro l
  induction l with
  | nil => intro _; exact List.nodup_nil
  | cons k ks ih =>
    intro h
    unfold hasDupKeys at h
    rw [Bool.or_eq_false_iff] at h
    rw [List.nodup_cons]
    refine ⟨?_, ih h.2⟩
    intro hm
    have hc : ks.contains k = true := by simpa using hm
    rw [h.1] at hc
    cases hc

theorem wfListWith_forall (w : JSON → Bool) : ∀ (l : List JSON),
    wfListWith w l = true ↔ ∀ x ∈ l, w x = true := by
  intro l
  induction l with
  | nil => simp [wfListWith]
  | cons x xs ih => simp [wfListWith, Bool.and_eq_true, ih, List.forall_mem_cons]

theorem wfFieldsWith_forall (w : JSON → Bool) : ∀ (l : List (String × JSON)),
    wfFieldsWith w l = true ↔ ∀ kv ∈ l, w kv.2 = true := by
  intro l
  induction l with
  | nil => simp [wfFieldsWith]
  | cons kv rest ih =>
    obtain ⟨k, v⟩ := kv
    simp [wfFieldsWith, Bool.and_eq_true, ih, List.forall_mem_cons]

theorem wf_of_wfF : ∀ (f : Nat) (a : JSON), wfF f a = true → Wf a := by
  intro f
  induction f with
  | zero => intro a h; simp [wfF] at h
  | succ f ih =>
    intro a h
    cases a with
    | null => exact .null
    | bool b => exact .bool b
    | num n => exact .num n
    | str s => exact .str s
    | arr xs =>
      simp only [wfF] at h
      exact .arr (fun x hx => ih x ((wfListWith_forall _ xs).1 h x hx))
    | obj fs =>
      simp only [wfF, Bool.and_eq_true] at h
      refine .obj (hasDupKeys_false_nodup (by simpa using h.1)) ?_
      exact fun kv hkv => ih kv.2 ((wfFieldsWith_forall _ fs).1 h.2 kv hkv)

theorem wf_arr_elem {xs : List JSON} {x : JSON} (h : Wf (.arr xs)) (hm : x ∈ xs) : Wf x := by
  cases h with | arr h2 => exact h2 x hm

theorem wf_arr_getD {xs : List JSON} (h : Wf (.arr xs)) (i : Nat) : Wf (xs.getD i .null) := by
  by_cases hi : i < xs.length
  · refine wf_arr_elem h ?_
    rw [List.getD_eq_getElem _ _ hi]
    exact List.getElem_mem hi
  · rw [List.getD_eq_default _ _ (by omega)]
    exact .null

theorem wf_obj_nodup {fs : List (String × JSON)} (h : Wf (.obj fs)) :
    (fs.map Prod.fst).Nodup := by
  cases h with | obj hnd _ => exact hnd

theorem wf_obj_val {fs : List (String × JSON)} {k : String} {v : JSON}
    (h : Wf (.obj fs)) (hm : (k, v) ∈ fs) : Wf v := by
  cases h with | obj _ h2 => exact h2 (k, v) hm

theorem wf_obj_lookup_getD {fs : List (String × JSON)} (h : Wf (.obj fs)) (k : String) :
    Wf ((lookupField fs k).getD .null) := by
  cases hl : lookupField fs k with
  | none => exact .null
  | some v => exact wf_obj_val h (lookupField_mem hl)

theorem jequiv_arr_len {xs ys : List JSON} (h : JEquiv (.arr xs) (.arr ys)) :
    xs.length = ys.length := by
  cases h with | arr hlen _ => exact hlen

theorem jequiv_arr_getD {xs ys : List JSON} (h : JEquiv (.arr xs) (.arr ys)) (i : Nat) :
    JEquiv (xs.getD i .null) (ys.getD i .null) := by
  cases h with
  | arr hlen hpt =>
    by_cases hi : i < xs.length
    · exact hpt i hi
    · rw [List.getD_eq_default _ _ (by omega), List.getD_eq_default _ _ (by omega)]
      exact .null

theorem jequiv_obj_keys {fs1 fs2 : List (String × JSON)} (h : JEquiv (.obj fs1) (.obj fs2)) :
    ∀ k, (fs1.map Prod.fst).contains k = (fs2.map Prod.fst).contains k := by
  cases h with | obj hkeys _ => exact hkeys

theorem jequiv_obj_vals {fs1 fs2 : List (String × JSON)} (h : JEquiv (.obj fs1) (.obj fs2)) :
    ∀ k v1 v2, lookupField fs1 k = some v1 → lookupField fs2 k = some v2 → JEquiv v1 v2 := by
  cases h with | obj _ hvals => exact hvals

theorem lookup_none_of_keys {fs1 fs2 : List (String × JSON)}
    (hk : ∀ k, (fs1.map Prod.fst).contains k = (fs2.map Prod.fst).contains k)
    {k : String} (h : lookupField fs1 k = none) : lookupField fs2 k = none := by
  cases h2 : lookupField fs2 k with
  | none => rfl
  | some v =>
    have hc : (fs2.map Prod.fst).contains k = true := lookup_isSome_iff.2 ⟨v, h2⟩
    rw [← hk k] at hc
    obtain ⟨w, hw⟩ := lookup_isSome_iff.1 hc
    rw [h] at hw
    cases hw

theorem jequiv_obj_lookup_getD {fs1 fs2 : List (String × JSON)}
    (h : JEquiv (.obj fs1) (.obj fs2)) (k : String) :
    JEquiv ((lookupField fs1 k).getD .null) ((lookupField fs2 k).getD .null) := by
  cases h1 : lookupField fs1 k with
  | none =>
    rw [lookup_none_of_keys (jequiv_obj_keys h) h1]
    exact .null
  | some v1 =>
    cases h2 : lookupField fs2 k with
    | none =>
      rw [lookup_none_of_keys (fun k2 => (jequiv_obj_keys h k2).symm) h2] at h1
      cases h1
    | some v2 => exact jequiv_obj_vals h k v1 v2 h1 h2

theorem bool_ext {a b : Bool} (h : a = true ↔ b = true) : a = b := by
  cases a <;> cases b <;> simp_all

theorem contains_append {l1 l2 : List String} {k : String} :
    (l1 ++ l2).contains k = (l1.contains k || l2.contains k) := by
  induction l1 with
  | nil => simp
  | cons x xs ih => simp [List.contains_cons, ih, Bool.or_assoc]

theorem deepEqualListWith_cong (eqA eqB : JSON → JSON → Bool) :
    ∀ {xs ys xs2 ys2 : List JSON}, xs.length = xs2.length → ys.length = ys2.length →
    (∀ i, i < xs.length → i < ys.length →
      eqA (xs.getD i .null) (ys.getD i .null) = eqB (xs2.getD i .null) (ys2.getD i .null)) →
    deepEqualListWith eqA xs ys = deepEqualListWith eqB xs2 ys2 := by
  intro xs
  induction xs with
  | nil =>
    intro ys xs2 ys2 hlx hly hc
    cases xs2 with
    | cons a b => simp at hlx
    | nil =>
      cases ys with
      | nil =>
        cases ys2 with
        | nil => rfl
        | cons c d => simp at hly
      | cons c d =>
        cases ys2 with
        | nil => simp at hly
        | cons e g => rfl
  | cons x xs ih =>
    intro ys xs2 ys2 hlx hly hc
    cases xs2 with
    | nil => simp at hlx
    | cons x2 xs2 =>
      cases ys with
      | nil =>
        cases ys2 with
        | nil => rfl
        | cons y2 ys2 => simp at hly
      | cons y ys =>
        cases ys2 with
        | nil => simp at hly
        | cons y2 ys2 =>
          simp only [deepEqualListWith]
          have h0 := hc 0 (by simp) (by simp)
          simp only [List.getD_cons_zero] at h0
          rw [h0]
          congr 1
          refine ih (by simpa using hlx) (by simpa using hly) ?_
          intro i hi1 hi2
          have hstep := hc (i + 1) (by simp; omega) (by simp; omega)
          simpa [List.getD_cons_succ] using hstep

theorem deepEqualSubWith_iff (eq : JSON → JSON → Bool) (b : List (String × JSON)) :
    ∀ (l : List (String × JSON)),
    deepEqualSubWith eq b l = true ↔
      ∀ kv ∈ l, ∃ w, lookupField b kv.1 = some w ∧ eq kv.2 w = true := by
  intro l
  induction l with
  | nil => simp [deepEqualSubWith]
  | cons kv rest ih =>
    obtain ⟨k, v⟩ := kv
    simp only [deepEqualSubWith, Bool.and_eq_true, ih, List.forall_mem_cons]
    constructor
    · rintro ⟨h1, h2⟩
      refine ⟨?_, h2⟩
      cases hl : lookupField b k with
      | none => simp only [hl] at h1; cases h1
      | some w => simp only [hl] at h1; exact ⟨w, rfl, h1⟩
    · rintro ⟨⟨w, hw, he⟩, h2⟩
      refine ⟨?_, h2⟩
      simp only [hw]
      exact he

theorem deepEqualF_cong : ∀ (f : Nat) {a b a2 b2 : JSON}, Wf a → Wf b → Wf a2 → Wf b2 →
    JEquiv a a2 → JEquiv b b2 → deepEqualF f a b = deepEqualF f a2 b2 := by
  intro f
  induction f with
  | zero => intro a b a2 b2 _ _ _ _ _ _; rfl
  | succ f ih =>
    intro a b a2 b2 hwa hwb hwa2 hwb2 ha hb
    cases ha with
    | null => cases hb <;> rfl
    | bool x => cases hb <;> rfl
    | num x => cases hb <;> rfl
    | str x => cases hb <;> rfl
    | @arr xs xs2 hlenA hA =>
      cases hb with
      | null => rfl
      | bool y => rfl
      | num y => rfl
      | str y => rfl
      | obj hkB hvB => rfl
      | @arr us us2 hlenB hB =>
        simp only [deepEqualF]
        refine deepEqualListWith_cong _ _ hlenA hlenB ?_
        intro i hi1 hi2
        exact ih (wf_arr_getD hwa i) (wf_arr_getD hwb i) (wf_arr_getD hwa2 i)
          (wf_arr_getD hwb2 i) (hA i hi1) (hB i hi2)
    | @obj fs1 fs2 hkA hvA =>
      cases hb with
      | null => rfl
      | bool y => rfl
      | num y => rfl
      | str y => rfl
      | arr hlenB hB => rfl
      | @obj gs1 gs2 hkB hvB =>
        simp only [deepEqualF]
        have hkeq : keySetEq fs1 gs1 = keySetEq fs2 gs2 := by
          unfold keySetEq
          rw [sortedDedup_ext hkA, sortedDedup_ext hkB]
        rw [hkeq]
        congr 1
        apply bool_ext
        rw [deepEqualSubWith_iff, deepEqualSubWith_iff]
        have dir : ∀ (p1 p2 q1 q2 : List (String × JSON)),
            Wf (JSON.obj p1) → Wf (JSON.obj p2) → Wf (JSON.obj q1) → Wf (JSON.obj q2) →
            (∀ k, (p1.map Prod.fst).contains k = (p2.map Prod.fst).contains k) →
            (∀ k w1 w2, lookupField p1 k = some w1 → lookupField p2 k = some w2 → JEquiv w1 w2) →
            (∀ k, (q1.map Prod.fst).contains k = (q2.map Prod.fst).contains k) →
            (∀ k w1 w2, lookupField q1 k = some w1 → lookupField q2 k = some w2 → JEquiv w1 w2) →
            (∀ kv ∈ p1, ∃ w, lookupField q1 kv.1 = some w ∧ deepEqualF f kv.2 w = true) →
            (∀ kv ∈ p2, ∃ w, lookupField q2 kv.1 = some w ∧ deepEqualF f kv.2 w = true) := by
          intro p1 p2 q1 q2 hwp1 hwp2 hwq1 hwq2 hkP hvP hkQ hvQ H kv hm
          obtain ⟨k, v2⟩ := kv
          have hl2 : lookupField p2 k = some v2 := lookup_nodup_mem (wf_obj_nodup hwp2) hm
          have hc2 : (p2.map Prod.fst).contains k = true := lookup_isSome_iff.2 ⟨v2, hl2⟩
          rw [← hkP k] at hc2
          obtain ⟨v1, hl1⟩ := lookup_isSome_iff.1 hc2
          obtain ⟨w1, hw1, he1⟩ := H (k, v1) (lookupField_mem hl1)
          have hcq : (q1.map Prod.fst).contains k = true := lookup_isSome_iff.2 ⟨w1, hw1⟩
          rw [hkQ k] at hcq
          obtain ⟨w2, hw2⟩ := lookup_isSome_iff.1 hcq
          refine ⟨w2, hw2, ?_⟩
          rw [← ih (wf_obj_val hwp1 (lookupField_mem hl1)) (wf_obj_val hwq1 (lookupField_mem hw1))
            (wf_obj_val hwp2 hm) (wf_obj_val hwq2 (lookupField_mem hw2))
            (hvP k v1 v2 hl1 hl2) (hvQ k w1 w2 hw1 hw2)]
          exact he1
        constructor
        · exact dir fs1 fs2 gs1 gs2 hwa hwa2 hwb hwb2 hkA hvA hkB hvB
        · exact dir fs2 fs1 gs2 gs1 hwa2 hwa hwb2 hwb (fun k => (hkA k).symm)
            (fun k w1 w2 e1 e2 => jequiv_symm (hvA k w2 w1 e2 e1))
            (fun k => (hkB k).symm)
            (fun k w1 w2 e1 e2 => jequiv_symm (hvB k w2 w1 e2 e1))

theorem insertEncField_mem {x z : String × String} : ∀ {l : List (String × String)},
    z ∈ insertEncField x l → z = x ∨ z ∈ l := by
  intro l
  induction l with
  | nil => intro h; simp [insertEncField] at h; exact Or.inl h
  | cons y ys ih =>
    intro h
    unfold insertEncField at h
    split at h
    · rcases List.mem_cons.1 h with h | h
      · exact Or.inl h
      · exact Or.inr h
    · rcases List.mem_cons.1 h with h | h
      · exact Or.inr (by simp [h])
      · rcases ih h with h | h
        · exact Or.inl h
        · exact Or.inr (by simp [h])

theorem insertEncField_pairwise {x : String × String} : ∀ {l : List (String × String)},
    l.Pairwise (fun p q => strLe p.1 q.1) →
    (insertEncField x l).Pairwise (fun p q => strLe p.1 q.1) := by
  intro l
  induction l with
  | nil => intro h; exact List.pairwise_singleton _ _
  | cons y ys ih =>
    intro h
    rw [List.pairwise_cons] at h
    obtain ⟨hy, hys⟩ := h
    unfold insertEncField
    split
    · rw [List.pairwise_cons]
      refine ⟨?_, List.pairwise_cons.2 ⟨hy, hys⟩⟩
      intro z hz
      rcases List.mem_cons.1 hz with h | h
      · subst h
        next hxy => exact strLe_of_lt hxy
      · next hxy => exact strLe_trans (strLe_of_lt hxy) (hy z h)
    · rw [List.pairwise_cons]
      refine ⟨?_, ih hys⟩
      intro z hz
      rcases insertEncField_mem hz with h | h
      · subst h
        next hxy => simpa [strLe] using hxy
      · exact hy z h

theorem insertEncField_perm (x : String × String) : ∀ (l : List (String × String)),
    (insertEncField x l).Perm (x :: l) := by
  intro l
  induction l with
  | nil => exact List.Perm.refl _
  | cons y ys ih =>
    unfold insertEncField
    split
    · exact List.Perm.refl _
    · exact List.Perm.trans (List.Perm.cons y ih) (List.Perm.swap x y ys)

theorem sortEncFields_pairwise : ∀ (l : List (String × String)),
    (sortEncFields l).Pairwise (fun p q => strLe p.1 q.1) := by
  intro l
  induction l with
  | nil => exact List.Pairwise.nil
  | cons x xs ih => exact insertEncField_pairwise ih

theorem sortEncFields_perm : ∀ (l : List (String × String)), (sortEncFields l).Perm l := by
  intro l
  induction l with
  | nil => exact List.Perm.refl _
  | cons x xs ih =>
    exact List.Perm.trans (insertEncField_perm x (sortEncFields xs)) (List.Perm.cons x ih)

theorem sortedPairs_mem_unique : ∀ (l1 l2 : List (String × String)),
    l1.Pairwise (fun p q => strLe p.1 q.1) → l2.Pairwise (fun p q => strLe p.1 q.1) →
    (l1.map Prod.fst).Nodup → (l2.map Prod.fst).Nodup →
    (∀ x, x ∈ l1 ↔ x ∈ l2) → l1 = l2 := by
  intro l1
  induction l1 with
  | nil =>
    intro l2 _ _ _ _ hm
    cases l2 with
    | nil => rfl
    | cons b t => exact absurd ((hm b).2 (by simp)) (List.not_mem_nil b)
  | cons a t1 ih =>
    intro l2 hp1 hp2 hn1 hn2 hm
    cases l2 with
    | nil => exact absurd ((hm a).1 (by simp)) (List.not_mem_nil a)
    | cons b t2 =>
      rw [List.pairwise_cons] at hp1 hp2
      rw [List.map_cons, List.nodup_cons] at hn1 hn2
      have hab : a = b := by
        rcases List.mem_cons.1 ((hm a).1 (by simp)) with h | h
        · exact h
        · rcases List.mem_cons.1 ((hm b).2 (by simp)) with h2 | h2
          · exact h2.symm
          · have hfst : a.1 = b.1 := strLe_antisymm (hp1.1 b h2) (hp2.1 a h)
            have hmem : b.1 ∈ t2.map Prod.fst := by
              rw [← hfst]
              exact List.mem_map_of_mem Prod.fst h
            exact absurd hmem hn2.1
      subst hab
      have htails : ∀ x, x ∈ t1 ↔ x ∈ t2 := by
        intro x
        constructor
        · intro hx
          rcases List.mem_cons.1 ((hm x).1 (by simp [hx])) with h | h
          · subst h; exact absurd (List.mem_map_of_mem Prod.fst hx) hn1.1
          · exact h
        · intro hx
          rcases List.mem_cons.1 ((hm x).2 (by simp [hx])) with h | h
          · subst h; exact absurd (List.mem_map_of_mem Prod.fst hx) hn2.1
          · exact h
      rw [ih t2 hp1.2 hp2.2 hn1.2 hn2.2 htails]

theorem encFieldsWith_map_fst (e : JSON → String) : ∀ (fs : List (String × JSON)),
    (encFieldsWith e fs).map Prod.fst = fs.map Prod.fst := by
  intro fs
  induction fs with
  | nil => rfl
  | cons kv rest ih =>
    obtain ⟨k, v⟩ := kv
    simp [encFieldsWith, ih]

theorem encFieldsWith_mem (e : JSON → String) : ∀ (fs : List (String × JSON))
    (k s : String), (k, s) ∈ encFieldsWith e fs ↔ ∃ v, (k, v) ∈ fs ∧ s = e v := by
  intro fs
  induction fs with
  | nil => intro k s; simp [encFieldsWith]
  | cons kv rest ih =>
    obtain ⟨k2, v2⟩ := kv
    intro k s
    simp only [encFieldsWith, List.mem_cons, ih, Prod.mk.injEq]
    constructor
    · rintro (⟨h1, h2⟩ | ⟨w, hw, he⟩)
      · exact ⟨v2, Or.inl ⟨h1, rfl⟩, h2⟩
      · exact ⟨w, Or.inr hw, he⟩
    · rintro ⟨w, ⟨h1, h2⟩ | hw, he⟩
      · subst h2; exact Or.inl ⟨h1, he⟩
      · exact Or.inr ⟨w, hw, he⟩

theorem encListWith_cong (e1 e2 : JSON → String) :
    ∀ {xs xs2 : List JSON}, xs.length = xs2.length →
    (∀ i, i < xs.length → e1 (xs.getD i .null) = e2 (xs2.getD i .null)) →
    encListWith e1 xs = encListWith e2 xs2 := by
  intro xs
  induction xs with
  | nil =>
    intro xs2 hl _
    cases xs2 with
    | nil => rfl
    | cons a b => simp at hl
  | cons x xs ih =>
    intro xs2 hl hc
    cases xs2 with
    | nil => simp at hl
    | cons x2 xs2 =>
      simp only [encListWith]
      have h0 := hc 0 (by simp)
      simp only [List.getD_cons_zero] at h0
      rw [h0]
      congr 1
      refine ih (by simpa using hl) ?_
      intro i hi
      have hstep := hc (i + 1) (by simp; omega)
      simpa [List.getD_cons_succ] using hstep

theorem encodeF_cong : ∀ (f : Nat) {a a2 : JSON}, Wf a → Wf a2 → JEquiv a a2 →
    encodeF f a = encodeF f a2 := by
  intro f
  induction f with
  | zero => intro a a2 _ _ _; rfl
  | succ f ih =>
    intro a a2 hwa hwa2 h
    cases h with
    | null => rfl
    | bool b => rfl
    | num n => rfl
    | str s => rfl
    | @arr xs ys hlen hpt =>
      simp only [encodeF]
      rw [encListWith_cong (encodeF f) (encodeF f) hlen
        (fun i hi => ih (wf_arr_getD hwa i) (wf_arr_getD hwa2 i) (hpt i hi))]
    | @obj fs1 fs2 hkeys hvals =>
      simp only [encodeF]
      have hsort : sortEncFields (encFieldsWith (encodeF f) fs1)
          = sortEncFields (encFieldsWith (encodeF f) fs2) := by
        refine sortedPairs_mem_unique _ _ (sortEncFields_pairwise _) (sortEncFields_pairwise _)
          ?_ ?_ ?_
        · rw [((sortEncFields_perm _).map Prod.fst).nodup_iff, encFieldsWith_map_fst]
          exact wf_obj_nodup hwa
        · rw [((sortEncFields_perm _).map Prod.fst).nodup_iff, encFieldsWith_map_fst]
          exact wf_obj_nodup hwa2
        · intro x
          obtain ⟨xk, xv⟩ := x
          rw [(sortEncFields_perm _).mem_iff, (sortEncFields_perm _).mem_iff,
            encFieldsWith_mem, encFieldsWith_mem]
          constructor
          · rintro ⟨v, hv, he⟩
            have hl1 : lookupField fs1 xk = some v :=
              lookup_nodup_mem (wf_obj_nodup hwa) hv
            have hc : (fs1.map Prod.fst).contains xk = true := lookup_isSome_iff.2 ⟨v, hl1⟩
            rw [hkeys xk] at hc
            obtain ⟨v2, hl2⟩ := lookup_isSome_iff.1 hc
            refine ⟨v2, lookupField_mem hl2, ?_⟩
            rw [he]
            exact ih (wf_obj_val hwa hv) (wf_obj_val hwa2 (lookupField_mem hl2))
              (hvals xk v v2 hl1 hl2)
          · rintro ⟨v, hv, he⟩
            have hl2 : lookupField fs2 xk = some v :=
              lookup_nodup_mem (wf_obj_nodup hwa2) hv
            have hc : (fs2.map Prod.fst).contains xk = true := lookup_isSome_iff.2 ⟨v, hl2⟩
            rw [← hkeys xk] at hc
            obtain ⟨v1, hl1⟩ := lookup_isSome_iff.1 hc
            refine ⟨v1, lookupField_mem hl1, ?_⟩
            rw [he]
            exact (ih (wf_obj_val hwa (lookupField_mem hl1)) (wf_obj_val hwa2 hv)
              (hvals xk v1 v hl1 hl2)).symm
      rw [hsort]

/-
Correspondence of emitted operations across two runs on JEquiv inputs: same
operation type and paths, values equal as documents (JEquiv) and identical
under the deterministic encoding at every fuel, hence identical in the
serialized patch.
-/

def OpEquiv (o1 o2 : Operation) : Prop :=
  o1.type = o2.type ∧ o1.fromPtr = o2.fromPtr ∧ o1.path = o2.path ∧
  JEquiv o1.oldValue o2.oldValue ∧ JEquiv o1.value o2.value ∧
  ∀ g, encodeF g o1.value = encodeF g o2.value

def PatchEq : Patch → Patch → Prop := List.Forall₂ OpEquiv

theorem patchEq_length {p q : Patch} (h : PatchEq p q) : p.length = q.length :=
  List.Forall₂.length_eq h

theorem patchEq_append {p q r s : Patch} (h1 : PatchEq p q) (h2 : PatchEq r s) :
    PatchEq (p ++ r) (q ++ s) := by
  induction h1 with
  | nil => simpa using h2
  | cons hop t ih => exact List.Forall₂.cons hop ih

theorem patchEq_take {p q : Patch} (h : PatchEq p q) (n : Nat) :
    PatchEq (p.take n) (q.take n) := by
  induction h generalizing n with
  | nil => simp only [List.take_nil]; exact List.Forall₂.nil
  | cons hop t ih =>
    cases n with
    | zero => exact List.Forall₂.nil
    | succ n => exact List.Forall₂.cons hop (ih n)

theorem patchEq_drop {p q : Patch} (h : PatchEq p q) (n : Nat) :
    PatchEq (p.drop n) (q.drop n) := by
  induction h generalizing n with
  | nil => simp only [List.drop_nil]; exact List.Forall₂.nil
  | @cons a b l1 l2 hab ht ih =>
    cases n with
    | zero => exact List.Forall₂.cons hab ht
    | succ n => exact ih n

theorem opJsonLength_cong {o1 o2 : Operation} (h : OpEquiv o1 o2) (g : Nat) :
    opJsonLength g o1 = opJsonLength g o2 := by
  obtain ⟨ht, hf, hp, _, _, he⟩ := h
  unfold opJsonLength
  rw [ht, hf, hp, he g]

theorem patchJsonLength_cong {p q : Patch} (h : PatchEq p q) (g : Nat) :
    patchJsonLength g p = patchJsonLength g q := by
  induction h with
  | nil => rfl
  | cons hop _ ih =>
    simp only [patchJsonLength]
    rw [opJsonLength_cong hop g, ih]

/-
Relating two differ states across the two runs: the patches correspond
pointwise, both differs run the same configuration.  With factorize off the
hash index is never consulted, so it is unconstrained.
-/

def DRel (o : Options) (d1 d2 : Differ) : Prop :=
  PatchEq d1.patch d2.patch ∧ d1.opts = o ∧ d2.opts = o

theorem drel_ite2 {o : Options} {c1 c2 : Prop} [Decidable c1] [Decidable c2]
    (hc : c1 ↔ c2) {dA1 dB1 dA2 dB2 : Differ}
    (hA : c1 → DRel o dA1 dA2) (hB : ¬c1 → DRel o dB1 dB2) :
    DRel o (if c1 then dA1 else dB1) (if c2 then dA2 else dB2) := by
  by_cases h : c1
  · rw [if_pos h, if_pos (hc.1 h)]
    exact hA h
  · rw [if_neg h, if_neg (fun hh => h (hc.2 hh))]
    exact hB h

theorem drel_patchAppend {o : Options} {d1 d2 : Differ} (h : DRel o d1 d2)
    {t : OpType} {fp pa : String} {old1 val1 old2 val2 : JSON}
    (hold : JEquiv old1 old2) (hval : JEquiv val1 val2)
    (henc : ∀ g, encodeF g val1 = encodeF g val2) :
    DRel o { d1 with patch := patchAppend d1.patch t fp pa old1 val1 }
           { d2 with patch := patchAppend d2.patch t fp pa old2 val2 } := by
  obtain ⟨hp, h1, h2⟩ := h
  exact ⟨patchEq_append hp
    (List.Forall₂.cons ⟨rfl, rfl, rfl, hold, hval, henc⟩ List.Forall₂.nil), h1, h2⟩

theorem foldl_rel {β : Type} (R : Differ → Differ → Prop) (g1 g2 : Differ → β → Differ)
    (l : List β) (h : ∀ dA dB b, b ∈ l → R dA dB → R (g1 dA b) (g2 dB b)) :
    ∀ {d1 d2}, R d1 d2 → R (l.foldl g1 d1) (l.foldl g2 d2) := by
  induction l with
  | nil => intro d1 d2 hd; simpa using hd
  | cons x xs ih =>
    intro d1 d2 hd
    simp only [List.foldl_cons]
    exact ih (fun a b c hc hr => h a b c (by simp [hc]) hr) (h d1 d2 x (by simp) hd)

theorem add_cong {o : Options} (hf : o.factorize = false) (f : Nat) (ptr : String)
    {d1 d2 : Differ} (h : DRel o d1 d2) {v1 v2 : JSON} (hv : JEquiv v1 v2)
    (henc : ∀ g, encodeF g v1 = encodeF g v2) :
    DRel o (Differ.add f d1 ptr v1) (Differ.add f d2 ptr v2) := by
  have hc1 : (!d1.opts.factorize) = true := by rw [h.2.1, hf]; rfl
  have hc2 : (!d2.opts.factorize) = true := by rw [h.2.2, hf]; rfl
  unfold Differ.add
  rw [if_pos hc1, if_pos hc2]
  exact drel_patchAppend h .null hv henc

theorem remove_cong {o : Options} (ptr : String) {d1 d2 : Differ} (h : DRel o d1 d2)
    {v1 v2 : JSON} (hv : JEquiv v1 v2) (henc : ∀ g, encodeF g v1 = encodeF g v2) :
    DRel o (Differ.remove d1 ptr v1) (Differ.remove d2 ptr v2) := by
  unfold Differ.remove
  refine drel_patchAppend ?_ hv .null (fun g => rfl)
  refine drel_ite2 (by rw [h.2.1, h.2.2]) (fun _ => drel_patchAppend h .null hv henc)
    (fun _ => h)

theorem replace_cong {o : Options} (ptr : String) {d1 d2 : Differ} (h : DRel o d1 d2)
    {s1 s2 t1 t2 : JSON} (hs : JEquiv s1 s2) (ht : JEquiv t1 t2)
    (hencS : ∀ g, encodeF g s1 = encodeF g s2) (hencT : ∀ g, encodeF g t1 = encodeF g t2) :
    DRel o (Differ.replace d1 ptr s1 t1) (Differ.replace d2 ptr s2 t2) := by
  unfold Differ.replace
  refine drel_patchAppend ?_ hs ht hencT
  refine drel_ite2 (by rw [h.2.1, h.2.2]) (fun _ => drel_patchAppend h .null hs hencS)
    (fun _ => h)

theorem rationalize_cong {o : Options} (f : Nat) (ptr : String) {d1 d2 : Differ}
    (n1 n2 : Nat) (hn : n1 = n2) (h : DRel o d1 d2) {s1 s2 t1 t2 : JSON}
    (hs : JEquiv s1 s2) (ht : JEquiv t1 t2)
    (hencS : ∀ g, encodeF g s1 = encodeF g s2) (hencT : ∀ g, encodeF g t1 = encodeF g t2) :
    DRel o (Differ.rationalizeLastOps f d1 ptr s1 t1 n1)
           (Differ.rationalizeLastOps f d2 ptr s2 t2 n2) := by
  subst hn
  obtain ⟨hp, h1, h2⟩ := h
  unfold Differ.rationalizeLastOps
  dsimp only
  have hrep : opJsonLength f (⟨.replace, emptyPtr, ptr, .null, t1⟩ : Operation)
      = opJsonLength f (⟨.replace, emptyPtr, ptr, .null, t2⟩ : Operation) :=
    opJsonLength_cong
      (show OpEquiv ⟨.replace, emptyPtr, ptr, .null, t1⟩ ⟨.replace, emptyPtr, ptr, .null, t2⟩
        from ⟨rfl, rfl, rfl, JEquiv.null, ht, hencT⟩) f
  have hcur : patchJsonLength f (d1.patch.drop n1) = patchJsonLength f (d2.patch.drop n1) :=
    patchJsonLength_cong (patchEq_drop hp n1) f
  have hops : PatchEq
      ((if d1.opts.invertible then [(⟨.test, emptyPtr, ptr, .null, s1⟩ : Operation)] else [])
        ++ [⟨.replace, emptyPtr, ptr, .null, t1⟩])
      ((if d2.opts.invertible then [(⟨.test, emptyPtr, ptr, .null, s2⟩ : Operation)] else [])
        ++ [⟨.replace, emptyPtr, ptr, .null, t2⟩]) := by
    refine patchEq_append ?_
      (List.Forall₂.cons ⟨rfl, rfl, rfl, JEquiv.null, ht, hencT⟩ List.Forall₂.nil)
    by_cases hinv : d1.opts.invertible = true
    · rw [if_pos hinv, if_pos (show d2.opts.invertible = true by rw [h2, ← h1]; exact hinv)]
      exact List.Forall₂.cons ⟨rfl, rfl, rfl, JEquiv.null, hs, hencS⟩ List.Forall₂.nil
    · rw [if_neg hinv, if_neg (show ¬ d2.opts.invertible = true by rw [h2, ← h1]; exact hinv)]
      exact List.Forall₂.nil
  refine drel_ite2 (by rw [hrep, hcur]) ?_ (fun _ => ⟨hp, h1, h2⟩)
  intro _
  exact ⟨patchEq_append (patchEq_take hp n1) hops, h1, h2⟩

def JERel (a b : JSON) : Prop := JEquiv a b ∧ Wf a ∧ Wf b

theorem jerel_arr : ∀ {xs ys : List JSON}, Wf (.arr xs) → Wf (.arr ys) →
    JEquiv (.arr xs) (.arr ys) → List.Forall₂ JERel xs ys := by
  intro xs
  induction xs with
  | nil =>
    intro ys _ _ h
    cases ys with
    | nil => exact List.Forall₂.nil
    | cons y t => have hl := jequiv_arr_len h; simp at hl
  | cons x xs ih =>
    intro ys hw1 hw2 h
    cases ys with
    | nil => have hl := jequiv_arr_len h; simp at hl
    | cons y ys =>
      refine List.Forall₂.cons
        ⟨?_, wf_arr_elem hw1 (by simp), wf_arr_elem hw2 (by simp)⟩ ?_
      · simpa [List.getD_cons_zero] using jequiv_arr_getD h 0
      · refine ih (.arr (fun z hz => wf_arr_elem hw1 (by simp [hz])))
          (.arr (fun z hz => wf_arr_elem hw2 (by simp [hz]))) ?_
        refine .arr (by have hl := jequiv_arr_len h; simpa using hl) ?_
        intro i hi
        simpa [List.getD_cons_succ] using jequiv_arr_getD h (i + 1)

def CRel : List (JSON × Nat) → List (JSON × Nat) → Prop :=
  List.Forall₂ (fun p q => JERel p.1 q.1 ∧ p.2 = q.2)

theorem bumpClass_cong (f : Nat) {v1 v2 : JSON} (hv : JERel v1 v2) :
    ∀ {acc1 acc2}, CRel acc1 acc2 → CRel (bumpClass f v1 acc1) (bumpClass f v2 acc2) := by
  intro acc1 acc2 h
  induction h with
  | nil => exact List.Forall₂.cons ⟨hv, rfl⟩ List.Forall₂.nil
  | @cons p q t1 t2 hpq hrest ih =>
    obtain ⟨w1, n1⟩ := p
    obtain ⟨w2, n2⟩ := q
    obtain ⟨⟨hJ, hw1, hw2⟩, hn⟩ := hpq
    obtain ⟨hvJ, hvw1, hvw2⟩ := hv
    simp only at hn
    subst hn
    have hg : deepEqualF f w1 v1 = deepEqualF f w2 v2 :=
      deepEqualF_cong f hw1 hvw1 hw2 hvw2 hJ hvJ
    simp only [bumpClass]
    by_cases hd : deepEqualF f w1 v1 = true
    · rw [if_pos hd, if_pos (show deepEqualF f w2 v2 = true by rw [← hg]; exact hd)]
      exact List.Forall₂.cons ⟨⟨hJ, hw1, hw2⟩, rfl⟩ hrest
    · rw [if_neg hd, if_neg (show ¬ deepEqualF f w2 v2 = true by rw [← hg]; exact hd)]
      exact List.Forall₂.cons ⟨⟨hJ, hw1, hw2⟩, rfl⟩ ih

theorem dropClass_cong (f : Nat) {v1 v2 : JSON} (hv : JERel v1 v2) :
    ∀ {acc1 acc2}, CRel acc1 acc2 →
    (dropClass f v1 acc1 = none ∧ dropClass f v2 acc2 = none) ∨
    (∃ r1 r2, dropClass f v1 acc1 = some r1 ∧ dropClass f v2 acc2 = some r2 ∧ CRel r1 r2) := by
  intro acc1 acc2 h
  induction h with
  | nil => exact Or.inl ⟨rfl, rfl⟩
  | @cons p q t1 t2 hpq hrest ih =>
    obtain ⟨w1, n1⟩ := p
    obtain ⟨w2, n2⟩ := q
    obtain ⟨⟨hJ, hw1, hw2⟩, hn⟩ := hpq
    obtain ⟨hvJ, hvw1, hvw2⟩ := hv
    simp only at hn
    subst hn
    have hg : deepEqualF f w1 v1 = deepEqualF f w2 v2 :=
      deepEqualF_cong f hw1 hvw1 hw2 hvw2 hJ hvJ
    simp only [dropClass]
    by_cases hd : deepEqualF f w1 v1 = true
    · rw [if_pos hd, if_pos (show deepEqualF f w2 v2 = true by rw [← hg]; exact hd)]
      by_cases h1 : n1 = 1
      · rw [if_pos h1, if_pos h1]
        exact Or.inr ⟨t1, t2, rfl, rfl, hrest⟩
      · rw [if_neg h1, if_neg h1]
        exact Or.inr ⟨_, _, rfl, rfl, List.Forall₂.cons ⟨⟨hJ, hw1, hw2⟩, rfl⟩ hrest⟩
    · rw [if_neg hd, if_neg (show ¬ deepEqualF f w2 v2 = true by rw [← hg]; exact hd)]
      rcases ih with ⟨e1, e2⟩ | ⟨r1, r2, e1, e2, hr⟩
      · rw [e1, e2]
        exact Or.inl ⟨rfl, rfl⟩
      · rw [e1, e2]
        exact Or.inr ⟨_, _, rfl, rfl, List.Forall₂.cons ⟨⟨hJ, hw1, hw2⟩, rfl⟩ hr⟩

theorem consumeClasses_cong (f : Nat) : ∀ {l1 l2 : List JSON}, List.Forall₂ JERel l1 l2 →
    ∀ {acc1 acc2}, CRel acc1 acc2 → consumeClasses f l1 acc1 = consumeClasses f l2 acc2 := by
  intro l1 l2 h
  induction h with
  | nil =>
    intro acc1 acc2 hacc
    simp only [consumeClasses]
    cases hacc with
    | nil => rfl
    | cons _ _ => rfl
  | cons hv hrest ih =>
    intro acc1 acc2 hacc
    simp only [consumeClasses]
    rcases dropClass_cong f hv hacc with ⟨e1, e2⟩ | ⟨r1, r2, e1, e2, hr⟩
    · rw [e1, e2]
    · rw [e1, e2]
      exact ih hr

theorem foldl_bump_cong (f : Nat) : ∀ {s1 s2 : List JSON}, List.Forall₂ JERel s1 s2 →
    ∀ {acc1 acc2}, CRel acc1 acc2 →
    CRel (s1.foldl (fun acc v => bumpClass f v acc) acc1)
         (s2.foldl (fun acc v => bumpClass f v acc) acc2) := by
  intro s1 s2 h
  induction h with
  | nil => intro acc1 acc2 hacc; simpa using hacc
  | cons hv hrest ih =>
    intro acc1 acc2 hacc
    simp only [List.foldl_cons]
    exact ih (bumpClass_cong f hv hacc)

theorem uds_cong (f : Nat) {s1 s2 t1 t2 : List JSON}
    (hs : List.Forall₂ JERel s1 s2) (ht : List.Forall₂ JERel t1 t2) :
    unorderedDeepEqualSlice f s1 t1 = unorderedDeepEqualSlice f s2 t2 := by
  unfold unorderedDeepEqualSlice
  rw [List.Forall₂.length_eq hs, List.Forall₂.length_eq ht]
  by_cases hl : (s2.length != t2.length) = true
  · rw [if_pos hl, if_pos hl]
  · rw [if_neg hl, if_neg hl]
    exact consumeClasses_cong f ht (foldl_bump_cong f hs List.Forall₂.nil)

theorem arrayRemovals_cong {o : Options} (ptr : String) (size : Nat)
    {xs1 xs2 : List JSON} (hw1 : Wf (.arr xs1)) (hw2 : Wf (.arr xs2))
    (hx : JEquiv (.arr xs1) (.arr xs2)) {d1 d2 : Differ} (h : DRel o d1 d2) :
    DRel o (arrayRemovals d1 ptr size xs1) (arrayRemovals d2 ptr size xs2) := by
  unfold arrayRemovals
  rw [show xs2.length = xs1.length from (jequiv_arr_len hx).symm]
  by_cases hs : size < xs1.length
  · rw [if_pos hs, if_pos hs]
    refine foldl_rel (DRel o) _ _ _ ?_ h
    intro dA dB j hj hR
    refine drel_ite2 (by rw [hR.2.1, hR.2.2]) (fun _ => hR) ?_
    intro _
    exact remove_cong _ hR (jequiv_arr_getD hx _)
      (fun g => encodeF_cong g (wf_arr_getD hw1 _) (wf_arr_getD hw2 _) (jequiv_arr_getD hx _))
  · rw [if_neg hs, if_neg hs]
    exact h

theorem arrayAppends_cong {o : Options} (hf : o.factorize = false) (f : Nat) (ptr : String)
    (size : Nat) {ys1 ys2 : List JSON} (hw1 : Wf (.arr ys1)) (hw2 : Wf (.arr ys2))
    (hy : JEquiv (.arr ys1) (.arr ys2)) {d1 d2 : Differ} (h : DRel o d1 d2) :
    DRel o (arrayAppends f d1 ptr size ys1) (arrayAppends f d2 ptr size ys2) := by
  unfold arrayAppends
  rw [show ys2.length = ys1.length from (jequiv_arr_len hy).symm]
  refine foldl_rel (DRel o) _ _ _ ?_ h
  intro dA dB j hj hR
  refine drel_ite2 (by rw [hR.2.1, hR.2.2]) (fun _ => hR) ?_
  intro _
  exact add_cong hf f _ hR (jequiv_arr_getD hy _)
    (fun g => encodeF_cong g (wf_arr_getD hw1 _) (wf_arr_getD hw2 _) (jequiv_arr_getD hy _))

theorem arrayPairwise_cong {o : Options}
    {diffK1 diffK2 : Differ → String → JSON → JSON → Differ}
    (hK : ∀ (dA dB : Differ) (p : String) (x1 y1 x2 y2 : JSON), DRel o dA dB →
      Wf x1 → Wf y1 → Wf x2 → Wf y2 → JEquiv x1 x2 → JEquiv y1 y2 →
      DRel o (diffK1 dA p x1 y1) (diffK2 dB p x2 y2))
    (ptr : String) (size : Nat) {xs1 ys1 xs2 ys2 : List JSON}
    (hwS1 : Wf (.arr xs1)) (hwT1 : Wf (.arr ys1)) (hwS2 : Wf (.arr xs2)) (hwT2 : Wf (.arr ys2))
    (hS : JEquiv (.arr xs1) (.arr xs2)) (hT : JEquiv (.arr ys1) (.arr ys2))
    {d1 d2 : Differ} (h : DRel o d1 d2) :
    DRel o (arrayPairwise diffK1 d1 ptr size xs1 ys1)
           (arrayPairwise diffK2 d2 ptr size xs2 ys2) := by
  unfold arrayPairwise
  refine foldl_rel (DRel o) _ _ _ ?_ h
  intro dA dB i hi hR
  exact hK dA dB _ _ _ _ _ hR (wf_arr_getD hwS1 i) (wf_arr_getD hwT1 i)
    (wf_arr_getD hwS2 i) (wf_arr_getD hwT2 i) (jequiv_arr_getD hS i) (jequiv_arr_getD hT i)

theorem compareArrays_cong {o : Options} (hf : o.factorize = false)
    {diffK1 diffK2 : Differ → String → JSON → JSON → Differ}
    (hK : ∀ (dA dB : Differ) (p : String) (x1 y1 x2 y2 : JSON), DRel o dA dB →
      Wf x1 → Wf y1 → Wf x2 → Wf y2 → JEquiv x1 x2 → JEquiv y1 y2 →
      DRel o (diffK1 dA p x1 y1) (diffK2 dB p x2 y2))
    (f2 : Nat) {xs1 ys1 xs2 ys2 : List JSON}
    (hwS1 : Wf (.arr xs1)) (hwT1 : Wf (.arr ys1)) (hwS2 : Wf (.arr xs2)) (hwT2 : Wf (.arr ys2))
    (hS : JEquiv (.arr xs1) (.arr xs2)) (hT : JEquiv (.arr ys1) (.arr ys2))
    {d1 d2 : Differ} (h : DRel o d1 d2) (ptr : String) :
    DRel o (Differ.compareArrays diffK1 f2 d1 ptr xs1 ys1)
           (Differ.compareArrays diffK2 f2 d2 ptr xs2 ys2) := by
  unfold Differ.compareArrays
  dsimp only
  rw [show xs2.length = xs1.length from (jequiv_arr_len hS).symm,
    show ys2.length = ys1.length from (jequiv_arr_len hT).symm]
  have hR1 : DRel o (arrayRemovals d1 ptr (min xs1.length ys1.length) xs1)
      (arrayRemovals d2 ptr (min xs1.length ys1.length) xs2) :=
    arrayRemovals_cong ptr _ hwS1 hwS2 hS h
  refine arrayAppends_cong hf f2 ptr _ hwT1 hwT2 hT ?_
  refine drel_ite2 ?_ (fun _ => hR1)
    (fun _ => arrayPairwise_cong hK ptr (min xs1.length ys1.length)
      hwS1 hwT1 hwS2 hwT2 hS hT hR1)
  rw [hR1.2.1, hR1.2.2, uds_cong f2 (jerel_arr hwS1 hwS2 hS) (jerel_arr hwT1 hwT2 hT)]

theorem compareObjects_cong {o : Options} (hf : o.factorize = false)
    {diffK1 diffK2 : Differ → String → JSON → JSON → Differ}
    (hK : ∀ (dA dB : Differ) (p : String) (x1 y1 x2 y2 : JSON), DRel o dA dB →
      Wf x1 → Wf y1 → Wf x2 → Wf y2 → JEquiv x1 x2 → JEquiv y1 y2 →
      DRel o (diffK1 dA p x1 y1) (diffK2 dB p x2 y2))
    (f2 : Nat) {fs1 gs1 fs2 gs2 : List (String × JSON)}
    (hwS1 : Wf (.obj fs1)) (hwT1 : Wf (.obj gs1)) (hwS2 : Wf (.obj fs2)) (hwT2 : Wf (.obj gs2))
    (hS : JEquiv (.obj fs1) (.obj fs2)) (hT : JEquiv (.obj gs1) (.obj gs2))
    {d1 d2 : Differ} (h : DRel o d1 d2) (ptr : String) :
    DRel o (Differ.compareObjects diffK1 f2 d1 ptr fs1 gs1)
           (Differ.compareObjects diffK2 f2 d2 ptr fs2 gs2) := by
  unfold Differ.compareObjects
  rw [show sortStrings (dedupKeys (fs1.map Prod.fst ++ gs1.map Prod.fst))
      = sortStrings (dedupKeys (fs2.map Prod.fst ++ gs2.map Prod.fst)) from
    sortedDedup_ext (fun k => by
      rw [contains_append, contains_append, jequiv_obj_keys hS k, jequiv_obj_keys hT k])]
  refine foldl_rel (DRel o) _ _ _ ?_ h
  intro dA dB k hk hR
  dsimp only
  refine drel_ite2 (by rw [jequiv_obj_keys hS k, jequiv_obj_keys hT k]) ?_ ?_
  · intro _
    exact hK dA dB _ _ _ _ _ hR (wf_obj_lookup_getD hwS1 k) (wf_obj_lookup_getD hwT1 k)
      (wf_obj_lookup_getD hwS2 k) (wf_obj_lookup_getD hwT2 k)
      (jequiv_obj_lookup_getD hS k) (jequiv_obj_lookup_getD hT k)
  · intro _
    refine drel_ite2 (by rw [jequiv_obj_keys hS k, jequiv_obj_keys hT k]) ?_ ?_
    · intro _
      refine drel_ite2 (by rw [hR.2.1, hR.2.2]) (fun _ => hR) ?_
      intro _
      exact remove_cong _ hR (jequiv_obj_lookup_getD hS k)
        (fun g => encodeF_cong g (wf_obj_lookup_getD hwS1 k) (wf_obj_lookup_getD hwS2 k)
          (jequiv_obj_lookup_getD hS k))
    · intro _
      refine drel_ite2 (by rw [jequiv_obj_keys hS k, jequiv_obj_keys hT k]) ?_ (fun _ => hR)
      intro _
      refine drel_ite2 (by rw [hR.2.1, hR.2.2]) (fun _ => hR) ?_
      intro _
      exact add_cong hf f2 _ hR (jequiv_obj_lookup_getD hT k)
        (fun g => encodeF_cong g (wf_obj_lookup_getD hwT1 k) (wf_obj_lookup_getD hwT2 k)
          (jequiv_obj_lookup_getD hT k))

theorem diff_cong {o : Options} (hf : o.factorize = false) :
    ∀ (f : Nat) (d1 d2 : Differ) (ptr : String) (s1 t1 s2 t2 : JSON),
    DRel o d1 d2 → Wf s1 → Wf t1 → Wf s2 → Wf t2 → JEquiv s1 s2 → JEquiv t1 t2 →
    DRel o (Differ.diff f d1 ptr s1 t1) (Differ.diff f d2 ptr s2 t2) := by
  intro f
  induction f with
  | zero => intro d1 d2 ptr s1 t1 s2 t2 h _ _ _ _ _ _; exact h
  | succ f ih =>
    intro d1 d2 ptr s1 t1 s2 t2 h hwS1 hwT1 hwS2 hwT2 hS hT
    obtain ⟨hp, h1, h2⟩ := h
    have hS2 := hS
    have hT2 := hT
    show DRel o (Differ.diff (f + 1) d1 ptr s1 t1) (Differ.diff (f + 1) d2 ptr s2 t2)
    unfold Differ.diff
    cases hS <;> cases hT <;> dsimp only <;>
      first
      | exact ⟨hp, h1, h2⟩
      | (refine drel_ite2 (by rw [h1, h2]) (fun _ => ⟨hp, h1, h2⟩) ?_
         intro hig
         refine drel_ite2
           (by unfold areComparable; rw [jequiv_kind hS2, jequiv_kind hT2]) ?_ ?_
         · intro hc
           refine drel_ite2 Iff.rfl
             (fun _ => drel_patchAppend ⟨hp, h1, h2⟩ hS2 hT2
               (fun g => encodeF_cong g hwT1 hwT2 hT2))
             (fun _ => replace_cong _ ⟨hp, h1, h2⟩ hS2 hT2
               (fun g => encodeF_cong g hwS1 hwS2 hS2)
               (fun g => encodeF_cong g hwT1 hwT2 hT2))
         · intro hc
           refine drel_ite2
             (by rw [deepEqualF_cong (f + 1) hwS1 hwT1 hwS2 hwT2 hS2 hT2])
             (fun _ => ⟨hp, h1, h2⟩) ?_
           intro hd
           first
           | exact replace_cong _ ⟨hp, h1, h2⟩ hS2 hT2
               (fun g => encodeF_cong g hwS1 hwS2 hS2)
               (fun g => encodeF_cong g hwT1 hwT2 hT2)
           | (have hCA := compareArrays_cong hf
                (fun dA dB p x1 y1 x2 y2 hD w1 w2 w3 w4 j1 j2 =>
                  ih dA dB p x1 y1 x2 y2 hD w1 w2 w3 w4 j1 j2)
                (f + 1) hwS1 hwT1 hwS2 hwT2 hS2 hT2 ⟨hp, h1, h2⟩ ptr
              refine drel_ite2
                (by rw [hCA.2.1, hCA.2.2, patchEq_length hCA.1, patchEq_length hp]) ?_
                (fun _ => hCA)
              intro _
              exact rationalize_cong (f + 1) ptr d1.patch.length d2.patch.length
                (patchEq_length hp) hCA hS2 hT2
                (fun g => encodeF_cong g hwS1 hwS2 hS2)
                (fun g => encodeF_cong g hwT1 hwT2 hT2))
           | (have hCO := compareObjects_cong hf
                (fun dA dB p x1 y1 x2 y2 hD w1 w2 w3 w4 j1 j2 =>
                  ih dA dB p x1 y1 x2 y2 hD w1 w2 w3 w4 j1 j2)
                (f + 1) hwS1 hwT1 hwS2 hwT2 hS2 hT2 ⟨hp, h1, h2⟩ ptr
              refine drel_ite2
                (by rw [hCO.2.1, hCO.2.2, patchEq_length hCO.1, patchEq_length hp]) ?_
                (fun _ => hCO)
              intro _
              exact rationalize_cong (f + 1) ptr d1.patch.length d2.patch.length
                (patchEq_length hp) hCO hS2 hT2
                (fun g => encodeF_cong g hwS1 hwS2 hS2)
                (fun g => encodeF_cong g hwT1 hwT2 hT2)))

theorem jequiv_two_fields (k1 k2 : String) (v1 v2 : JSON) (hne : (k1 == k2) = false) :
    JEquiv (.obj [(k1, v1), (k2, v2)]) (.obj [(k2, v2), (k1, v1)]) := by
  refine .obj ?_ ?_
  · intro k
    simp only [List.map_cons, List.map_nil, List.contains_cons]
    cases hk1 : k == k1 <;> cases hk2 : k == k2 <;> simp [hk1, hk2]
  · intro k w1 w2 hA hB
    by_cases h1 : (k1 == k) = true
    · have h2 : (k2 == k) = false := by
        cases h2 : k2 == k
        · rfl
        · have e1 : k1 = k := by simpa using h1
          have e2 : k2 = k := by simpa using h2
          rw [show k1 = k2 from e1.trans e2.symm] at hne
          simp at hne
      simp only [lookupField, h1, h2, if_true, Bool.false_eq_true, if_false] at hA hB
      cases hA
      cases hB
      exact jequiv_refl v1
    · by_cases h2 : (k2 == k) = true
      · simp only [lookupField, h1, h2, if_true, Bool.false_eq_true, if_false] at hA hB
        cases hA
        cases hB
        exact jequiv_refl v2
      · simp only [lookupField, h1, h2, Bool.false_eq_true, if_false] at hA
        cases hA

/-- C3 counterexample.  Two runs of Compare on the same documents — the same
objects with the keys inserted in different orders, which is exactly what a
Go map iteration order change produces — yield different patches once
factorize is on: the preparatory pass visits the source object in map
order, so the last equal value inserted wins the hash-index slot and the
copy operation's from path leaks the iteration order (/b versus /a).  The
claim's determinism statement is false for the from paths of copy. -/
theorem c3_counterexample_from_path_leaks_key_order :
    JEquiv (.obj [("a", .num 5), ("b", .num 5)]) (.obj [("b", .num 5), ("a", .num 5)]) ∧
    compareP 10 ⟨true, false, false, false, []⟩
        (.obj [("a", .num 5), ("b", .num 5)])
        (.obj [("a", .num 5), ("b", .num 5), ("c", .num 5)]) =
      [⟨.copy, "/b", "/c", .null, .num 5⟩] ∧
    compareP 10 ⟨true, false, false, false, []⟩
        (.obj [("b", .num 5), ("a", .num 5)])
        (.obj [("a", .num 5), ("b", .num 5), ("c", .num 5)]) =
      [⟨.copy, "/a", "/c", .null, .num 5⟩] ∧
    ("/b" == "/a") = false :=
  ⟨jequiv_two_fields "a" "b" (.num 5) (.num 5) (by decide), rfl, rfl, by decide⟩

/-- C3 as amended: with factorize disabled the patch is a function of the
documents alone.  For well-formed inputs (no duplicate object keys, as Go
maps guarantee) two runs on representations of the same documents — equal
up to object key insertion order — produce corresponding patches: the same
operation sequence with identical types, from paths and paths, and with
values equal as documents and identical under the deterministic encoding,
hence identical serialized patches.  With factorize enabled this fails
(see the counterexample): the preparatory pass iterates source objects in
Go map order and the hash index leaks that order into copy from paths. -/
theorem c3_amended_order_insensitive_modulo_key_order (f : Nat) (o : Options)
    (src1 tgt1 src2 tgt2 : JSON) (hf : o.factorize = false)
    (hw1 : Wf src1) (hw2 : Wf tgt1) (hw3 : Wf src2) (hw4 : Wf tgt2)
    (hs : JEquiv src1 src2) (ht : JEquiv tgt1 tgt2) :
    PatchEq (compareP f o src1 tgt1) (compareP f o src2 tgt2) := by
  unfold compareP Differ.Compare
  dsimp only
  rw [if_neg (show ¬ (freshDiffer o).opts.factorize = true by simp [freshDiffer, hf]),
    if_neg (show ¬ (freshDiffer o).opts.factorize = true by simp [freshDiffer, hf])]
  exact (diff_cong hf f (freshDiffer o) (freshDiffer o) emptyPtr src1 tgt1 src2 tgt2
    ⟨List.Forall₂.nil, rfl, rfl⟩ hw1 hw2 hw3 hw4 hs ht).1

/-- Witness for C3 as amended, at a concrete reordered pair of objects. -/
theorem c3_amended_order_insensitive_modulo_key_order_witness :
    PatchEq
      (compareP 10 ⟨false, false, false, false, []⟩
        (.obj [("a", .num 1), ("b", .num 2)]) (.obj [("a", .num 1)]))
      (compareP 10 ⟨false, false, false, false, []⟩
        (.obj [("b", .num 2), ("a", .num 1)]) (.obj [("a", .num 1)])) :=
  c3_amended_order_insensitive_modulo_key_order 10 ⟨false, false, false, false, []⟩
    (.obj [("a", .num 1), ("b", .num 2)]) (.obj [("a", .num 1)])
    (.obj [("b", .num 2), ("a", .num 1)]) (.obj [("a", .num 1)])
    rfl
    (wf_of_wfF 5 _ (by decide)) (wf_of_wfF 5 _ (by decide))
    (wf_of_wfF 5 _ (by decide)) (wf_of_wfF 5 _ (by decide))
    (jequiv_two_fields "a" "b" (.num 1) (.num 2) (by decide))
    (jequiv_refl _)

/-
Path machinery for the descendant-freedom invariant (C5): decimal rendering
parses back to the same index, escaped keys decode to themselves, pointer
construction appends exactly one token, and getAtPath walks strictly down
the target tree.
-/

theorem digitChar_code (m : Nat) (h : m < 10) : (Nat.digitChar m).toNat = 48 + m := by
  interval_cases m <;> decide

theorem digitChar_ne (m : Nat) : Nat.digitChar m ≠ '/' ∧ Nat.digitChar m ≠ '~' := by
  by_cases h : m < 16
  · interval_cases m <;> exact ⟨by decide, by decide⟩
  · have he : Nat.digitChar m = '*' := by
      unfold Nat.digitChar
      repeat rw [if_neg (by omega)]
    rw [he]
    exact ⟨by decide, by decide⟩

theorem toDigitsCore_chars (b : Nat) : ∀ (f n : Nat) (acc : List Char),
    (∀ c ∈ acc, c ≠ '/' ∧ c ≠ '~') →
    ∀ c ∈ Nat.toDigitsCore b f n acc, c ≠ '/' ∧ c ≠ '~' := by
  intro f
  induction f with
  | zero => intro n acc h; exact h
  | succ f ih =>
    intro n acc h
    unfold Nat.toDigitsCore
    dsimp only
    split
    · intro c hc
      rcases List.mem_cons.1 hc with h2 | h2
      · subst h2; exact digitChar_ne _
      · exact h c h2
    · refine ih _ _ ?_
      intro c hc
      rcases List.mem_cons.1 hc with h2 | h2
      · subst h2; exact digitChar_ne _
      · exact h c h2

theorem toDigitsCore_ne_nil (b : Nat) : ∀ (f n : Nat) (acc : List Char),
    acc ≠ [] ∨ 0 < f → Nat.toDigitsCore b f n acc ≠ [] := by
  intro f
  induction f with
  | zero =>
    intro n acc h
    rcases h with h | h
    · exact h
    · omega
  | succ f ih =>
    intro n acc h
    unfold Nat.toDigitsCore
    dsimp only
    split
    · simp
    · exact ih _ _ (Or.inl (by simp))

def digitStep : Option Nat → Char → Option Nat := fun acc c =>
  match acc with
  | none => none
  | some n => if c.toNat < 48 || 57 < c.toNat then none else some (n * 10 + (c.toNat - 48))

theorem digitStep_digitChar (v m : Nat) (h : m < 10) :
    digitStep (some v) (Nat.digitChar m) = some (v * 10 + m) := by
  unfold digitStep
  rw [digitChar_code m h]
  dsimp only
  have hc : ¬ ((48 + m < 48 : Bool) || (57 < 48 + m : Bool)) = true := by
    simp only [Bool.or_eq_true, decide_eq_true_eq]
    omega
  rw [if_neg hc]
  congr 1
  omega

def pow10len : Nat → Nat → Nat
  | 0, _ => 1
  | f + 1, n => if n / 10 = 0 then 10 else 10 * pow10len f (n / 10)

theorem tdc_parse_gen : ∀ (f : Nat), ∀ (n : Nat) (acc : List Char) (v : Nat), n < f →
    List.foldl digitStep (some v) (Nat.toDigitsCore 10 f n acc) =
      List.foldl digitStep (some (v * pow10len f n + n)) acc := by
  intro f
  induction f with
  | zero => intro n acc v h; omega
  | succ f ih =>
    intro n acc v h
    unfold Nat.toDigitsCore
    dsimp only
    by_cases hz : n / 10 = 0
    · rw [if_pos hz]
      simp only [List.foldl_cons]
      rw [digitStep_digitChar v (n % 10) (Nat.mod_lt n (by omega))]
      have hn10 : n < 10 := by omega
      have hm : n % 10 = n := Nat.mod_eq_of_lt hn10
      rw [show pow10len (f + 1) n = 10 from by rw [pow10len, if_pos hz]]
      rw [hm]
    · rw [if_neg hz]
      have h10 : 10 ≤ n := by
        rcases Nat.lt_or_ge n 10 with hlt | hge
        · exact absurd (Nat.div_eq_of_lt hlt) hz
        · exact hge
      rw [ih (n / 10) _ v (by
        have := Nat.div_lt_self (by omega : 0 < n) (by omega : 1 < 10)
        omega)]
      simp only [List.foldl_cons]
      rw [digitStep_digitChar (v * pow10len f (n / 10) + n / 10) (n % 10)
        (Nat.mod_lt n (by omega))]
      rw [show pow10len (f + 1) n = 10 * pow10len f (n / 10) from by
        rw [pow10len, if_neg hz]]
      congr 2
      have := Nat.div_add_mod n 10
      ring_nf
      omega

theorem tdc_parse (f n : Nat) (acc : List Char) (h : n < f) :
    List.foldl digitStep (some 0) (Nat.toDigitsCore 10 f n acc) =
      List.foldl digitStep (some n) acc := by
  rw [tdc_parse_gen f n acc 0 h]
  simp

theorem tokToIndex_repr (n : Nat) : tokToIndex (Nat.repr n) = some n := by
  unfold tokToIndex Nat.repr
  have hne : Nat.toDigits 10 n ≠ [] := toDigitsCore_ne_nil 10 (n + 1) n [] (Or.inr (by omega))
  have hdata : (Nat.toDigits 10 n).asString.data = Nat.toDigits 10 n := rfl
  rw [hdata]
  cases he : Nat.toDigits 10 n with
  | nil => exact absurd he hne
  | cons c cs =>
    show List.foldl digitStep (some 0) (c :: cs) = some n
    rw [← he]
    unfold Nat.toDigits
    rw [tdc_parse (n + 1) n [] (by omega)]
    rfl

example : tokToIndex (Nat.repr 17) = some 17 := tokToIndex_repr 17
example : tokToIndex (Nat.repr 0) = some 0 := tokToIndex_repr 0

theorem splitSlashAux_ne_nil (acc : List Char) (l : List Char) :
    splitSlashAux acc l ≠ [] := by
  induction l generalizing acc with
  | nil => simp [splitSlashAux]
  | cons c rest ih =>
    unfold splitSlashAux
    split
    · simp
    · exact ih _

theorem sSA_nil (acc : List Char) :
    splitSlashAux acc [] = [String.mk (unescAux acc.reverse)] := rfl

theorem sSA_cons_slash (acc l : List Char) :
    splitSlashAux acc ('/' :: l) =
      String.mk (unescAux acc.reverse) :: splitSlashAux [] l := by
  rw [splitSlashAux, if_pos rfl]

theorem sSA_cons_other (acc l : List Char) (c : Char) (h : ¬ c = '/') :
    splitSlashAux acc (c :: l) = splitSlashAux (c :: acc) l := by
  rw [splitSlashAux, if_neg h]

theorem splitSlashAux_append : ∀ (l1 : List Char) (acc l2 : List Char),
    splitSlashAux acc (l1 ++ '/' :: l2) = splitSlashAux acc l1 ++ splitSlashAux [] l2 := by
  intro l1
  induction l1 with
  | nil =>
    intro acc l2
    rw [List.nil_append, sSA_cons_slash, sSA_nil]
    rfl
  | cons c rest ih =>
    intro acc l2
    by_cases hc : c = '/'
    · subst hc
      rw [List.cons_append, sSA_cons_slash, sSA_cons_slash, ih, List.cons_append]
    · rw [List.cons_append, sSA_cons_other _ _ _ hc, sSA_cons_other _ _ _ hc, ih]

theorem splitSlashAux_no_slash : ∀ (l acc : List Char), (∀ c ∈ l, c ≠ '/') →
    splitSlashAux acc l = [String.mk (unescAux (acc.reverse ++ l))] := by
  intro l
  induction l with
  | nil => intro acc _; rw [sSA_nil]; simp
  | cons c rest ih =>
    intro acc h
    rw [sSA_cons_other _ _ _ (h c (by simp))]
    rw [ih (c :: acc) (fun x hx => h x (by simp [hx]))]
    simp

theorem data_append (a b : String) : (a ++ b).data = a.data ++ b.data := rfl

theorem parse_append (a r : String) :
    parsePointer (a ++ "/" ++ r) = parsePointer a ++ splitSlashAux [] r.data := by
  unfold parsePointer
  have hd : (a ++ "/" ++ r).data = a.data ++ '/' :: r.data := by
    rw [data_append, data_append]
    simp
  rw [hd, splitSlashAux_append]
  cases he : splitSlashAux [] a.data with
  | nil => exact absurd he (splitSlashAux_ne_nil [] a.data)
  | cons t0 toks => simp

theorem unescAux_no_tilde : ∀ {l : List Char}, (∀ c ∈ l, c ≠ '~') → unescAux l = l := by
  intro l
  induction l with
  | nil => intro _; rfl
  | cons c rest ih =>
    intro h
    unfold unescAux
    split
    · rename_i heq
      simp at heq
    · rename_i r heq
      injection heq with h1 h2
      exact absurd h1 (h c (by simp))
    · rename_i r heq
      injection heq with h1 h2
      exact absurd h1 (h c (by simp))
    · rename_i c2 r2 heq
      injection heq with h1 h2
      subst h1
      subst h2
      rw [ih (fun x hx => h x (by simp [hx]))]

theorem parse_no_slash_tilde (a : String) (t : List Char)
    (hs : ∀ c ∈ t, c ≠ '/') (ht : ∀ c ∈ t, c ≠ '~') :
    parsePointer (a ++ "/" ++ String.mk t) = parsePointer a ++ [String.mk t] := by
  rw [parse_append]
  rw [show (String.mk t).data = t from rfl]
  rw [splitSlashAux_no_slash t [] hs]
  rw [show ([] : List Char).reverse ++ t = t by simp]
  rw [unescAux_no_tilde ht]

theorem unescAux_tilde0 (l : List Char) : unescAux ('~' :: '0' :: l) = '~' :: unescAux l := rfl

theorem unescAux_tilde1 (l : List Char) : unescAux ('~' :: '1' :: l) = '/' :: unescAux l := rfl

theorem unescAux_cons_other (c : Char) (l : List Char) (h : c ≠ '~') :
    unescAux (c :: l) = c :: unescAux l := by
  conv_lhs => rw [unescAux.eq_def]
  split
  · rename_i heq
    simp at heq
  · rename_i r heq
    injection heq with h1 h2
    exact absurd h1 h
  · rename_i r heq
    injection heq with h1 h2
    exact absurd h1 h
  · rename_i c2 r2 heq
    injection heq with h1 h2
    subst h1
    subst h2
    rfl

theorem escList_no_slash : ∀ (l : List Char),
    ∀ c ∈ l.foldr (fun c acc =>
      if c = '~' then '~' :: '0' :: acc
      else if c = '/' then '~' :: '1' :: acc
      else c :: acc) [], c ≠ '/' := by
  intro l
  induction l with
  | nil => intro c hc; cases hc
  | cons x rest ih =>
    intro c hc
    simp only [List.foldr_cons] at hc
    by_cases h1 : x = '~'
    · rw [if_pos h1] at hc
      rcases List.mem_cons.1 hc with h | h
      · subst h; decide
      · rcases List.mem_cons.1 h with h | h
        · subst h; decide
        · exact ih c h
    · rw [if_neg h1] at hc
      by_cases h2 : x = '/'
      · rw [if_pos h2] at hc
        rcases List.mem_cons.1 hc with h | h
        · subst h; decide
        · rcases List.mem_cons.1 h with h | h
          · subst h; decide
          · exact ih c h
      · rw [if_neg h2] at hc
        rcases List.mem_cons.1 hc with h | h
        · subst h; exact h2
        · exact ih c h

theorem unesc_escList : ∀ (l : List Char),
    unescAux (l.foldr (fun c acc =>
      if c = '~' then '~' :: '0' :: acc
      else if c = '/' then '~' :: '1' :: acc
      else c :: acc) []) = l := by
  intro l
  induction l with
  | nil => rfl
  | cons x rest ih =>
    simp only [List.foldr_cons]
    by_cases h1 : x = '~'
    · rw [if_pos h1, unescAux_tilde0, ih, h1]
    · rw [if_neg h1]
      by_cases h2 : x = '/'
      · rw [if_pos h2, unescAux_tilde1, ih, h2]
      · rw [if_neg h2, unescAux_cons_other x _ h1, ih]

theorem parse_appendKey (p k : String) :
    parsePointer (appendKey p k) = parsePointer p ++ [k] := by
  unfold appendKey
  rw [parse_append]
  have hdata : (escapeKey k).data = k.data.foldr (fun c acc =>
      if c = '~' then '~' :: '0' :: acc
      else if c = '/' then '~' :: '1' :: acc
      else c :: acc) [] := rfl
  rw [hdata, splitSlashAux_no_slash _ [] (escList_no_slash k.data),
    show (([] : List Char)).reverse = [] from rfl, List.nil_append, unesc_escList]

theorem repr_chars (n : Nat) : ∀ c ∈ (Nat.repr n).data, c ≠ '/' ∧ c ≠ '~' := by
  intro c hc
  have hd : (Nat.repr n).data = Nat.toDigits 10 n := rfl
  rw [hd] at hc
  exact toDigitsCore_chars 10 (n + 1) n [] (by intro x hx; cases hx) c hc

theorem parse_appendIndex (p : String) (i : Nat) :
    parsePointer (appendIndex p i) = parsePointer p ++ [Nat.repr i] := by
  unfold appendIndex
  have he : String.mk (Nat.repr i).data = Nat.repr i := rfl
  rw [← he, parse_no_slash_tilde p (Nat.repr i).data
    (fun c hc => (repr_chars i c hc).1) (fun c hc => (repr_chars i c hc).2)]

theorem parse_root : parsePointer "" = [] := rfl

example : parsePointer (appendKey "" "a~/b") = ["a~/b"] := by
  rw [parse_appendKey]
  rfl

theorem getAtPath_append : ∀ (A : List String) (t : JSON) (B : List String),
    getAtPath t (A ++ B) = (getAtPath t A).bind (fun w => getAtPath w B) := by
  intro A
  induction A with
  | nil => intro t B; simp [getAtPath]
  | cons tok A ih =>
    intro t B
    rw [List.cons_append]
    cases t with
    | null => simp [getAtPath]
    | bool b => simp [getAtPath]
    | num n => simp [getAtPath]
    | str s => simp [getAtPath]
    | obj fs =>
      simp only [getAtPath]
      cases hl : lookupField fs tok with
      | none => rfl
      | some child => exact ih child B
    | arr xs =>
      simp only [getAtPath]
      cases hi : tokToIndex tok with
      | none => rfl
      | some i =>
        dsimp only
        by_cases h : i < xs.length
        · rw [dif_pos h, dif_pos h]
          exact ih _ B
        · rw [dif_neg h, dif_neg h]
          rfl

theorem getAtPath_sizeOf_le : ∀ (B : List String) (t w : JSON),
    getAtPath t B = some w → sizeOf w ≤ sizeOf t := by
  intro B
  induction B with
  | nil =>
    intro t w h
    simp only [getAtPath, Option.some.injEq] at h
    subst h
    exact le_rfl
  | cons tok B ih =>
    intro t w h
    cases t with
    | null => cases h
    | bool b => cases h
    | num n => cases h
    | str s => cases h
    | obj fs =>
      simp only [getAtPath] at h
      cases hl : lookupField fs tok with
      | none =>
        simp only [hl] at h
        cases h
      | some child =>
        simp only [hl] at h
        have h1 := ih child w h
        have h2 := sizeOf_mem_fields (lookupField_mem hl)
        omega
    | arr xs =>
      simp only [getAtPath] at h
      cases hi : tokToIndex tok with
      | none =>
        simp only [hi] at h
        cases h
      | some i =>
        simp only [hi] at h
        by_cases hlt : i < xs.length
        · rw [dif_pos hlt] at h
          have h1 := ih _ w h
          have h2 : sizeOf (xs.get ⟨i, hlt⟩) < sizeOf (JSON.arr xs) :=
            sizeOf_mem_elems (xs.get_mem _ _)
          omega
        · rw [dif_neg hlt] at h
          cases h

theorem getAtPath_sizeOf_lt (B : List String) (t w : JSON) (hne : B ≠ [])
    (h : getAtPath t B = some w) : sizeOf w < sizeOf t := by
  cases B with
  | nil => exact absurd rfl hne
  | cons tok B =>
    cases t with
    | null => cases h
    | bool b => cases h
    | num n => cases h
    | str s => cases h
    | obj fs =>
      simp only [getAtPath] at h
      cases hl : lookupField fs tok with
      | none =>
        simp only [hl] at h
        cases h
      | some child =>
        simp only [hl] at h
        have h1 := getAtPath_sizeOf_le B child w h
        have h2 := sizeOf_mem_fields (lookupField_mem hl)
        omega
    | arr xs =>
      simp only [getAtPath] at h
      cases hi : tokToIndex tok with
      | none =>
        simp only [hi] at h
        cases h
      | some i =>
        simp only [hi] at h
        by_cases hlt : i < xs.length
        · rw [dif_pos hlt] at h
          have h1 := getAtPath_sizeOf_le B _ w h
          have h2 : sizeOf (xs.get ⟨i, hlt⟩) < sizeOf (JSON.arr xs) :=
            sizeOf_mem_elems (xs.get_mem _ _)
          omega
        · rw [dif_neg hlt] at h
          cases h

theorem wf_getAtPath : ∀ (B : List String) (t w : JSON), Wf t →
    getAtPath t B = some w → Wf w := by
  intro B
  induction B with
  | nil =>
    intro t w hw h
    simp only [getAtPath, Option.some.injEq] at h
    subst h
    exact hw
  | cons tok B ih =>
    intro t w hw h
    cases t with
    | null => cases h
    | bool b => cases h
    | num n => cases h
    | str s => cases h
    | obj fs =>
      simp only [getAtPath] at h
      cases hl : lookupField fs tok with
      | none =>
        simp only [hl] at h
        cases h
      | some child =>
        simp only [hl] at h
        exact ih child w (wf_obj_val hw (lookupField_mem hl)) h
    | arr xs =>
      simp only [getAtPath] at h
      cases hi : tokToIndex tok with
      | none =>
        simp only [hi] at h
        cases h
      | some i =>
        simp only [hi] at h
        by_cases hlt : i < xs.length
        · rw [dif_pos hlt] at h
          exact ih _ w (wf_arr_elem hw (xs.get_mem _ _)) h
        · rw [dif_neg hlt] at h
          cases h

theorem getAtPath_obj_key (fs : List (String × JSON)) (k : String) (v : JSON)
    (h : lookupField fs k = some v) : getAtPath (.obj fs) [k] = some v := by
  simp only [getAtPath, h]

theorem getAtPath_arr_idx (xs : List JSON) (i : Nat) (h : i < xs.length) :
    getAtPath (.arr xs) [Nat.repr i] = some (xs.getD i .null) := by
  simp only [getAtPath, tokToIndex_repr]
  rw [dif_pos h]
  simp only [getAtPath, Option.some.injEq]
  rw [List.getD_eq_getElem _ _ h]
  rfl

/-
Deep equality preserves document size on well-formed values: equal key sets
with pairwise equal values are a permutation, and sizeOf is permutation
invariant.  A value therefore never deeply equals one of its own strict
subtrees, which is what rules out ancestor copies.
-/

theorem list_sizeOf_sum (l : List JSON) :
    sizeOf l = 1 + l.length + (l.map (fun e => sizeOf e)).sum := by
  induction l with
  | nil => rfl
  | cons x xs ih =>
    simp only [List.map_cons, List.sum_cons, List.cons.sizeOf_spec, List.length_cons]
    rw [ih]
    omega

theorem pairlist_sizeOf_sum (l : List (String × JSON)) :
    sizeOf l = 1 + l.length + (l.map (fun kv => sizeOf kv)).sum := by
  induction l with
  | nil => rfl
  | cons x xs ih =>
    simp only [List.map_cons, List.sum_cons, List.cons.sizeOf_spec, List.length_cons]
    rw [ih]
    omega

theorem dedupKeys_of_nodup : ∀ {l : List String}, l.Nodup → dedupKeys l = l := by
  intro l
  induction l with
  | nil => intro _; rfl
  | cons x xs ih =>
    intro h
    rw [List.nodup_cons] at h
    unfold dedupKeys
    rw [if_neg (by simpa using h.1), ih h.2]

theorem fields_sizeOf_of_perm : ∀ {xs ys : List (String × JSON)},
    (xs.map Prod.fst).Nodup → (ys.map Prod.fst).Nodup →
    (xs.map Prod.fst).Perm (ys.map Prod.fst) →
    (∀ k v w, (k, v) ∈ xs → (k, w) ∈ ys → sizeOf v = sizeOf w) →
    sizeOf xs = sizeOf ys := by
  intro xs
  induction xs with
  | nil =>
    intro ys _ _ hperm _
    have hnil : ys.map Prod.fst = [] := hperm.symm.eq_nil
    have hys : ys = [] := by
      cases ys with
      | nil => rfl
      | cons a b => simp at hnil
    rw [hys]
  | cons kv xs ih =>
    intro ys hnx hny hperm hval
    obtain ⟨k, v⟩ := kv
    have hkmem : k ∈ ys.map Prod.fst := hperm.mem_iff.1 (by simp)
    obtain ⟨p, hp, hfst⟩ := List.mem_map.1 hkmem
    obtain ⟨k2, w⟩ := p
    have hk2 : k2 = k := hfst
    rw [hk2] at hp
    obtain ⟨l1, l2, hys⟩ := List.append_of_mem hp
    subst hys
    have hysperm : (l1 ++ (k, w) :: l2).Perm ((k, w) :: (l1 ++ l2)) := List.perm_middle
    have hkeysperm : ((l1 ++ (k, w) :: l2).map Prod.fst).Perm (k :: (l1 ++ l2).map Prod.fst) := by
      have := hysperm.map Prod.fst
      simpa using this
    have htails : (xs.map Prod.fst).Perm ((l1 ++ l2).map Prod.fst) := by
      have h1 : (k :: xs.map Prod.fst).Perm (k :: (l1 ++ l2).map Prod.fst) := by
        refine List.Perm.trans ?_ hkeysperm
        simpa using hperm
      exact h1.cons_inv
    have hnys2 : ((l1 ++ l2).map Prod.fst).Nodup := by
      have := hkeysperm.nodup_iff.1 hny
      exact (List.nodup_cons.1 this).2
    simp only [List.map_cons, List.nodup_cons] at hnx
    have hrec := ih hnx.2 hnys2 htails (fun k3 v3 w3 h3 h4 =>
      hval k3 v3 w3 (by simp [h3]) (by
        rcases List.mem_append.1 h4 with h5 | h5
        · exact List.mem_append.2 (Or.inl h5)
        · exact List.mem_append.2 (Or.inr (by simp [h5]))))
    have hhead : sizeOf v = sizeOf w := hval k v w (by simp) hp
    have hsz : sizeOf (l1 ++ (k, w) :: l2) = sizeOf ((k, w) :: (l1 ++ l2)) := by
      rw [pairlist_sizeOf_sum (l1 ++ (k, w) :: l2), pairlist_sizeOf_sum ((k, w) :: (l1 ++ l2))]
      have h1 := (hysperm.map (fun kv => sizeOf kv)).sum_eq
      have h2 := hysperm.length_eq
      simp only [List.length_map] at h1 ⊢
      omega
    rw [hsz]
    simp only [List.cons.sizeOf_spec]
    have hp1 : sizeOf ((k, v) : String × JSON) = 1 + sizeOf k + sizeOf v := rfl
    have hp2 : sizeOf ((k, w) : String × JSON) = 1 + sizeOf k + sizeOf w := rfl
    omega

theorem deepEqualListWith_sizeOf (eq : JSON → JSON → Bool) :
    ∀ {xs ys : List JSON},
    (∀ x y, x ∈ xs → y ∈ ys → eq x y = true → sizeOf x = sizeOf y) →
    deepEqualListWith eq xs ys = true → sizeOf xs = sizeOf ys := by
  intro xs
  induction xs with
  | nil =>
    intro ys _ h
    cases ys with
    | nil => rfl
    | cons y ys => simp [deepEqualListWith] at h
  | cons x xs ih =>
    intro ys hstep h
    cases ys with
    | nil => simp [deepEqualListWith] at h
    | cons y ys =>
      simp only [deepEqualListWith, Bool.and_eq_true] at h
      have h1 : sizeOf x = sizeOf y := hstep x y (by simp) (by simp) h.1
      have h2 := ih (fun a b ha hb he => hstep a b (by simp [ha]) (by simp [hb]) he) h.2
      simp only [List.cons.sizeOf_spec]
      omega

theorem deepEqualF_sizeOf : ∀ (f : Nat) {a b : JSON}, Wf a → Wf b →
    deepEqualF f a b = true → sizeOf a = sizeOf b := by
  intro f
  induction f with
  | zero => intro a b _ _ h; simp [deepEqualF] at h
  | succ f ih =>
    intro a b hwa hwb h
    cases a <;> cases b <;> simp [deepEqualF] at h
    case null.null => rfl
    case bool.bool x y => rw [h]
    case num.num x y => rw [h]
    case str.str x y => rw [h]
    case arr.arr xs ys =>
      simp only [JSON.arr.sizeOf_spec]
      have := deepEqualListWith_sizeOf (deepEqualF f)
        (fun x y hx hy he => ih (wf_arr_elem hwa hx) (wf_arr_elem hwb hy) he) h
      omega
    case obj.obj xs ys =>
      obtain ⟨hk, hsub⟩ := h
      have hkeq : sortStrings (dedupKeys (xs.map Prod.fst))
          = sortStrings (dedupKeys (ys.map Prod.fst)) := by
        unfold keySetEq at hk
        simpa using hk
      have hnx := wf_obj_nodup hwa
      have hny := wf_obj_nodup hwb
      rw [dedupKeys_of_nodup hnx, dedupKeys_of_nodup hny] at hkeq
      have hperm : (xs.map Prod.fst).Perm (ys.map Prod.fst) :=
        (sortStrings_perm _).symm.trans (hkeq ▸ sortStrings_perm _)
      have hsubs := (deepEqualSubWith_iff (deepEqualF f) ys xs).1 hsub
      simp only [JSON.obj.sizeOf_spec]
      have := fields_sizeOf_of_perm hnx hny hperm (fun k v w hv hw => by
        obtain ⟨w2, hw2, he2⟩ := hsubs (k, v) hv
        have hww : w2 = w := by
          have hl := lookup_nodup_mem hny hw
          rw [hl] at hw2
          exact (Option.some_inj.1 hw2).symm
        subst hww
        exact ih (wf_obj_val hwa hv) (wf_obj_val hwb hw) he2)
      omega

/-
The descendant-freedom invariant (C5).  A from path strictly above its
path is a pointer of the shape from ++ "/" ++ rest; the differ state
invariant records that every hash-index node stores the genuine target
subtree at its recorded path, and that the patch so far satisfies the
claim.
-/

def PtrDescends (a b : String) : Prop := ∃ rest, b = a ++ "/" ++ rest

def SafeOps (p : Patch) : Prop :=
  ∀ op ∈ p, op.type = OpType.move ∨ op.type = OpType.copy →
    ¬ PtrDescends op.fromPtr op.path

def C5Inv (tgt0 : JSON) (d : Differ) : Prop :=
  SafeOps d.patch ∧ ∀ n ∈ d.hashmap, getAtPath tgt0 (parsePointer n.ptr) = some n.val

theorem safeOps_nil : SafeOps [] := fun op h => absurd h (List.not_mem_nil op)

theorem safeOps_snoc {p : Patch} (h : SafeOps p) {op : Operation}
    (hop : op.type = OpType.move ∨ op.type = OpType.copy →
      ¬ PtrDescends op.fromPtr op.path) :
    SafeOps (p ++ [op]) := by
  intro o ho ht
  rcases List.mem_append.1 ho with hm | hm
  · exact h o hm ht
  · have he : o = op := by simpa using hm
    subst he
    exact hop ht

theorem safeOps_of_sub {p q : Patch} (hsub : ∀ op ∈ q, op ∈ p) (h : SafeOps p) : SafeOps q :=
  fun op hm ht => h op (hsub op hm) ht

theorem goHasPfx_of_descends {a b : String} (h : PtrDescends a b) : goHasPfx b a = true := by
  obtain ⟨rest, hr⟩ := h
  subst hr
  unfold goHasPfx
  have hd : (a ++ "/" ++ rest).data = a.data ++ ('/' :: rest.data) := by
    rw [data_append, data_append]
    simp
  rw [hd, List.isPrefixOf_iff_prefix]
  exact List.prefix_append _ _

theorem findUnchangedIn_spec (f : Nat) (v : JSON) : ∀ (l : List jsonNode),
    findUnchangedIn f v l ≠ emptyPtr →
    ∃ n ∈ l, n.ptr = findUnchangedIn f v l ∧ deepEqualF f n.val v = true := by
  intro l
  induction l with
  | nil => intro h; exact absurd rfl h
  | cons e rest ih =>
    intro h
    by_cases hd : deepEqualF f e.val v = true
    · refine ⟨e, by simp, ?_, hd⟩
      unfold findUnchangedIn
      rw [if_pos hd]
    · unfold findUnchangedIn at h ⊢
      rw [if_neg hd] at h ⊢
      obtain ⟨n, hn, he, hd2⟩ := ih h
      exact ⟨n, by simp [hn], he, hd2⟩

theorem hashmapInsert_mem (f : Nat) : ∀ {l : List jsonNode} {nn n : jsonNode},
    n ∈ hashmapInsert f l nn → n = nn ∨ n ∈ l := by
  intro l
  induction l with
  | nil =>
    intro nn n h
    simp [hashmapInsert] at h
    exact Or.inl h
  | cons e rest ih =>
    intro nn n h
    unfold hashmapInsert at h
    split at h
    · rcases List.mem_cons.1 h with h2 | h2
      · exact Or.inl h2
      · exact Or.inr (by simp [h2])
    · rcases List.mem_cons.1 h with h2 | h2
      · exact Or.inr (by simp [h2])
      · rcases ih h2 with h3 | h3
        · exact Or.inl h3
        · exact Or.inr (by simp [h3])

theorem site_obj_child {tgt0 : JSON} {ptr : String} {fs : List (String × JSON)}
    (ht : getAtPath tgt0 (parsePointer ptr) = some (.obj fs)) {k : String} {v : JSON}
    (hl : lookupField fs k = some v) :
    getAtPath tgt0 (parsePointer (appendKey ptr k)) = some v := by
  rw [parse_appendKey, getAtPath_append, ht]
  exact getAtPath_obj_key fs k v hl

theorem site_arr_child {tgt0 : JSON} {ptr : String} {xs : List JSON}
    (ht : getAtPath tgt0 (parsePointer ptr) = some (.arr xs)) {i : Nat}
    (hi : i < xs.length) :
    getAtPath tgt0 (parsePointer (appendIndex ptr i)) = some (xs.getD i .null) := by
  rw [parse_appendIndex, getAtPath_append, ht]
  exact getAtPath_arr_idx xs i hi

theorem copy_safe {tgt0 : JSON} (hw : Wf tgt0) {f : Nat} {up ptr : String} {w v : JSON}
    (hup : getAtPath tgt0 (parsePointer up) = some w)
    (hsite : getAtPath tgt0 (parsePointer ptr) = some v ∨
      ∃ p xs, ptr = p ++ "/" ++ "-" ∧ getAtPath tgt0 (parsePointer p) = some (.arr xs) ∧ v ∈ xs)
    (heq : deepEqualF f w v = true) :
    ¬ PtrDescends up ptr := by
  rintro ⟨rest, hr⟩
  subst hr
  have hwW : Wf w := wf_getAtPath _ _ _ hw hup
  rcases hsite with hv | ⟨p, xs, hpe, hparr, hmem⟩
  · have hwV : Wf v := wf_getAtPath _ _ _ hw hv
    rw [parse_append, getAtPath_append, hup] at hv
    simp only [Option.some_bind] at hv
    have hlt := getAtPath_sizeOf_lt _ w v (splitSlashAux_ne_nil [] rest.data) hv
    have hs := deepEqualF_sizeOf f hwW hwV heq
    omega
  · have hwA : Wf (JSON.arr xs) := wf_getAtPath _ _ _ hw hparr
    have hwV : Wf v := wf_arr_elem hwA hmem
    have hpp : parsePointer (up ++ "/" ++ rest) = parsePointer (p ++ "/" ++ "-") := by
      rw [hpe]
    rw [parse_append, parse_append] at hpp
    have hdash : splitSlashAux [] ("-" : String).data = ["-"] := rfl
    rw [hdash] at hpp
    have hSRne : splitSlashAux [] rest.data ≠ [] := splitSlashAux_ne_nil [] rest.data
    have hlen : (parsePointer up).length ≤ (parsePointer p).length := by
      have hc := congrArg List.length hpp
      simp only [List.length_append, List.length_singleton] at hc
      have := List.length_pos.2 hSRne
      omega
    have hU : parsePointer up = (parsePointer p).take (parsePointer up).length := by
      have h1 : parsePointer up =
          ((parsePointer up ++ splitSlashAux [] rest.data).take (parsePointer up).length) :=
        (List.take_left _ _).symm
      rw [hpp] at h1
      rw [List.take_append_of_le_length hlen] at h1
      exact h1
    have hA : parsePointer p = parsePointer up ++ (parsePointer p).drop (parsePointer up).length := by
      conv_lhs => rw [← List.take_append_drop (parsePointer up).length (parsePointer p)]
      rw [← hU]
    by_cases hT : (parsePointer p).drop (parsePointer up).length = []
    · have hUA : parsePointer up = parsePointer p := by
        rw [hA, hT, List.append_nil]
      rw [← hUA, hup] at hparr
      have hwarr : w = .arr xs := Option.some_inj.1 hparr
      subst hwarr
      have h1 : sizeOf v < sizeOf (JSON.arr xs) := sizeOf_mem_elems hmem
      have h2 := deepEqualF_sizeOf f hwW hwV heq
      omega
    · rw [hA, getAtPath_append, hup] at hparr
      simp only [Option.some_bind] at hparr
      have h1 := getAtPath_sizeOf_lt _ w _ hT hparr
      have h2 : sizeOf v < sizeOf (JSON.arr xs) := sizeOf_mem_elems hmem
      have h3 := deepEqualF_sizeOf f hwW hwV heq
      omega

theorem plain_op_safe {t : OpType} (ht : t ≠ OpType.move ∧ t ≠ OpType.copy)
    {fp pa : String} {o v : JSON} :
    (⟨t, fp, pa, o, v⟩ : Operation).type = OpType.move ∨
      (⟨t, fp, pa, o, v⟩ : Operation).type = OpType.copy →
    ¬ PtrDescends (⟨t, fp, pa, o, v⟩ : Operation).fromPtr
      (⟨t, fp, pa, o, v⟩ : Operation).path := by
  intro hc
  rcases hc with hc | hc
  · exact absurd hc ht.1
  · exact absurd hc ht.2

theorem add_c5 {tgt0 : JSON} (hw : Wf tgt0) (f : Nat) {d : Differ} (ptr : String) (v : JSON)
    (h : C5Inv tgt0 d)
    (hsite : getAtPath tgt0 (parsePointer ptr) = some v ∨
      ∃ p xs, ptr = p ++ "/" ++ "-" ∧
        getAtPath tgt0 (parsePointer p) = some (.arr xs) ∧ v ∈ xs) :
    C5Inv tgt0 (Differ.add f d ptr v) ∧ (Differ.add f d ptr v).hashmap = d.hashmap ∧
      (Differ.add f d ptr v).opts = d.opts := by
  obtain ⟨hsafe, hmap⟩ := h
  unfold Differ.add
  by_cases hfac : (!d.opts.factorize) = true
  · rw [if_pos hfac]
    exact ⟨⟨safeOps_snoc hsafe (plain_op_safe ⟨by decide, by decide⟩), hmap⟩, rfl, rfl⟩
  · rw [if_neg hfac]
    cases hfr : Differ.findRemoved f d v with
    | some idx =>
      dsimp only
      split
      · next hg =>
        refine ⟨⟨?_, hmap⟩, rfl, rfl⟩
        refine safeOps_snoc (safeOps_of_sub (fun op hm => List.eraseIdx_subset _ _ hm) hsafe) ?_
        intro _
        intro hdesc
        have hg2 : goHasPfx ptr (d.patch.getD idx
            ⟨.add, emptyPtr, emptyPtr, .null, .null⟩).path = false := by
          simpa using hg
        exact absurd (goHasPfx_of_descends hdesc) (by rw [hg2]; decide)
      · exact ⟨⟨hsafe, hmap⟩, rfl, rfl⟩
    | none =>
      dsimp only
      split
      · next hguard =>
        refine ⟨⟨?_, hmap⟩, rfl, rfl⟩
        refine safeOps_snoc hsafe ?_
        intro _
        have hne : Differ.findUnchanged f d v ≠ emptyPtr := by
          intro he
          rw [he] at hguard
          simp [emptyPtr] at hguard
        obtain ⟨n, hn, hptr, hdeq⟩ := findUnchangedIn_spec f v d.hashmap hne
        have hpath := hmap n hn
        rw [hptr] at hpath
        exact copy_safe hw hpath hsite hdeq
      · exact ⟨⟨safeOps_snoc hsafe (plain_op_safe ⟨by decide, by decide⟩), hmap⟩, rfl, rfl⟩

theorem remove_c5 {tgt0 : JSON} {d : Differ} (ptr : String) (v : JSON) (h : C5Inv tgt0 d) :
    C5Inv tgt0 (Differ.remove d ptr v) ∧ (Differ.remove d ptr v).hashmap = d.hashmap ∧
      (Differ.remove d ptr v).opts = d.opts := by
  obtain ⟨hsafe, hmap⟩ := h
  unfold Differ.remove
  split
  · exact ⟨⟨safeOps_snoc (safeOps_snoc hsafe (plain_op_safe ⟨by decide, by decide⟩))
      (plain_op_safe ⟨by decide, by decide⟩), hmap⟩, rfl, rfl⟩
  · exact ⟨⟨safeOps_snoc hsafe (plain_op_safe ⟨by decide, by decide⟩), hmap⟩, rfl, rfl⟩

theorem replace_c5 {tgt0 : JSON} {d : Differ} (ptr : String) (s t : JSON) (h : C5Inv tgt0 d) :
    C5Inv tgt0 (Differ.replace d ptr s t) ∧ (Differ.replace d ptr s t).hashmap = d.hashmap ∧
      (Differ.replace d ptr s t).opts = d.opts := by
  obtain ⟨hsafe, hmap⟩ := h
  unfold Differ.replace
  split
  · exact ⟨⟨safeOps_snoc (safeOps_snoc hsafe (plain_op_safe ⟨by decide, by decide⟩))
      (plain_op_safe ⟨by decide, by decide⟩), hmap⟩, rfl, rfl⟩
  · exact ⟨⟨safeOps_snoc hsafe (plain_op_safe ⟨by decide, by decide⟩), hmap⟩, rfl, rfl⟩

theorem rationalize_c5 {tgt0 : JSON} {d : Differ} (f : Nat) (ptr : String) (src tgt : JSON)
    (n : Nat) (h : C5Inv tgt0 d) :
    C5Inv tgt0 (Differ.rationalizeLastOps f d ptr src tgt n) ∧
      (Differ.rationalizeLastOps f d ptr src tgt n).hashmap = d.hashmap ∧
      (Differ.rationalizeLastOps f d ptr src tgt n).opts = d.opts := by
  obtain ⟨hsafe, hmap⟩ := h
  unfold Differ.rationalizeLastOps
  dsimp only
  split
  · refine ⟨⟨?_, hmap⟩, rfl, rfl⟩
    intro op hm hty
    rcases List.mem_append.1 hm with hm | hm
    · exact hsafe op (List.take_subset _ _ hm) hty
    · rcases List.mem_append.1 hm with hm | hm
      · have htest : op.type = OpType.test := by
          revert hm
          split
          · intro hm
            have he : op = ⟨.test, emptyPtr, ptr, .null, src⟩ := by simpa using hm
            rw [he]
          · intro hm
            cases hm
        rcases hty with hty | hty
        · exact absurd (htest.symm.trans hty) (by decide)
        · exact absurd (htest.symm.trans hty) (by decide)
      · have he : op = ⟨.replace, emptyPtr, ptr, .null, tgt⟩ := by simpa using hm
        subst he
        rcases hty with hty | hty
        · exact absurd hty (by decide : OpType.replace ≠ OpType.move)
        · exact absurd hty (by decide : OpType.replace ≠ OpType.copy)
  · exact ⟨⟨hsafe, hmap⟩, rfl, rfl⟩

theorem foldl_pres {β : Type} (P : Differ → Prop) (g : Differ → β → Differ) (l : List β)
    (h : ∀ dA b, b ∈ l → P dA → P (g dA b)) : ∀ {dA}, P dA → P (l.foldl g dA) := by
  induction l with
  | nil => intro dA hd; simpa using hd
  | cons x xs ih =>
    intro dA hd
    simp only [List.foldl_cons]
    exact ih (fun a b hb hp => h a b (by simp [hb]) hp) (h dA x (by simp) hd)

theorem arrayRemovals_c5 {tgt0 : JSON} {d : Differ} (ptr : String) (size : Nat)
    (src : List JSON) (h : C5Inv tgt0 d) :
    C5Inv tgt0 (arrayRemovals d ptr size src) ∧
      (arrayRemovals d ptr size src).hashmap = d.hashmap ∧
      (arrayRemovals d ptr size src).opts = d.opts := by
  unfold arrayRemovals
  split
  · refine foldl_pres
      (fun dA => C5Inv tgt0 dA ∧ dA.hashmap = d.hashmap ∧ dA.opts = d.opts) _ _ ?_ ⟨h, rfl, rfl⟩
    intro dA j hj hp
    split
    · exact hp
    · obtain ⟨hc5, hh, ho⟩ := hp
      obtain ⟨h1, h2, h3⟩ := remove_c5 _ _ hc5
      exact ⟨h1, h2.trans hh, h3.trans ho⟩
  · exact ⟨h, rfl, rfl⟩

theorem arrayAppends_c5 {tgt0 : JSON} (hw : Wf tgt0) (f2 : Nat) {d : Differ} (ptr : String)
    (size : Nat) (ys : List JSON)
    (ht : getAtPath tgt0 (parsePointer ptr) = some (.arr ys)) (h : C5Inv tgt0 d) :
    C5Inv tgt0 (arrayAppends f2 d ptr size ys) ∧
      (arrayAppends f2 d ptr size ys).hashmap = d.hashmap ∧
      (arrayAppends f2 d ptr size ys).opts = d.opts := by
  unfold arrayAppends
  refine foldl_pres
    (fun dA => C5Inv tgt0 dA ∧ dA.hashmap = d.hashmap ∧ dA.opts = d.opts) _ _ ?_ ⟨h, rfl, rfl⟩
  intro dA j hj hp
  split
  · exact hp
  · obtain ⟨hc5, hh, ho⟩ := hp
    have hjlt : size + j < ys.length := by
      have := List.mem_range.1 hj
      omega
    have hmem : ys.getD (size + j) .null ∈ ys := by
      rw [List.getD_eq_getElem _ _ hjlt]
      exact List.getElem_mem _
    obtain ⟨h1, h2, h3⟩ := add_c5 hw f2 _ _ hc5 (Or.inr ⟨ptr, ys, rfl, ht, hmem⟩)
    exact ⟨h1, h2.trans hh, h3.trans ho⟩

theorem arrayPairwise_c5 {tgt0 : JSON}
    {diffK : Differ → String → JSON → JSON → Differ}
    (hK : ∀ (dA : Differ) (p : String) (s t : JSON), C5Inv tgt0 dA →
      getAtPath tgt0 (parsePointer p) = some t →
      C5Inv tgt0 (diffK dA p s t) ∧ (diffK dA p s t).hashmap = dA.hashmap ∧
        (diffK dA p s t).opts = dA.opts)
    {d : Differ} (ptr : String) (size : Nat) (xs ys : List JSON) (hsz : size ≤ ys.length)
    (ht : getAtPath tgt0 (parsePointer ptr) = some (.arr ys)) (h : C5Inv tgt0 d) :
    C5Inv tgt0 (arrayPairwise diffK d ptr size xs ys) ∧
      (arrayPairwise diffK d ptr size xs ys).hashmap = d.hashmap ∧
      (arrayPairwise diffK d ptr size xs ys).opts = d.opts := by
  unfold arrayPairwise
  refine foldl_pres
    (fun dA => C5Inv tgt0 dA ∧ dA.hashmap = d.hashmap ∧ dA.opts = d.opts) _ _ ?_ ⟨h, rfl, rfl⟩
  intro dA i hi hp
  obtain ⟨hc5, hh, ho⟩ := hp
  have hilt : i < ys.length := by
    have := List.mem_range.1 hi
    omega
  obtain ⟨h1, h2, h3⟩ := hK dA _ _ _ hc5 (site_arr_child ht hilt)
  exact ⟨h1, h2.trans hh, h3.trans ho⟩

theorem compareArrays_c5 {tgt0 : JSON} (hw : Wf tgt0)
    {diffK : Differ → String → JSON → JSON → Differ}
    (hK : ∀ (dA : Differ) (p : String) (s t : JSON), C5Inv tgt0 dA →
      getAtPath tgt0 (parsePointer p) = some t →
      C5Inv tgt0 (diffK dA p s t) ∧ (diffK dA p s t).hashmap = dA.hashmap ∧
        (diffK dA p s t).opts = dA.opts)
    (f2 : Nat) {d : Differ} (ptr : String) (xs ys : List JSON)
    (ht : getAtPath tgt0 (parsePointer ptr) = some (.arr ys)) (h : C5Inv tgt0 d) :
    C5Inv tgt0 (Differ.compareArrays diffK f2 d ptr xs ys) ∧
      (Differ.compareArrays diffK f2 d ptr xs ys).hashmap = d.hashmap ∧
      (Differ.compareArrays diffK f2 d ptr xs ys).opts = d.opts := by
  unfold Differ.compareArrays
  dsimp only
  obtain ⟨r1, r2, r3⟩ := arrayRemovals_c5 ptr (min xs.length ys.length) xs h
  have hmid : C5Inv tgt0
      (if ((arrayRemovals d ptr (min xs.length ys.length) xs).opts.equivalent &&
            unorderedDeepEqualSlice f2 xs ys) = true then
        arrayRemovals d ptr (min xs.length ys.length) xs
      else
        arrayPairwise diffK (arrayRemovals d ptr (min xs.length ys.length) xs) ptr
          (min xs.length ys.length) xs ys) ∧
      (if ((arrayRemovals d ptr (min xs.length ys.length) xs).opts.equivalent &&
            unorderedDeepEqualSlice f2 xs ys) = true then
        arrayRemovals d ptr (min xs.length ys.length) xs
      else
        arrayPairwise diffK (arrayRemovals d ptr (min xs.length ys.length) xs) ptr
          (min xs.length ys.length) xs ys).hashmap = d.hashmap ∧
      (if ((arrayRemovals d ptr (min xs.length ys.length) xs).opts.equivalent &&
            unorderedDeepEqualSlice f2 xs ys) = true then
        arrayRemovals d ptr (min xs.length ys.length) xs
      else
        arrayPairwise diffK (arrayRemovals d ptr (min xs.length ys.length) xs) ptr
          (min xs.length ys.length) xs ys).opts = d.opts := by
    split
    · exact ⟨r1, r2, r3⟩
    · obtain ⟨g1, g2, g3⟩ := arrayPairwise_c5 hK ptr (min xs.length ys.length) xs ys
        (Nat.min_le_right _ _) ht r1
      exact ⟨g1, g2.trans r2, g3.trans r3⟩
  obtain ⟨m1, m2, m3⟩ := hmid
  obtain ⟨a1, a2, a3⟩ := arrayAppends_c5 hw f2 ptr (min xs.length ys.length) ys ht m1
  exact ⟨a1, a2.trans m2, a3.trans m3⟩

theorem compareObjects_c5 {tgt0 : JSON} (hw : Wf tgt0)
    {diffK : Differ → String → JSON → JSON → Differ}
    (hK : ∀ (dA : Differ) (p : String) (s t : JSON), C5Inv tgt0 dA →
      getAtPath tgt0 (parsePointer p) = some t →
      C5Inv tgt0 (diffK dA p s t) ∧ (diffK dA p s t).hashmap = dA.hashmap ∧
        (diffK dA p s t).opts = dA.opts)
    (f2 : Nat) {d : Differ} (ptr : String) (src tgt : List (String × JSON))
    (ht : getAtPath tgt0 (parsePointer ptr) = some (.obj tgt)) (h : C5Inv tgt0 d) :
    C5Inv tgt0 (Differ.compareObjects diffK f2 d ptr src tgt) ∧
      (Differ.compareObjects diffK f2 d ptr src tgt).hashmap = d.hashmap ∧
      (Differ.compareObjects diffK f2 d ptr src tgt).opts = d.opts := by
  unfold Differ.compareObjects
  refine foldl_pres
    (fun dA => C5Inv tgt0 dA ∧ dA.hashmap = d.hashmap ∧ dA.opts = d.opts) _ _ ?_ ⟨h, rfl, rfl⟩
  intro dA k hk hp
  obtain ⟨hc5, hh, ho⟩ := hp
  dsimp only
  split
  · next hc =>
    rw [Bool.and_eq_true] at hc
    obtain ⟨v2, hv2⟩ := lookup_isSome_iff.1 hc.2
    simp only [hv2, Option.getD_some]
    obtain ⟨h1, h2, h3⟩ := hK dA _ _ _ hc5 (site_obj_child ht hv2)
    exact ⟨h1, h2.trans hh, h3.trans ho⟩
  · split
    · split
      · exact ⟨hc5, hh, ho⟩
      · obtain ⟨h1, h2, h3⟩ := remove_c5 _ _ hc5
        exact ⟨h1, h2.trans hh, h3.trans ho⟩
    · split
      · next hc2 =>
        split
        · exact ⟨hc5, hh, ho⟩
        · rw [Bool.and_eq_true] at hc2
          obtain ⟨v2, hv2⟩ := lookup_isSome_iff.1 hc2.2
          simp only [hv2, Option.getD_some]
          obtain ⟨h1, h2, h3⟩ := add_c5 hw f2 _ _ hc5 (Or.inl (site_obj_child ht hv2))
          exact ⟨h1, h2.trans hh, h3.trans ho⟩
      · exact ⟨hc5, hh, ho⟩

theorem diff_c5 {tgt0 : JSON} (hw : Wf tgt0) :
    ∀ (f : Nat) (d : Differ) (ptr : String) (src tgt : JSON),
    C5Inv tgt0 d → getAtPath tgt0 (parsePointer ptr) = some tgt →
    C5Inv tgt0 (Differ.diff f d ptr src tgt) ∧
      (Differ.diff f d ptr src tgt).hashmap = d.hashmap ∧
      (Differ.diff f d ptr src tgt).opts = d.opts := by
  intro f
  induction f with
  | zero => intro d ptr src tgt h ht; exact ⟨h, rfl, rfl⟩
  | succ f ih =>
    intro d ptr src tgt h ht
    obtain ⟨hsafe, hmap⟩ := h
    have hK : ∀ (dA : Differ) (p : String) (s t : JSON), C5Inv tgt0 dA →
        getAtPath tgt0 (parsePointer p) = some t →
        C5Inv tgt0 (Differ.diff f dA p s t) ∧
          (Differ.diff f dA p s t).hashmap = dA.hashmap ∧
          (Differ.diff f dA p s t).opts = dA.opts :=
      fun dA p s t h2 ht2 => ih dA p s t h2 ht2
    show C5Inv tgt0 (Differ.diff (f + 1) d ptr src tgt) ∧
      (Differ.diff (f + 1) d ptr src tgt).hashmap = d.hashmap ∧
      (Differ.diff (f + 1) d ptr src tgt).opts = d.opts
    unfold Differ.diff
    rcases src with _ | b1 | n1 | s1 | a1 | o1 <;> rcases tgt with _ | b2 | n2 | s2 | a2 | o2 <;>
      dsimp only <;>
      first
      | exact ⟨⟨hsafe, hmap⟩, rfl, rfl⟩
      | (split
         · exact ⟨⟨hsafe, hmap⟩, rfl, rfl⟩
         · split
           · split
             · exact ⟨⟨safeOps_snoc hsafe (plain_op_safe ⟨by decide, by decide⟩), hmap⟩,
                 rfl, rfl⟩
             · exact replace_c5 _ _ _ ⟨hsafe, hmap⟩
           · split
             · exact ⟨⟨hsafe, hmap⟩, rfl, rfl⟩
             · first
               | exact replace_c5 _ _ _ ⟨hsafe, hmap⟩
               | (obtain ⟨c1, c2, c3⟩ :=
                    compareArrays_c5 hw hK (f + 1) ptr a1 a2 ht ⟨hsafe, hmap⟩
                  split
                  · obtain ⟨r1, r2, r3⟩ := rationalize_c5 (f + 1) ptr _ _ _ c1
                    exact ⟨r1, r2.trans c2, r3.trans c3⟩
                  · exact ⟨c1, c2, c3⟩)
               | (obtain ⟨c1, c2, c3⟩ :=
                    compareObjects_c5 hw hK (f + 1) ptr o1 o2 ht ⟨hsafe, hmap⟩
                  split
                  · obtain ⟨r1, r2, r3⟩ := rationalize_c5 (f + 1) ptr _ _ _ c1
                    exact ⟨r1, r2.trans c2, r3.trans c3⟩
                  · exact ⟨c1, c2, c3⟩))

theorem prepare_c5 {tgt0 : JSON} :
    ∀ (f : Nat) (d : Differ) (ptr : String) (src tgt : JSON),
    (∀ n ∈ d.hashmap, getAtPath tgt0 (parsePointer n.ptr) = some n.val) →
    getAtPath tgt0 (parsePointer ptr) = some tgt →
    ∀ n ∈ (Differ.prepare f d ptr src tgt).hashmap,
      getAtPath tgt0 (parsePointer n.ptr) = some n.val := by
  intro f
  induction f with
  | zero => intro d ptr src tgt h ht; exact h
  | succ f ih =>
    intro d ptr src tgt h ht
    unfold Differ.prepare
    rcases src with _ | b1 | n1 | s1 | a1 | o1 <;> rcases tgt with _ | b2 | n2 | s2 | a2 | o2 <;>
      dsimp only <;>
      first
      | exact h
      | (split
         · exact h
         · split
           · intro n hn
             rcases hashmapInsert_mem (f + 1) hn with he | hm
             · subst he
               exact ht
             · exact h n hm
           · first
             | exact h
             | (refine foldl_pres
                  (fun dA => ∀ n ∈ dA.hashmap,
                    getAtPath tgt0 (parsePointer n.ptr) = some n.val) _ _ ?_ h
                intro dA i hi hp
                refine ih dA _ _ _ hp (site_arr_child ht ?_)
                have h1 := List.mem_range.1 hi
                have h2 := Nat.min_le_right a1.length a2.length
                omega)
             | (refine foldl_pres
                  (fun dA => ∀ n ∈ dA.hashmap,
                    getAtPath tgt0 (parsePointer n.ptr) = some n.val) _ _ ?_ h
                intro dA kv hkv hp
                cases hl : lookupField o2 kv.1 with
                | none => simp only [hl]; exact hp
                | some v2 =>
                  simp only [hl]
                  exact ih dA _ _ _ hp (site_obj_child ht hl)))

/-- C5: in every patch that Compare produces from a well-formed target
document (no duplicate object keys, as Go maps guarantee), no move or copy
operation has a from path that is a strict prefix of its path: a location
is never relocated or copied into its own descendant.  For move the guard
in Differ.add refuses any remove whose path is a string prefix of the add
path; for copy the hash index only holds genuine target locations, and a
value can never deeply equal one of its own strict subtrees. -/
theorem c5_from_path_never_strict_prefix (f : Nat) (o : Options) (src tgt : JSON)
    (hw : Wf tgt) :
    ∀ op ∈ compareP f o src tgt,
      op.type = OpType.move ∨ op.type = OpType.copy →
      ¬ PtrDescends op.fromPtr op.path := by
  intro op hm hty
  have hroot : getAtPath tgt (parsePointer emptyPtr) = some tgt := by
    rw [show parsePointer emptyPtr = [] from rfl]
    simp [getAtPath]
  unfold compareP Differ.Compare at hm
  dsimp only at hm
  by_cases hfac : (freshDiffer o).opts.factorize = true
  · rw [if_pos hfac] at hm
    have hprep := prepare_c5 f (freshDiffer o) emptyPtr src tgt
      (fun n hn => absurd hn (List.not_mem_nil n)) hroot
    have hpatch : (Differ.prepare f (freshDiffer o) emptyPtr src tgt).patch = [] :=
      prepare_patch_eq f (freshDiffer o) emptyPtr src tgt
    have hd := diff_c5 hw f (Differ.prepare f (freshDiffer o) emptyPtr src tgt)
      emptyPtr src tgt ⟨by rw [hpatch]; exact safeOps_nil, hprep⟩ hroot
    exact hd.1.1 op hm hty
  · rw [if_neg hfac] at hm
    have hd := diff_c5 hw f (freshDiffer o) emptyPtr src tgt
      ⟨safeOps_nil, fun n hn => absurd hn (List.not_mem_nil n)⟩ hroot
    exact hd.1.1 op hm hty

/-- Witness for C5 at a concrete input that does emit a copy: comparing
the object with key a against the object with keys a and ab (factorize on)
produces copy(from /a, path /ab); /a is a string prefix of /ab but not a
strict pointer prefix, and the theorem applies. -/
theorem c5_from_path_never_strict_prefix_witness :
    compareP 10 ⟨true, false, false, false, []⟩ (.obj [("a", .num 5)])
        (.obj [("a", .num 5), ("ab", .num 5)]) =
      [⟨.copy, "/a", "/ab", .null, .num 5⟩] ∧
    ¬ PtrDescends "/a" "/ab" :=
  ⟨rfl,
    c5_from_path_never_strict_prefix 10 ⟨true, false, false, false, []⟩
      (.obj [("a", .num 5)]) (.obj [("a", .num 5), ("ab", .num 5)])
      (wf_of_wfF 5 _ (by decide))
      ⟨.copy, "/a", "/ab", .null, .num 5⟩
      (by rw [show compareP 10 ⟨true, false, false, false, []⟩ (.obj [("a", .num 5)])
          (.obj [("a", .num 5), ("ab", .num 5)]) =
          [⟨.copy, "/a", "/ab", .null, .num 5⟩] from rfl]
          exact List.mem_singleton.2 rfl)
      (Or.inr rfl)⟩
